import Mathlib

/-!
# Split-read consensus assembly (`assemble`, src/src/assemble.h)

A shallow embedding of `torali::assemble`, followed by theorems about it.

Conventions of the embedding.

* A `std::string` is a `List Char` (`Sequence`); `""` is `[]`.
* A `std::vector` is a `List`; `v[i]` is `v[i]?`, and an index outside the
  vector (undefined behaviour in the source) makes the step return `none`.
* A `std::set<std::string>` is the list of its elements in increasing order,
  without repetition; `insert` is `stdSetInsert`, `size()` is `List.length`.
* `int32_t` values are integers. The window arithmetic of lines 88-98 is
  embedded twice. `windowBounds`, `accepted`, `processSlice`, `run` and
  `assemble` compute in `Int` without wrap-around: the meaning of the source
  where no operation overflows (signed overflow is undefined in the source).
  `windowBounds32`, `accepted32`, `processSlice32`, `run32` and `assemble32`
  compute in `int32_t`, every operation reduced to the two's-complement
  range as the usual builds do. `windowFits` says that no operation of lines
  85-98 overflows; under it the two embeddings agree (`assemble32_eq`), and
  where it fails they can differ (`overflowing_tuple_example`). The narrowing
  cast `(int32_t) seqStore[svid].size()` is `toInt32`.
* The collaborators that are not part of `assemble.h` (`msa`,
  `alignConsensus`, `reverseComplement`, `_translocation`, `faidx_fetch_seq`)
  are the fields of `Collaborators`; the general theorems hold for all of
  them, the concrete runs use `demoCollab`.
* The nested loops of `assemble` visit a sequence of program points that does
  not depend on the state (the loop bounds are the input's sizes). `schedule`
  lists these points in program order, `applyStep` executes one of them, and
  `assemble` runs the schedule from the initial state. A state "at some point
  of a run" is the state after a prefix of the schedule.
* `log` is ghost state: it records each call of `msa`, `alignConsensus` and of
  the lazy `faidx_fetch_seq` of line 149, in call order.
-/

namespace Delly

/-- A `std::string`: the list of its characters. -/
abbrev Sequence := List Char

/-- Modelled from the spec: `StructuralVariantRecord` is declared in delly.h,
which is not among the sources; these are the fields `assemble` reads or
writes. `chr`/`chr2` are the primary and secondary anchor contigs, `svt` the
type code, `srSupport` the expected (then realised) support, `srAlignQuality`
the alignment quality (only ever assigned `0` by `assemble`), `consensus` the
consensus sequence. -/
structure StructuralVariantRecord where
  chr : Int
  chr2 : Int
  svt : Int
  srSupport : Int
  srAlignQuality : Int
  consensus : Sequence
  deriving DecidableEq, Repr

/-- The evidence tuple `SeqSlice` (assemble.h lines 14-22). -/
structure SeqSlice where
  svid : Int
  sstart : Int
  inslen : Int
  qual : Int
  deriving DecidableEq, Repr

/-- The default constructor `SeqSlice()` of line 20. -/
def SeqSlice.default : SeqSlice := ⟨-1, -1, -1, -1⟩

/-- The part of `TeguaConfig` (tegua.h lines 36-62) that `assemble` reads. -/
structure TeguaConfig where
  maxReadPerSV : Nat
  deriving DecidableEq, Repr

/-- What `assemble` reads of one alignment record: `rec->core.flag`, the bases
decoded by lines 81-84 (`sequence`, of length `l_qseq`) and the key
`hash_lr(rec)`. -/
structure BamRecord where
  flag : Nat
  sequence : Sequence
  seed : Nat
  deriving DecidableEq, Repr

/-- One reference contig as `assemble` sees it: whether
`validRegions[refIndex].empty()` and, per input file, the records that
`sam_itr_next` yields for the contig. -/
structure Contig where
  regionsEmpty : Bool
  files : List (List BamRecord)
  deriving DecidableEq, Repr

/-- The read-only inputs of `assemble`: the contigs `0 .. n_targets - 1` in
header order and the evidence index `srStore` (a lookup by key; `none` is
`srStore.find(seed) == srStore.end()`). -/
structure Input where
  contigs : List Contig
  srStore : Nat → Option (List SeqSlice)

/-- The collaborators of `assemble`. `msa seqs old` is the consensus that
`msa(c, seqStore[svid], svs[svid].consensus)` leaves in its third argument;
`alignConsensus seq sndSeq sv` is the returned flag together with the record
as the call leaves it; `fetchSeq i` is the result of `faidx_fetch_seq` for
contig `i` (`none` is `NULL`). -/
structure Collaborators where
  msa : List Sequence → Sequence → Sequence
  reverseComplement : Sequence → Sequence
  alignConsensus :
    Option Sequence → Option Sequence → StructuralVariantRecord → Bool × StructuralVariantRecord
  translocation : Int → Bool
  fetchSeq : Nat → Option Sequence

/-- Ghost events: the calls of the collaborators, in call order. -/
inductive Event where
  | msaCall (svid : Nat) (seqs : List Sequence)
  | alignCall (svid : Nat) (primary secondary : Option Sequence)
      (arg : StructuralVariantRecord) (ok : Bool)
  | fetchSnd (refIndex refIndex2 : Nat)
  deriving DecidableEq, Repr

/-- The mutable state of `assemble`: the candidate table `svs`, the collectors
`seqStore` (line 31), the completion tracker `svcons` (line 34), the lazily
fetched secondary reference `sndSeq` (line 138) and the ghost log. -/
structure State where
  svs : List StructuralVariantRecord
  seqStore : List (List Sequence)
  svcons : List Bool
  sndSeq : Option Sequence
  log : List Event
  deriving DecidableEq, Repr

/-! ## Window arithmetic (lines 88-98) -/

/-- The radius `window` of line 88. -/
def window : Int := 1000

/-- `BAM_FREVERSE` of htslib. -/
def BAM_FREVERSE : Nat := 16

/-- The mask `BAM_FQCFAIL | BAM_FDUP | BAM_FUNMAP | BAM_FSECONDARY |
BAM_FSUPPLEMENTARY` of line 70, with htslib's values. -/
def skipMask : Nat := 512 ||| 1024 ||| 4 ||| 256 ||| 2048

/-- Whether line 70 lets the record through. -/
def eligible (rec : BamRecord) : Bool := rec.flag &&& skipMask == 0

/-- Whether `rec->core.flag & BAM_FREVERSE` (line 91). -/
def isReverse (rec : BamRecord) : Bool := rec.flag &&& BAM_FREVERSE != 0

/-- Lines 89-94: `(sPos, ePos)` before clamping. -/
def windowBounds (readlen sstart inslen : Int) (reverse : Bool) : Int × Int :=
  if reverse then
    ((readlen - (sstart + inslen)) - window, (readlen - sstart) + window)
  else
    (sstart - window, sstart + inslen + window)

/-- Lines 95-96: the two clamps. -/
def clampWindow (readlen : Int) (b : Int × Int) : Int × Int :=
  (if b.1 < 0 then 0 else b.1, if b.2 > readlen then readlen else b.2)

/-- Line 98: the acceptance test. -/
def accepted (b : Int × Int) : Bool :=
  decide (b.2 - b.1 > window) && decide (b.2 - b.1 ≤ 10000 + window)

/-- `std::string::substr(pos, len)`: throws (`none`) when `pos > size()`,
otherwise the at most `len` characters from `pos`. -/
def substr (s : Sequence) (pos len : Nat) : Option Sequence :=
  if pos ≤ s.length then some ((s.drop pos).take len) else none

/-- The cast `(int32_t) n` of an unsigned size. -/
def toInt32 (n : Nat) : Int := ((n : Int) + 2 ^ 31) % 2 ^ 32 - 2 ^ 31

/-- `std::set<std::string>::insert`: nothing when the element is present,
otherwise insertion at its place in increasing order. -/
def stdSetInsert (x : Sequence) (s : List Sequence) : List Sequence :=
  if x ∈ s then s else List.orderedInsert (fun a b => a ≤ b) x s

/-- Lines 85-99: the window bounds for a record and an evidence tuple, after
clamping. -/
def sliceWindow (rec : BamRecord) (sl : SeqSlice) : Int × Int :=
  clampWindow rec.sequence.length
    (windowBounds rec.sequence.length sl.sstart sl.inslen (isReverse rec))

/-- The value an `int32_t` holds after an arithmetic result `x`: `x` reduced
to the two's-complement range. -/
def wrap32 (x : Int) : Int := (x + 2 ^ 31) % 2 ^ 32 - 2 ^ 31

/-- Whether `x` is representable as `int32_t`. -/
def fitsInt32 (x : Int) : Bool := decide (-(2 : Int) ^ 31 ≤ x ∧ x < 2 ^ 31)

/-- Lines 89-94 in `int32_t`: `(sPos, ePos)` before clamping, every
operation wrapped. -/
def windowBounds32 (readlen sstart inslen : Int) (reverse : Bool) : Int × Int :=
  if reverse then
    (wrap32 (wrap32 (readlen - wrap32 (sstart + inslen)) - window),
     wrap32 (wrap32 (readlen - sstart) + window))
  else
    (wrap32 (sstart - window), wrap32 (wrap32 (sstart + inslen) + window))

/-- Lines 89-96 in `int32_t`: `(sPos, ePos)` after the two clamps. -/
def clampedWindow32 (readlen sstart inslen : Int) (reverse : Bool) : Int × Int :=
  clampWindow readlen (windowBounds32 readlen sstart inslen reverse)

/-- Line 98 in `int32_t`: the acceptance test on the wrapped difference
`ePos - sPos`. -/
def accepted32 (b : Int × Int) : Bool :=
  decide (wrap32 (b.2 - b.1) > window) && decide (wrap32 (b.2 - b.1) ≤ 10000 + window)

/-- Lines 85-96 in `int32_t` for a record and an evidence tuple: `readlen` is
the narrowed `sequence.size()` of line 85. -/
def sliceWindow32 (rec : BamRecord) (sl : SeqSlice) : Int × Int :=
  clampedWindow32 (toInt32 rec.sequence.length) sl.sstart sl.inslen (isReverse rec)

/-- No operation of lines 85-98 overflows `int32_t`: the operands and every
intermediate result are representable. Lines 89-90 are evaluated for both
strands, lines 92-93 for reverse-strand records only. -/
def windowFits (readlen sstart inslen : Int) (reverse : Bool) : Bool :=
  fitsInt32 readlen && fitsInt32 sstart && fitsInt32 inslen &&
  fitsInt32 (sstart - window) && fitsInt32 (sstart + inslen) &&
  fitsInt32 (sstart + inslen + window) &&
  (!reverse ||
    (fitsInt32 (readlen - (sstart + inslen)) &&
     fitsInt32 (readlen - (sstart + inslen) - window) &&
     fitsInt32 (readlen - sstart) && fitsInt32 (readlen - sstart + window))) &&
  fitsInt32 ((clampWindow readlen (windowBounds readlen sstart inslen reverse)).2
    - (clampWindow readlen (windowBounds readlen sstart inslen reverse)).1)

/-- No operation of lines 85-98 overflows for this record and tuple. -/
def sliceFits (rec : BamRecord) (sl : SeqSlice) : Bool :=
  windowFits rec.sequence.length sl.sstart sl.inslen (isReverse rec)

/-- Lines 99-102: `seqalign` as it is inserted, for an accepted window:
the substring, reverse-complemented for type codes 5 and 6 on the candidate's
primary contig. -/
def orientWindow (cb : Collaborators) (refIndex : Nat) (r : StructuralVariantRecord)
    (seqalign : Sequence) : Sequence :=
  if (r.svt = 5 ∨ r.svt = 6) ∧ r.chr = refIndex then cb.reverseComplement seqalign else seqalign

/-! ## The finalize body (lines 108-123 and 142-165) -/

/-- Lines 120-122, 162-164 and 188-190: the failure reset. -/
def resetRecord (r : StructuralVariantRecord) : StructuralVariantRecord :=
  { r with consensus := [], srSupport := 0, srAlignQuality := 0 }

/-- Lines 112-114 and 154-156: the record handed to `alignConsensus`, with
the consensus built by `msa` and reverse-complemented for type codes 1 and 5. -/
def consensusRecord (cb : Collaborators) (seqs : List Sequence) (r : StructuralVariantRecord) :
    StructuralVariantRecord :=
  let r1 := { r with consensus := cb.msa seqs r.consensus }
  if r1.svt = 1 ∨ r1.svt = 5 then
    { r1 with consensus := cb.reverseComplement r1.consensus }
  else r1

/-- The body shared by the two trigger sites (lines 108-123 with
`sndSeq = NULL`, lines 142-165 after the lazy fetch): the record it leaves and
the collaborator calls it makes. -/
def consensusPipeline (cb : Collaborators) (seq sndSeq : Option Sequence) (svid : Nat)
    (seqs : List Sequence) (r : StructuralVariantRecord) :
    StructuralVariantRecord × List Event :=
  if seqs.length > 1 then
    let r2 := consensusRecord cb seqs r
    let res := cb.alignConsensus seq sndSeq r2
    (if res.1 then res.2 else resetRecord res.2,
      [Event.msaCall svid seqs, Event.alignCall svid seq sndSeq r2 res.1])
  else
    (resetRecord r, [])

/-- Lines 124-125 and 166-167 after the finalize body: store the record, clear
the collector, set the completion flag, extend the log. -/
def finalize (cb : Collaborators) (seq sndSeq : Option Sequence) (svid : Nat)
    (seqs : List Sequence) (r : StructuralVariantRecord) (st : State) : State :=
  let out := consensusPipeline cb seq sndSeq svid seqs r
  { st with
    svs := st.svs.set svid out.1
    seqStore := st.seqStore.set svid []
    svcons := st.svcons.set svid true
    log := st.log ++ out.2 }

/-! ## The program points -/

/-- The index `svid` of lines 75-79 as a vector position: a negative value is
no position of any vector. -/
def toIndex (svid : Int) : Option Nat :=
  if 0 ≤ svid then some svid.toNat else none

/-- Lines 75-129: one evidence tuple of one eligible record, on contig
`refIndex` whose fetched sequence is `seq`. The secondary reference passed
to `alignConsensus` at line 116 is `NULL`. -/
def processSlice (c : TeguaConfig) (cb : Collaborators) (refIndex : Nat)
    (seq : Option Sequence) (rec : BamRecord) (sl : SeqSlice) (st : State) : Option State :=
  match toIndex sl.svid with
  | none => none
  | some svid =>
    match st.svcons[svid]? with
    | none => none
    | some true => some st
    | some false =>
      match st.seqStore[svid]? with
      | none => none
      | some seqs =>
        if seqs.length < c.maxReadPerSV then
          let b := sliceWindow rec sl
          if accepted b then
            match substr rec.sequence b.1.toNat (b.2 - b.1).toNat, st.svs[svid]? with
            | some seqalign, some r =>
              let seqs1 := stdSetInsert (orientWindow cb refIndex r seqalign) seqs
              let st1 := { st with seqStore := st.seqStore.set svid seqs1 }
              if (!cb.translocation r.svt) ∧ r.chr = refIndex then
                if seqs1.length = c.maxReadPerSV ∨ toInt32 seqs1.length = r.srSupport then
                  some (finalize cb seq none svid seqs1 r st1)
                else some st1
              else some st1
            | _, _ => none
          else some st
        else some st

/-- Lines 75-129 with the window arithmetic in `int32_t`: `processSlice` with
`sliceWindow32` and `accepted32`, and `substr` called with the wrapped
difference `ePos - sPos`. -/
def processSlice32 (c : TeguaConfig) (cb : Collaborators) (refIndex : Nat)
    (seq : Option Sequence) (rec : BamRecord) (sl : SeqSlice) (st : State) : Option State :=
  match toIndex sl.svid with
  | none => none
  | some svid =>
    match st.svcons[svid]? with
    | none => none
    | some true => some st
    | some false =>
      match st.seqStore[svid]? with
      | none => none
      | some seqs =>
        if seqs.length < c.maxReadPerSV then
          let b := sliceWindow32 rec sl
          if accepted32 b then
            match substr rec.sequence b.1.toNat (wrap32 (b.2 - b.1)).toNat, st.svs[svid]? with
            | some seqalign, some r =>
              let seqs1 := stdSetInsert (orientWindow cb refIndex r seqalign) seqs
              let st1 := { st with seqStore := st.seqStore.set svid seqs1 }
              if (!cb.translocation r.svt) ∧ r.chr = refIndex then
                if seqs1.length = c.maxReadPerSV ∨ toInt32 seqs1.length = r.srSupport then
                  some (finalize cb seq none svid seqs1 r st1)
                else some st1
              else some st1
            | _, _ => none
          else some st
        else some st

/-- Lines 140-168: one candidate of the deferred sweep of the pair
`(refIndex, refIndex2)`. -/
def sweepCandidate (cb : Collaborators) (refIndex refIndex2 : Nat) (seq : Option Sequence)
    (svid : Nat) (st : State) : Option State :=
  match st.svcons[svid]? with
  | none => none
  | some true => some st
  | some false =>
    match st.svs[svid]? with
    | none => none
    | some r =>
      if r.chr ≠ refIndex ∨ r.chr2 ≠ refIndex2 then some st
      else
        match st.seqStore[svid]? with
        | none => none
        | some seqs =>
          let st1 :=
            if seqs.length > 1 ∧ refIndex ≠ refIndex2 ∧ st.sndSeq = none then
              { st with
                sndSeq := cb.fetchSeq refIndex2
                log := st.log ++ [Event.fetchSnd refIndex refIndex2] }
            else st
          some (finalize cb seq st1.sndSeq svid seqs r st1)

/-- Lines 186-191: one candidate of the terminal sweep. -/
def terminalCandidate (svid : Nat) (st : State) : Option State :=
  match st.svcons[svid]? with
  | none => none
  | some true => some st
  | some false =>
    match st.svs[svid]? with
    | none => none
    | some r => some { st with svs := st.svs.set svid (resetRecord r) }

/-- The program points of `assemble` that touch the state. -/
inductive Step where
  | slice (refIndex : Nat) (seq : Option Sequence) (rec : BamRecord) (sl : SeqSlice)
  | openPair (refIndex refIndex2 : Nat)
  | sweep (refIndex refIndex2 : Nat) (seq : Option Sequence) (svid : Nat)
  | terminal (svid : Nat)
  deriving DecidableEq, Repr

/-- Executes one program point. `openPair` is line 138 (`sndSeq = NULL`). -/
def applyStep (c : TeguaConfig) (cb : Collaborators) (s : Step) (st : State) : Option State :=
  match s with
  | Step.slice refIndex seq rec sl => processSlice c cb refIndex seq rec sl st
  | Step.openPair _ _ => some { st with sndSeq := none }
  | Step.sweep refIndex refIndex2 seq svid => sweepCandidate cb refIndex refIndex2 seq svid st
  | Step.terminal svid => terminalCandidate svid st

/-- Runs a list of program points in order; `none` as soon as one faults. -/
def run (c : TeguaConfig) (cb : Collaborators) : List Step → State → Option State
  | [], st => some st
  | s :: rest, st =>
    match applyStep c cb s st with
    | none => none
    | some st1 => run c cb rest st1

/-- The evidence tuple of a slice step is processed without `int32_t`
overflow; the other program points have no such arithmetic. -/
def Step.noOverflow : Step → Bool
  | Step.slice _ _ rec sl => sliceFits rec sl
  | _ => true

/-- Executes one program point, the window arithmetic in `int32_t`. -/
def applyStep32 (c : TeguaConfig) (cb : Collaborators) (s : Step) (st : State) : Option State :=
  match s with
  | Step.slice refIndex seq rec sl => processSlice32 c cb refIndex seq rec sl st
  | Step.openPair _ _ => some { st with sndSeq := none }
  | Step.sweep refIndex refIndex2 seq svid => sweepCandidate cb refIndex refIndex2 seq svid st
  | Step.terminal svid => terminalCandidate svid st

/-- Runs a list of program points in order, the window arithmetic in
`int32_t`; `none` as soon as one faults. -/
def run32 (c : TeguaConfig) (cb : Collaborators) : List Step → State → Option State
  | [], st => some st
  | s :: rest, st =>
    match applyStep32 c cb s st with
    | none => none
    | some st1 => run32 c cb rest st1

/-! ## The schedule (the loop nest of lines 54-192) -/

/-- Lines 70-75: the tuples of one record, none when the record is filtered
out or its key is not in the index. -/
def recordSteps (inp : Input) (refIndex : Nat) (seq : Option Sequence) (rec : BamRecord) :
    List Step :=
  if eligible rec then
    match inp.srStore rec.seed with
    | none => []
    | some slices => slices.map (Step.slice refIndex seq rec)
  else []

/-- Lines 64-135: all files, all records of the contig. -/
def forwardSteps (inp : Input) (refIndex : Nat) (seq : Option Sequence)
    (files : List (List BamRecord)) : List Step :=
  files.flatMap (fun recs => recs.flatMap (recordSteps inp refIndex seq))

/-- Lines 138-170: the sweep of one pair over all `n` candidates. -/
def pairSteps (n refIndex : Nat) (seq : Option Sequence) (refIndex2 : Nat) : List Step :=
  Step.openPair refIndex refIndex2 :: (List.range n).map (Step.sweep refIndex refIndex2 seq)

/-- Lines 137-171: the pairs `refIndex2 = 0 .. refIndex`. -/
def sweepSteps (n refIndex : Nat) (seq : Option Sequence) : List Step :=
  (List.range (refIndex + 1)).flatMap (pairSteps n refIndex seq)

/-- Lines 54-175 for one contig: nothing when its region filter is empty
(line 56), otherwise the forward pass followed by the deferred sweep, both
with the sequence fetched at line 61. -/
def contigSteps (cb : Collaborators) (inp : Input) (n : Nat) (refIndex : Nat) (ctg : Contig) :
    List Step :=
  if ctg.regionsEmpty then []
  else
    forwardSteps inp refIndex (cb.fetchSeq refIndex) ctg.files
      ++ sweepSteps n refIndex (cb.fetchSeq refIndex)

/-- The contig loop of lines 54-175 over `contigs`, the first of which has
index `start`. -/
def contigLoop (cb : Collaborators) (inp : Input) (n : Nat) : Nat → List Contig → List Step
  | _, [] => []
  | start, ctg :: rest =>
    contigSteps cb inp n start ctg ++ contigLoop cb inp n (start + 1) rest

/-- Lines 185-192: the terminal sweep. -/
def terminalSteps (n : Nat) : List Step := (List.range n).map Step.terminal

/-- All program points of a run over a table of `n` candidates. -/
def schedule (cb : Collaborators) (inp : Input) (n : Nat) : List Step :=
  contigLoop cb inp n 0 inp.contigs ++ terminalSteps n

/-- Lines 31 and 34: empty collectors, all flags false. -/
def initState (svs : List StructuralVariantRecord) : State :=
  { svs := svs
    seqStore := List.replicate svs.length []
    svcons := List.replicate svs.length false
    sndSeq := none
    log := [] }

/-- The function `assemble` (lines 25-193): the state after the whole
schedule, `none` if some step faults. -/
def assemble (c : TeguaConfig) (cb : Collaborators) (inp : Input)
    (svs : List StructuralVariantRecord) : Option State :=
  run c cb (schedule cb inp svs.length) (initState svs)

/-- The function `assemble` with the window arithmetic in `int32_t`. -/
def assemble32 (c : TeguaConfig) (cb : Collaborators) (inp : Input)
    (svs : List StructuralVariantRecord) : Option State :=
  run32 c cb (schedule cb inp svs.length) (initState svs)

/-! ## Vocabulary of the theorems -/

/-- Whether the event is a call of `msa` for candidate `k`. -/
def Event.isMsaFor (k : Nat) : Event → Bool
  | Event.msaCall svid _ => svid == k
  | _ => false

/-- Whether the event is a call of `alignConsensus` for candidate `k`. -/
def Event.isAlignFor (k : Nat) : Event → Bool
  | Event.alignCall svid _ _ _ _ => svid == k
  | _ => false

/-- Whether the event is the lazy fetch of line 149 for the pair `(i, j)`. -/
def Event.isFetchFor (i j : Nat) : Event → Bool
  | Event.fetchSnd refIndex refIndex2 => refIndex == i && refIndex2 == j
  | _ => false

/-- Whether the event is a collaborator call made for candidate `k`. -/
def Event.concerns (k : Nat) (e : Event) : Bool := e.isMsaFor k || e.isAlignFor k

/-- The number of lazy fetches logged for the pair `(i, j)`. -/
def fetchCount (i j : Nat) (st : State) : Nat := st.log.countP (Event.isFetchFor i j)

/-- The evidence tuple of a slice step names a row of a table of `n`
candidates; the other program points take their index from a loop over the
table. -/
def Step.wellIndexed (n : Nat) : Step → Bool
  | Step.slice _ _ _ sl => decide (0 ≤ sl.svid ∧ sl.svid < (n : Int))
  | _ => true

/-- Whether the step belongs to the forward per-read pass. -/
def Step.isSlice : Step → Bool
  | Step.slice _ _ _ _ => true
  | _ => false

/-- Whether the step belongs to the terminal sweep. -/
def Step.isTerminal : Step → Bool
  | Step.terminal _ => true
  | _ => false

/-- The contig pair of a deferred-sweep program point. -/
def Step.pair : Step → Option (Nat × Nat)
  | Step.openPair refIndex refIndex2 => some (refIndex, refIndex2)
  | Step.sweep refIndex refIndex2 _ _ => some (refIndex, refIndex2)
  | _ => none

/-- Whether the step is the deferred-sweep visit of candidate `k` for the
pair `(i, j)`. -/
def Step.finalises (i j k : Nat) : Step → Bool
  | Step.sweep refIndex refIndex2 _ svid => refIndex == i && refIndex2 == j && svid == k
  | _ => false

/-- The steps that precede the deferred-sweep visit of candidate `k` for the
pair `(B, A)`: the contigs before `B`, the forward pass of `B`, the pairs
before `(B, A)`, and the candidates before `k` of the pair itself. -/
def stepsBefore (cb : Collaborators) (inp : Input) (n A B k : Nat) (ctg : Contig) : List Step :=
  (contigLoop cb inp n 0 (inp.contigs.take B) ++
    (forwardSteps inp B (cb.fetchSeq B) ctg.files ++
      (List.range A).flatMap (pairSteps n B (cb.fetchSeq B)))) ++
    (Step.openPair B A :: (List.range k).map (Step.sweep B A (cb.fetchSeq B)))

/-- The failed terminal state of a record. -/
def IsFailed (r : StructuralVariantRecord) : Prop :=
  r.consensus = [] ∧ r.srSupport = 0 ∧ r.srAlignQuality = 0

instance (r : StructuralVariantRecord) : Decidable (IsFailed r) := by
  unfold IsFailed
  infer_instance

/-- The validated terminal state of candidate `k`: a non-empty consensus,
positive support, and the record (its quality included) exactly as a
successful call of `alignConsensus` for `k` left it. -/
def IsValidated (cb : Collaborators) (log : List Event) (k : Nat)
    (r : StructuralVariantRecord) : Prop :=
  r.consensus ≠ [] ∧ 0 < r.srSupport ∧
    ∃ p s a, Event.alignCall k p s a true ∈ log ∧ cb.alignConsensus p s a = (true, r)

/-- The collaborator hypothesis of the terminal-state theorem:
`alignConsensus` reports success only with a non-empty consensus and a
positive support in the record. -/
@[reducible] def AlignerSound (cb : Collaborators) : Prop :=
  ∀ (p s : Option Sequence) (a : StructuralVariantRecord), (cb.alignConsensus p s a).1 = true →
    (cb.alignConsensus p s a).2.consensus ≠ [] ∧ 0 < (cb.alignConsensus p s a).2.srSupport

/-! ## Elementary state changes and invariants (used by the proofs) -/

/-- The elementary state changes that the program points are made of: the
reset of `sndSeq` (line 138), the lazy fetch (lines 146-150), an insertion into
a collector (line 103), a finalisation (lines 108-125, 142-167) and the
terminal reset (lines 188-190). -/
inductive Micro (c : TeguaConfig) (cb : Collaborators) : State → State → Prop
  | openPair (st : State) : Micro c cb st { st with sndSeq := none }
  | fetch (st : State) (i j : Nat) :
      Micro c cb st { st with sndSeq := cb.fetchSeq j, log := st.log ++ [Event.fetchSnd i j] }
  | insert (st : State) (k : Nat) (seqs : List Sequence) (refIndex : Nat)
      (r : StructuralVariantRecord) (w0 : Sequence) :
      st.svcons[k]? = some false → st.seqStore[k]? = some seqs →
      seqs.length < c.maxReadPerSV → st.svs[k]? = some r →
      1000 < w0.length → w0.length ≤ 11000 →
      Micro c cb st
        { st with seqStore := st.seqStore.set k (stdSetInsert (orientWindow cb refIndex r w0) seqs) }
  | finalize (st : State) (k : Nat) (seqs : List Sequence) (r : StructuralVariantRecord)
      (seq snd : Option Sequence) :
      st.svcons[k]? = some false → st.seqStore[k]? = some seqs → st.svs[k]? = some r →
      Micro c cb st (finalize cb seq snd k seqs r st)
  | reset (st : State) (k : Nat) (r : StructuralVariantRecord) :
      st.svcons[k]? = some false → st.svs[k]? = some r →
      Micro c cb st { st with svs := st.svs.set k (resetRecord r) }

/-- The states that chains of elementary changes reach from `st`. -/
def Reaches (c : TeguaConfig) (cb : Collaborators) (st st1 : State) : Prop :=
  Relation.ReflTransGen (Micro c cb) st st1

/-- The three vectors keep the size of the candidate table. -/
@[reducible] def Sized (n : Nat) (st : State) : Prop :=
  st.svs.length = n ∧ st.seqStore.length = n ∧ st.svcons.length = n

/-- Collectors are duplicate-free and within the cap. -/
@[reducible] def CollectorsOk (c : TeguaConfig) (st : State) : Prop :=
  ∀ (k : Nat) (seqs : List Sequence), st.seqStore[k]? = some seqs →
    seqs.length ≤ c.maxReadPerSV ∧ seqs.Nodup

/-- Every collected string has a length in `(1000, 11000]`. -/
@[reducible] def LengthsOk (st : State) : Prop :=
  ∀ (k : Nat) (seqs : List Sequence), st.seqStore[k]? = some seqs →
    ∀ s ∈ seqs, 1000 < s.length ∧ s.length ≤ 11000

/-- The log of a reachable state: `msa` only ever saw two or more distinct
sequences, an unfinalised candidate has no call yet, and no candidate has
more than one call of either collaborator. -/
@[reducible] def LogOk (st : State) : Prop :=
  (∀ (k : Nat) (seqs : List Sequence), Event.msaCall k seqs ∈ st.log →
    2 ≤ seqs.length ∧ seqs.Nodup) ∧
  (∀ k : Nat, st.svcons[k]? = some false → ∀ e ∈ st.log, e.concerns k = false) ∧
  (∀ k : Nat, st.log.countP (Event.isMsaFor k) ≤ 1 ∧ st.log.countP (Event.isAlignFor k) ≤ 1)

/-- The index that a sweep step takes from its loop lies in the table. -/
def Step.loopOk (n : Nat) : Step → Bool
  | Step.sweep _ _ _ svid => decide (svid < n)
  | Step.terminal svid => decide (svid < n)
  | _ => true

/-- Every finalised candidate is validated or failed. -/
@[reducible] def Settled (cb : Collaborators) (st : State) : Prop :=
  ∀ (k : Nat) (r : StructuralVariantRecord), st.svcons[k]? = some true → st.svs[k]? = some r →
    IsValidated cb st.log k r ∨ IsFailed r

/-- After the terminal sweep has visited the rows below `m`, each of them is
finalised or failed. -/
@[reducible] def SweptBelow (m : Nat) (st : State) : Prop :=
  ∀ (k : Nat) (r : StructuralVariantRecord), k < m → st.svs[k]? = some r →
    st.svcons[k]? = some false → IsFailed r

/-- What one evidence tuple can do to a candidate that it does not finalise:
flag and record stay, the collector can only grow, and no collaborator is
called for it. -/
@[reducible] def Spared (k : Nat) (st st1 : State) : Prop :=
  st1.svcons[k]? = st.svcons[k]? ∧ st1.svs[k]? = st.svs[k]? ∧
  (∀ seqs : List Sequence, st.seqStore[k]? = some seqs →
    ∃ seqs1, st1.seqStore[k]? = some seqs1 ∧ seqs ⊆ seqs1) ∧
  ∃ evs, st1.log = st.log ++ evs ∧ ∀ e ∈ evs, e.concerns k = false

/-- Candidate `k` is not finalised and its record is still `r`. -/
@[reducible] def Pending (k : Nat) (r : StructuralVariantRecord) (st : State) : Prop :=
  st.svcons[k]? = some false ∧ st.svs[k]? = some r

/-- The forward-pass trigger cannot fire for candidate `k` in state `st`: it
is of translocation type, or no insertion brings its collector to the cap or
to its expected support. -/
@[reducible] def QuietSlice (c : TeguaConfig) (cb : Collaborators) (k : Nat)
    (r : StructuralVariantRecord) (st : State) : Prop :=
  cb.translocation r.svt = true ∨
    ∀ (seqs : List Sequence) (w : Sequence), st.seqStore[k]? = some seqs →
      (stdSetInsert w seqs).length ≠ c.maxReadPerSV ∧
      toInt32 (stdSetInsert w seqs).length ≠ r.srSupport

/-- During the sweep of the pair `(B, A)`: either nothing has been fetched and
`sndSeq` is `NULL`, or the one fetch has been made and `sndSeq` holds its
result `a`. -/
@[reducible] def PairInv (i j : Nat) (a : Sequence) (st : State) : Prop :=
  (st.sndSeq = none ∧ fetchCount i j st = 0) ∨ (st.sndSeq = some a ∧ fetchCount i j st = 1)

/-! ## Concrete runs (scenarios A, C, D and E of the specification) -/

/-- Collaborators of the concrete runs: `msa` returns the first sequence,
`reverseComplement` reverses, `alignConsensus` accepts a non-empty consensus
with support 2 and quality 1, `_translocation` is `5 ≤ svt`, and the
reference provider returns a one-base sequence naming the contig. -/
def demoCollab : Collaborators where
  msa := fun seqs _ => seqs.headD []
  reverseComplement := List.reverse
  alignConsensus := fun _ _ r =>
    if r.consensus = [] then (false, r) else (true, { r with srSupport := 2, srAlignQuality := 1 })
  translocation := fun svt => decide (5 ≤ svt)
  fetchSeq := fun i => some [Char.ofNat (65 + i)]

/-- Collaborators whose reference provider has no sequence for contig 0:
`faidx_fetch_seq` returns `NULL` there. -/
def demoCollabNoRef : Collaborators :=
  { demoCollab with fetchSeq := fun i => if i = 0 then none else some [Char.ofNat (65 + i)] }

/-- A forward-strand primary read of 1001 bases that starts with `ch`, with
key `seed`. -/
def demoRead (ch : Char) (seed : Nat) : BamRecord :=
  { flag := 0, sequence := ch :: List.replicate 1000 'A', seed := seed }

/-- The window that `demoRead ch` contributes for `localOffset = 500`,
`insertedLength = 20`: the whole read. -/
def demoWindow (ch : Char) : Sequence := ch :: List.replicate 1000 'A'

/-- Scenario A: one contig, one sample with the reads `A.., C.., G..`, all
with the key 1 that maps to the tuple `(0, 500, 20)`. -/
def scenarioA : Input where
  contigs := [{ regionsEmpty := false,
                files := [[demoRead 'A' 1, demoRead 'C' 1, demoRead 'G' 1]] }]
  srStore := fun seed => if seed = 1 then some [⟨0, 500, 20, 0⟩] else none

/-- The candidate of scenario A: a deletion-type record on contig 0 with
expected support 3. -/
def candidateA : StructuralVariantRecord :=
  { chr := 0, chr2 := 0, svt := 2, srSupport := 3, srAlignQuality := 0, consensus := [] }

/-- The record of scenario A as `msa` and the orientation step hand it to
`alignConsensus`. -/
def candidateAConsensus : StructuralVariantRecord :=
  { candidateA with consensus := demoWindow 'A' }

/-- The first two program points of scenario A. -/
def stepsA2 : List Step :=
  [Step.slice 0 (some ['A']) (demoRead 'A' 1) ⟨0, 500, 20, 0⟩,
   Step.slice 0 (some ['A']) (demoRead 'C' 1) ⟨0, 500, 20, 0⟩]

/-- The state of scenario A after the first two reads. -/
def stateA2 : State where
  svs := [candidateA]
  seqStore := [[demoWindow 'A', demoWindow 'C']]
  svcons := [false]
  sndSeq := none
  log := []

/-- The third program point of scenario A. -/
def stepA3 : Step := Step.slice 0 (some ['A']) (demoRead 'G' 1) ⟨0, 500, 20, 0⟩

/-- The state of scenario A after the third read: the candidate is
finalised. -/
def stateA3 : State where
  svs := [{ candidateAConsensus with srSupport := 2, srAlignQuality := 1 }]
  seqStore := [[]]
  svcons := [true]
  sndSeq := none
  log := [Event.msaCall 0 [demoWindow 'A', demoWindow 'C', demoWindow 'G'],
          Event.alignCall 0 (some ['A']) none candidateAConsensus true]

/-- The program points of scenario A after the forward pass: the deferred
sweep of the pair `(0, 0)` and the terminal sweep. -/
def stepsARest : List Step :=
  [Step.openPair 0 0, Step.sweep 0 0 (some ['A']) 0, Step.terminal 0]

/-- Scenario C: one contig, one sample with five reads that all yield the
same window for the tuple `(0, 500, 20)`. -/
def scenarioC : Input where
  contigs := [{ regionsEmpty := false,
                files := [[demoRead 'A' 1, demoRead 'A' 1, demoRead 'A' 1, demoRead 'A' 1,
                           demoRead 'A' 1]] }]
  srStore := fun seed => if seed = 1 then some [⟨0, 500, 20, 0⟩] else none

/-- The state of scenario C when the terminal sweep begins. -/
def stateC : State where
  svs := [resetRecord candidateA]
  seqStore := [[]]
  svcons := [true]
  sndSeq := none
  log := []

/-- Scenario E: two contigs with one read each, both with the key 2 that maps
to the tuple `(0, 500, 20)`. -/
def scenarioE : Input where
  contigs := [{ regionsEmpty := false, files := [[demoRead 'A' 2]] },
              { regionsEmpty := false, files := [[demoRead 'C' 2]] }]
  srStore := fun seed => if seed = 2 then some [⟨0, 500, 20, 0⟩] else none

/-- The candidate of scenario E: a translocation-type record (type code 7)
with primary anchor on contig 1 and secondary anchor on contig 0. -/
def candidateE : StructuralVariantRecord :=
  { chr := 1, chr2 := 0, svt := 7, srSupport := 2, srAlignQuality := 0, consensus := [] }

/-- The record of scenario E as it is handed to `alignConsensus`. -/
def candidateEConsensus : StructuralVariantRecord :=
  { candidateE with consensus := demoWindow 'A' }

/-- The state of scenario E after the forward pass of contig 0. -/
def stateE1 : State where
  svs := [candidateE]
  seqStore := [[demoWindow 'A']]
  svcons := [false]
  sndSeq := none
  log := []

/-- The state of scenario E after the forward pass of contig 1, the primary
anchor of the candidate: the collector holds both windows, as many as the
expected support, and the candidate is not finalised. -/
def stateE2 : State where
  svs := [candidateE]
  seqStore := [[demoWindow 'A', demoWindow 'C']]
  svcons := [false]
  sndSeq := none
  log := []

/-- The candidate of scenario E with a deletion type code in place of the
translocation type code. -/
def candidateEPlain : StructuralVariantRecord := { candidateE with svt := 2 }

/-- Scenario E with two candidates: every read carries a tuple for candidate
0 and one for candidate 1. -/
def scenarioE2 : Input where
  contigs := [{ regionsEmpty := false, files := [[demoRead 'A' 2]] },
              { regionsEmpty := false, files := [[demoRead 'C' 2]] }]
  srStore := fun seed => if seed = 2 then some [⟨0, 500, 20, 0⟩, ⟨1, 500, 20, 0⟩] else none

/-- The final state of scenario E with two candidates and no sequence for
contig 0. -/
def stateE2NoRef : State where
  svs := [{ candidateEConsensus with srSupport := 2, srAlignQuality := 1 },
          { candidateEConsensus with srSupport := 2, srAlignQuality := 1 }]
  seqStore := [[], []]
  svcons := [true, true]
  sndSeq := none
  log := [Event.fetchSnd 1 0,
          Event.msaCall 0 [demoWindow 'A', demoWindow 'C'],
          Event.alignCall 0 (some ['B']) none candidateEConsensus true,
          Event.fetchSnd 1 0,
          Event.msaCall 1 [demoWindow 'A', demoWindow 'C'],
          Event.alignCall 1 (some ['B']) none candidateEConsensus true]

/-- Scenario D: a reverse-strand primary read of 2000 bases (`BAM_FREVERSE`
set), with key 4. -/
def readDReverse : BamRecord :=
  { flag := 16, sequence := List.replicate 2000 'A', seed := 4 }

/-- The forward-strand read of scenario D: the same 2000 bases, no flag. -/
def readDForward : BamRecord :=
  { flag := 0, sequence := List.replicate 2000 'A', seed := 4 }

/-- A forward-strand read of 100 bases. -/
def readShort : BamRecord :=
  { flag := 0, sequence := List.replicate 100 'A', seed := 5 }

/-- A reverse-strand read of 100 bases. -/
def readShortReverse : BamRecord :=
  { flag := 16, sequence := List.replicate 100 'A', seed := 5 }

/-! ## Sets, windows -/

theorem stdSetInsert_nodup (x : Sequence) (s : List Sequence) (h : s.Nodup) :
    (stdSetInsert x s).Nodup := by
  unfold stdSetInsert
  split
  · exact h
  · rename_i hx
    exact ((List.perm_orderedInsert _ x s).nodup_iff).2 (List.nodup_cons.2 ⟨hx, h⟩)

theorem stdSetInsert_length_le (x : Sequence) (s : List Sequence) :
    (stdSetInsert x s).length ≤ s.length + 1 := by
  unfold stdSetInsert
  split
  · omega
  · simp [List.orderedInsert_length]

theorem mem_stdSetInsert {x y : Sequence} {s : List Sequence} :
    y ∈ stdSetInsert x s ↔ y = x ∨ y ∈ s := by
  unfold stdSetInsert
  split
  · rename_i hx
    constructor
    · exact fun h => Or.inr h
    · rintro (rfl | h)
      · exact hx
      · exact h
  · exact List.mem_orderedInsert _

/-- Whenever the test of line 98 passes, the clamped bounds satisfy
`0 ≤ sPos < ePos ≤ readlen`, so `substr` does not throw and returns exactly
`ePos - sPos` characters, more than 1000 and at most 11000. -/
theorem window_in_range (rec : BamRecord) (sl : SeqSlice)
    (h : accepted (sliceWindow rec sl) = true) :
    0 ≤ (sliceWindow rec sl).1 ∧ (sliceWindow rec sl).1 < (sliceWindow rec sl).2 ∧
    (sliceWindow rec sl).2 ≤ rec.sequence.length ∧
    ∃ w, substr rec.sequence (sliceWindow rec sl).1.toNat
        ((sliceWindow rec sl).2 - (sliceWindow rec sl).1).toNat = some w ∧
      (w.length : Int) = (sliceWindow rec sl).2 - (sliceWindow rec sl).1 ∧
      1000 < w.length ∧ w.length ≤ 11000 := by
  simp only [accepted, window, Bool.and_eq_true, decide_eq_true_eq] at h
  obtain ⟨h1, h2⟩ := h
  have hs : 0 ≤ (sliceWindow rec sl).1 := by
    simp only [sliceWindow, clampWindow]
    split <;> omega
  have he : (sliceWindow rec sl).2 ≤ rec.sequence.length := by
    simp only [sliceWindow, clampWindow]
    split <;> omega
  refine ⟨hs, by omega, he, ?_⟩
  generalize (sliceWindow rec sl).1 = a at *
  generalize (sliceWindow rec sl).2 = b at *
  have hsub : a.toNat ≤ rec.sequence.length := by omega
  refine ⟨(rec.sequence.drop a.toNat).take (b - a).toNat, by simp [substr, hsub], ?_⟩
  have hlen : ((rec.sequence.drop a.toNat).take (b - a).toNat).length = (b - a).toNat := by
    rw [List.length_take, List.length_drop]
    omega
  rw [hlen]
  omega

/-! ## Running lists of steps -/

theorem run_append (c : TeguaConfig) (cb : Collaborators) (p q : List Step) (st : State) :
    run c cb (p ++ q) st = (run c cb p st).bind (run c cb q) := by
  induction p generalizing st with
  | nil => rfl
  | cons s p ih =>
    simp only [List.cons_append, run]
    cases applyStep c cb s st with
    | none => rfl
    | some st1 => exact ih st1

theorem run_append_some {c : TeguaConfig} {cb : Collaborators} {p q : List Step} {st st2 : State}
    (h : run c cb (p ++ q) st = some st2) :
    ∃ st1, run c cb p st = some st1 ∧ run c cb q st1 = some st2 := by
  rw [run_append] at h
  cases h1 : run c cb p st with
  | none => simp [h1] at h
  | some st1 => exact ⟨st1, rfl, by simpa [h1] using h⟩

/-- The outcomes of one evidence tuple. -/
theorem processSlice_cases {c : TeguaConfig} {cb : Collaborators} {refIndex : Nat}
    {seq : Option Sequence} {rec : BamRecord} {sl : SeqSlice} {st st1 : State}
    (h : processSlice c cb refIndex seq rec sl st = some st1) :
    ∃ k, toIndex sl.svid = some k ∧ k < st.svcons.length ∧
      (st1 = st ∨
        ∃ seqs r w0, st.svcons[k]? = some false ∧ st.seqStore[k]? = some seqs ∧
          seqs.length < c.maxReadPerSV ∧ st.svs[k]? = some r ∧
          accepted (sliceWindow rec sl) = true ∧
          substr rec.sequence (sliceWindow rec sl).1.toNat
            ((sliceWindow rec sl).2 - (sliceWindow rec sl).1).toNat = some w0 ∧
          (st1 = { st with seqStore :=
                    st.seqStore.set k (stdSetInsert (orientWindow cb refIndex r w0) seqs) } ∧
              ¬ (cb.translocation r.svt = false ∧ r.chr = refIndex ∧
                ((stdSetInsert (orientWindow cb refIndex r w0) seqs).length = c.maxReadPerSV ∨
                  toInt32 (stdSetInsert (orientWindow cb refIndex r w0) seqs).length
                    = r.srSupport))
            ∨
            st1 = finalize cb seq none k (stdSetInsert (orientWindow cb refIndex r w0) seqs) r
                { st with seqStore :=
                    st.seqStore.set k (stdSetInsert (orientWindow cb refIndex r w0) seqs) } ∧
              cb.translocation r.svt = false ∧ r.chr = refIndex ∧
                ((stdSetInsert (orientWindow cb refIndex r w0) seqs).length = c.maxReadPerSV ∨
                  toInt32 (stdSetInsert (orientWindow cb refIndex r w0) seqs).length
                    = r.srSupport))) := by
  unfold processSlice at h
  cases hk : toIndex sl.svid with
  | none => simp [hk] at h
  | some k =>
    simp only [hk] at h
    cases hd : st.svcons[k]? with
    | none => simp [hd] at h
    | some d =>
      have hlt : k < st.svcons.length := by
        by_contra hge
        rw [List.getElem?_eq_none (by omega)] at hd
        cases hd
      refine ⟨k, rfl, hlt, ?_⟩
      cases d with
      | true =>
        simp only [hd] at h
        exact Or.inl (Option.some.inj h).symm
      | false =>
        simp only [hd] at h
        cases hs : st.seqStore[k]? with
        | none => simp [hs] at h
        | some seqs =>
          simp only [hs] at h
          split at h
          · rename_i hcap
            split at h
            · rename_i hacc
              split at h
              · rename_i w0 r hw hr
                refine Or.inr ⟨seqs, r, w0, hd, rfl, hcap, hr, hacc, hw, ?_⟩
                split at h
                · rename_i htr
                  simp only [Bool.not_eq_true', Bool.not_eq_true] at htr
                  split at h
                  · rename_i hcnt
                    exact Or.inr ⟨(Option.some.inj h).symm, htr.1, htr.2, hcnt⟩
                  · rename_i hcnt
                    exact Or.inl ⟨(Option.some.inj h).symm, fun hh => hcnt hh.2.2⟩
                · rename_i htr
                  simp only [Bool.not_eq_true', Bool.not_eq_true] at htr
                  exact Or.inl ⟨(Option.some.inj h).symm, fun hh => htr ⟨hh.1, hh.2.1⟩⟩
              · cases h
            · exact Or.inl (Option.some.inj h).symm
          · exact Or.inl (Option.some.inj h).symm

/-- The state in which the finalize body of the deferred sweep runs: after
the lazy fetch of lines 145-151 when it applies. -/
theorem sweepCandidate_cases {cb : Collaborators} {refIndex refIndex2 : Nat}
    {seq : Option Sequence} {k : Nat} {st st1 : State}
    (h : sweepCandidate cb refIndex refIndex2 seq k st = some st1) :
    k < st.svcons.length ∧
      (st1 = st ∧ (st.svcons[k]? = some true ∨
          ∃ r, st.svs[k]? = some r ∧ (r.chr ≠ refIndex ∨ r.chr2 ≠ refIndex2)) ∨
        ∃ seqs r, st.svcons[k]? = some false ∧ st.seqStore[k]? = some seqs ∧
          st.svs[k]? = some r ∧ r.chr = refIndex ∧ r.chr2 = refIndex2 ∧
          (st1 = finalize cb seq st.sndSeq k seqs r st ∧
              ¬ (seqs.length > 1 ∧ refIndex ≠ refIndex2 ∧ st.sndSeq = none)
            ∨
            st1 = finalize cb seq (cb.fetchSeq refIndex2) k seqs r
                { st with sndSeq := cb.fetchSeq refIndex2
                          log := st.log ++ [Event.fetchSnd refIndex refIndex2] } ∧
              seqs.length > 1 ∧ refIndex ≠ refIndex2 ∧ st.sndSeq = none)) := by
  unfold sweepCandidate at h
  cases hd : st.svcons[k]? with
  | none => simp [hd] at h
  | some d =>
    have hlt : k < st.svcons.length := by
      by_contra hge
      rw [List.getElem?_eq_none (by omega)] at hd
      cases hd
    refine ⟨hlt, ?_⟩
    cases d with
    | true =>
      simp only [hd] at h
      exact Or.inl ⟨(Option.some.inj h).symm, Or.inl rfl⟩
    | false =>
      simp only [hd] at h
      cases hr : st.svs[k]? with
      | none => simp [hr] at h
      | some r =>
        simp only [hr] at h
        split at h
        · rename_i hne
          exact Or.inl ⟨(Option.some.inj h).symm, Or.inr ⟨r, rfl, hne⟩⟩
        · rename_i hne
          have hc : r.chr = refIndex ∧ r.chr2 = refIndex2 := by
            constructor <;> by_contra hh <;> exact hne (by simp [hh])
          cases hs : st.seqStore[k]? with
          | none => simp [hs] at h
          | some seqs =>
            simp only [hs] at h
            refine Or.inr ⟨seqs, r, rfl, rfl, rfl, hc.1, hc.2, ?_⟩
            by_cases hf : seqs.length > 1 ∧ refIndex ≠ refIndex2 ∧ st.sndSeq = none
            · rw [if_pos hf] at h
              exact Or.inr ⟨(Option.some.inj h).symm, hf⟩
            · rw [if_neg hf] at h
              exact Or.inl ⟨(Option.some.inj h).symm, hf⟩

theorem terminalCandidate_cases {k : Nat} {st st1 : State}
    (h : terminalCandidate k st = some st1) :
    k < st.svcons.length ∧
      (st1 = st ∧ st.svcons[k]? = some true ∨
        ∃ r, st.svcons[k]? = some false ∧ st.svs[k]? = some r ∧
          st1 = { st with svs := st.svs.set k (resetRecord r) }) := by
  unfold terminalCandidate at h
  cases hd : st.svcons[k]? with
  | none => simp [hd] at h
  | some d =>
    have hlt : k < st.svcons.length := by
      by_contra hge
      rw [List.getElem?_eq_none (by omega)] at hd
      cases hd
    refine ⟨hlt, ?_⟩
    cases d with
    | true =>
      simp only [hd] at h
      exact Or.inl ⟨(Option.some.inj h).symm, rfl⟩
    | false =>
      simp only [hd] at h
      cases hr : st.svs[k]? with
      | none => simp [hr] at h
      | some r =>
        simp only [hr] at h
        exact Or.inr ⟨r, rfl, rfl, (Option.some.inj h).symm⟩

/-- Every program point is a chain of elementary changes. -/
theorem applyStep_reaches {c : TeguaConfig} {cb : Collaborators} {s : Step} {st st1 : State}
    (h : applyStep c cb s st = some st1) : Reaches c cb st st1 := by
  cases s with
  | slice refIndex seq rec sl =>
    obtain ⟨k, -, -, hcase⟩ := processSlice_cases h
    rcases hcase with rfl | ⟨seqs, r, w0, hd, hs, hcap, hr, hacc, hw, hcase⟩
    · exact Relation.ReflTransGen.refl
    · obtain ⟨-, -, -, w, hw2, -, hl1, hl2⟩ := window_in_range rec sl hacc
      rw [hw] at hw2
      cases hw2
      have hins := @Micro.insert c cb st k seqs refIndex r w0 hd hs hcap hr hl1 hl2
      rcases hcase with ⟨rfl, -⟩ | ⟨rfl, -⟩
      · exact Relation.ReflTransGen.single hins
      · refine Relation.ReflTransGen.tail (Relation.ReflTransGen.single hins) ?_
        have hk : k < st.seqStore.length := by
          by_contra hge
          rw [List.getElem?_eq_none (by omega)] at hs
          cases hs
        exact Micro.finalize _ k _ r seq none hd (by simp [hk]) hr
  | openPair i j =>
    simp only [applyStep] at h
    cases h
    exact Relation.ReflTransGen.single (Micro.openPair st)
  | sweep refIndex refIndex2 seq k =>
    obtain ⟨-, hcase⟩ := sweepCandidate_cases h
    rcases hcase with ⟨rfl, -⟩ | ⟨seqs, r, hd, hs, hr, -, -, hcase⟩
    · exact Relation.ReflTransGen.refl
    · rcases hcase with ⟨rfl, -⟩ | ⟨rfl, -⟩
      · exact Relation.ReflTransGen.single (Micro.finalize st k seqs r seq _ hd hs hr)
      · exact Relation.ReflTransGen.tail
          (Relation.ReflTransGen.single (Micro.fetch st refIndex refIndex2))
          (Micro.finalize _ k seqs r seq _ hd hs hr)
  | terminal k =>
    obtain ⟨-, hcase⟩ := terminalCandidate_cases h
    rcases hcase with ⟨rfl, -⟩ | ⟨r, hd, hr, rfl⟩
    · exact Relation.ReflTransGen.refl
    · exact Relation.ReflTransGen.single (Micro.reset st k r hd hr)

theorem run_reaches {c : TeguaConfig} {cb : Collaborators} {p : List Step} {st st1 : State}
    (h : run c cb p st = some st1) : Reaches c cb st st1 := by
  induction p generalizing st with
  | nil =>
    simp only [run] at h
    cases h
    exact Relation.ReflTransGen.refl
  | cons s p ih =>
    simp only [run] at h
    cases hs : applyStep c cb s st with
    | none => simp [hs] at h
    | some st2 =>
      simp only [hs] at h
      exact Relation.ReflTransGen.trans (applyStep_reaches hs) (ih h)

/-- Induction over the elementary changes. -/
theorem reaches_preserves {c : TeguaConfig} {cb : Collaborators} (P : State → Prop)
    (hstep : ∀ a b, P a → Micro c cb a b → P b) {st st1 : State}
    (h : Reaches c cb st st1) (h0 : P st) : P st1 := by
  induction h with
  | refl => exact h0
  | tail _ hm ih => exact hstep _ _ ih hm

/-! ## Vectors -/

theorem lt_length_of_getElem? {α : Type} {l : List α} {k : Nat} {a : α} (h : l[k]? = some a) :
    k < l.length := by
  by_contra hge
  rw [List.getElem?_eq_none (by omega)] at h
  cases h

theorem getElem?_set_cases {α : Type} {l : List α} {i j : Nat} {a b : α}
    (h : (l.set i a)[j]? = some b) : (i = j ∧ b = a) ∨ (i ≠ j ∧ l[j]? = some b) := by
  rw [List.getElem?_set] at h
  by_cases hij : i = j
  · rw [if_pos hij] at h
    split at h
    · exact Or.inl ⟨hij, (Option.some.inj h).symm⟩
    · cases h
  · rw [if_neg hij] at h
    exact Or.inr ⟨hij, h⟩

/-! ## The finalize body -/

theorem consensusPipeline_short (cb : Collaborators) (seq snd : Option Sequence) (k : Nat)
    (seqs : List Sequence) (r : StructuralVariantRecord) (h : seqs.length < 2) :
    consensusPipeline cb seq snd k seqs r = (resetRecord r, []) := by
  unfold consensusPipeline
  rw [if_neg (by omega)]

theorem consensusPipeline_long (cb : Collaborators) (seq snd : Option Sequence) (k : Nat)
    (seqs : List Sequence) (r : StructuralVariantRecord) (h : 2 ≤ seqs.length) :
    consensusPipeline cb seq snd k seqs r =
      (if (cb.alignConsensus seq snd (consensusRecord cb seqs r)).1
        then (cb.alignConsensus seq snd (consensusRecord cb seqs r)).2
        else resetRecord (cb.alignConsensus seq snd (consensusRecord cb seqs r)).2,
       [Event.msaCall k seqs,
        Event.alignCall k seq snd (consensusRecord cb seqs r)
          (cb.alignConsensus seq snd (consensusRecord cb seqs r)).1]) := by
  unfold consensusPipeline
  rw [if_pos (by omega)]

theorem isFailed_resetRecord (r : StructuralVariantRecord) : IsFailed (resetRecord r) :=
  ⟨rfl, rfl, rfl⟩

/-- The events of the finalize body concern its own candidate only. -/
theorem consensusPipeline_events (cb : Collaborators) (seq snd : Option Sequence) (k : Nat)
    (seqs : List Sequence) (r : StructuralVariantRecord) :
    (∀ e ∈ (consensusPipeline cb seq snd k seqs r).2, ∀ j, j ≠ k → e.concerns j = false) ∧
    (∀ e ∈ (consensusPipeline cb seq snd k seqs r).2, ∀ i j, e.isFetchFor i j = false) ∧
    ((consensusPipeline cb seq snd k seqs r).2.countP (Event.isMsaFor k) ≤ 1) ∧
    ((consensusPipeline cb seq snd k seqs r).2.countP (Event.isAlignFor k) ≤ 1) ∧
    (∀ j s, Event.msaCall j s ∈ (consensusPipeline cb seq snd k seqs r).2 →
      j = k ∧ s = seqs ∧ 2 ≤ seqs.length) := by
  by_cases h : seqs.length < 2
  · rw [consensusPipeline_short cb seq snd k seqs r h]
    simp
  · rw [consensusPipeline_long cb seq snd k seqs r (by omega)]
    refine ⟨?_, ?_, ?_, ?_, ?_⟩
    · intro e he j hj
      simp only [List.mem_cons, List.mem_singleton, List.not_mem_nil, or_false] at he
      rcases he with rfl | rfl <;>
        simp [Event.concerns, Event.isMsaFor, Event.isAlignFor, Ne.symm hj]
    · intro e he i j
      simp only [List.mem_cons, List.mem_singleton, List.not_mem_nil, or_false] at he
      rcases he with rfl | rfl <;> rfl
    · simp [List.countP_cons, Event.isMsaFor]
    · simp [List.countP_cons, Event.isAlignFor]
    · intro j s hm
      simp only [List.mem_cons, List.mem_singleton, List.not_mem_nil, or_false] at hm
      rcases hm with hm | hm
      · cases hm
        exact ⟨rfl, rfl, by omega⟩
      · cases hm

/-! ## Invariants of the state -/

theorem micro_sized {c : TeguaConfig} {cb : Collaborators} {n : Nat} {a b : State}
    (h : Sized n a) (hm : Micro c cb a b) : Sized n b := by
  cases hm <;> simpa [Sized, Delly.finalize] using h

theorem sized_initState (svs : List StructuralVariantRecord) : Sized svs.length (initState svs) := by
  simp [Sized, initState]

theorem micro_collectorsOk {c : TeguaConfig} {cb : Collaborators} {a b : State}
    (h : CollectorsOk c a) (hm : Micro c cb a b) : CollectorsOk c b := by
  cases hm with
  | openPair => exact h
  | fetch i j => exact h
  | insert k seqs refIndex r w0 hd hs hcap hr hl1 hl2 =>
    intro j s hj
    rcases getElem?_set_cases hj with ⟨-, rfl⟩ | ⟨-, hj⟩
    · have := stdSetInsert_length_le (orientWindow cb refIndex r w0) seqs
      exact ⟨by omega, stdSetInsert_nodup _ _ (h k seqs hs).2⟩
    · exact h j s hj
  | finalize k seqs r seq snd hd hs hr =>
    intro j s hj
    simp only [Delly.finalize] at hj
    rcases getElem?_set_cases hj with ⟨-, rfl⟩ | ⟨-, hj⟩
    · exact ⟨Nat.zero_le _, List.nodup_nil⟩
    · exact h j s hj
  | reset k r hd hr => exact h

theorem collectorsOk_initState (c : TeguaConfig) (svs : List StructuralVariantRecord) :
    CollectorsOk c (initState svs) := by
  intro k seqs hk
  simp only [initState] at hk
  have hlt := lt_length_of_getElem? hk
  rw [List.getElem?_eq_getElem hlt, List.getElem_replicate] at hk
  cases hk
  exact ⟨Nat.zero_le _, List.nodup_nil⟩

theorem micro_lengthsOk {c : TeguaConfig} {cb : Collaborators} {a b : State}
    (hrc : ∀ s, (cb.reverseComplement s).length = s.length)
    (h : LengthsOk a) (hm : Micro c cb a b) : LengthsOk b := by
  cases hm with
  | openPair => exact h
  | fetch i j => exact h
  | insert k seqs refIndex r w0 hd hs hcap hr hl1 hl2 =>
    intro j s hj x hx
    rcases getElem?_set_cases hj with ⟨-, rfl⟩ | ⟨-, hj⟩
    · rcases mem_stdSetInsert.1 hx with rfl | hx
      · unfold orientWindow
        split
        · rw [hrc]; exact ⟨hl1, hl2⟩
        · exact ⟨hl1, hl2⟩
      · exact h k seqs hs x hx
    · exact h j s hj x hx
  | finalize k seqs r seq snd hd hs hr =>
    intro j s hj x hx
    simp only [Delly.finalize] at hj
    rcases getElem?_set_cases hj with ⟨-, rfl⟩ | ⟨-, hj⟩
    · cases hx
    · exact h j s hj x hx
  | reset k r hd hr => exact h

theorem lengthsOk_initState (svs : List StructuralVariantRecord) : LengthsOk (initState svs) := by
  intro k seqs hk
  simp only [initState] at hk
  have hlt := lt_length_of_getElem? hk
  rw [List.getElem?_eq_getElem hlt, List.getElem_replicate] at hk
  cases hk
  intro s hs
  cases hs

/-! ## Finalised candidates are frozen -/

theorem micro_frozen {c : TeguaConfig} {cb : Collaborators} {a b : State}
    (hm : Micro c cb a b) (k : Nat) (hk : a.svcons[k]? = some true) :
    b.svcons[k]? = some true ∧ b.svs[k]? = a.svs[k]? ∧ b.seqStore[k]? = a.seqStore[k]? := by
  cases hm with
  | openPair => exact ⟨hk, rfl, rfl⟩
  | fetch i j => exact ⟨hk, rfl, rfl⟩
  | insert j seqs refIndex r w0 hd hs hcap hr hl1 hl2 =>
    have hne : j ≠ k := by
      rintro rfl
      rw [hk] at hd
      cases hd
    exact ⟨hk, rfl, List.getElem?_set_ne hne⟩
  | finalize j seqs r seq snd hd hs hr =>
    have hne : j ≠ k := by
      rintro rfl
      rw [hk] at hd
      cases hd
    simp only [Delly.finalize]
    exact ⟨by rw [List.getElem?_set_ne hne]; exact hk, List.getElem?_set_ne hne,
      List.getElem?_set_ne hne⟩
  | reset j r hd hr =>
    have hne : j ≠ k := by
      rintro rfl
      rw [hk] at hd
      cases hd
    exact ⟨hk, List.getElem?_set_ne hne, rfl⟩

theorem reaches_frozen {c : TeguaConfig} {cb : Collaborators} {a b : State}
    (h : Reaches c cb a b) (k : Nat) (hk : a.svcons[k]? = some true) :
    b.svcons[k]? = some true ∧ b.svs[k]? = a.svs[k]? ∧ b.seqStore[k]? = a.seqStore[k]? := by
  induction h with
  | refl => exact ⟨hk, rfl, rfl⟩
  | tail _ hm ih =>
    obtain ⟨h1, h2, h3⟩ := micro_frozen hm k ih.1
    exact ⟨h1, h2.trans ih.2.1, h3.trans ih.2.2⟩

/-! ## The log -/

theorem isMsaFor_of_concerns {k : Nat} {e : Event} (h : e.concerns k = false) :
    e.isMsaFor k = false ∧ e.isAlignFor k = false := by
  simpa [Event.concerns] using h

theorem logOk_initState (svs : List StructuralVariantRecord) : LogOk (initState svs) := by
  simp [LogOk, initState]

theorem micro_logOk {c : TeguaConfig} {cb : Collaborators} {a b : State}
    (hc : CollectorsOk c a) (h : LogOk a) (hm : Micro c cb a b) : LogOk b := by
  obtain ⟨h1, h2, h3⟩ := h
  cases hm with
  | openPair => exact ⟨h1, h2, h3⟩
  | fetch i j =>
    refine ⟨?_, ?_, ?_⟩
    · intro k seqs hmem
      simp only [List.mem_append, List.mem_singleton] at hmem
      rcases hmem with hmem | hmem
      · exact h1 k seqs hmem
      · cases hmem
    · intro k hk e he
      simp only [List.mem_append, List.mem_singleton] at he
      rcases he with he | rfl
      · exact h2 k hk e he
      · rfl
    · intro k
      simpa [List.countP_append, List.countP_cons, Event.isMsaFor, Event.isAlignFor] using h3 k
  | insert j seqs refIndex r w0 hd hs hcap hr hl1 hl2 => exact ⟨h1, h2, h3⟩
  | finalize j seqs r seq snd hd hs hr =>
    obtain ⟨e1, -, e3, e4, e5⟩ := consensusPipeline_events cb seq snd j seqs r
    simp only [Delly.finalize]
    refine ⟨?_, ?_, ?_⟩
    · intro k s hmem
      rcases List.mem_append.1 hmem with hmem | hmem
      · exact h1 k s hmem
      · obtain ⟨-, rfl, hlen⟩ := e5 k s hmem
        exact ⟨hlen, (hc j s hs).2⟩
    · intro k hk e he
      have hne : k ≠ j := by
        rintro rfl
        rw [List.getElem?_set_self (lt_length_of_getElem? hd)] at hk
        cases hk
      rw [List.getElem?_set_ne (Ne.symm hne)] at hk
      rcases List.mem_append.1 he with he | he
      · exact h2 k hk e he
      · exact e1 e he k hne
    · intro k
      rw [List.countP_append, List.countP_append]
      by_cases hkj : k = j
      · subst hkj
        have z1 : a.log.countP (Event.isMsaFor k) = 0 :=
          List.countP_eq_zero.2 fun e he => by simp [(isMsaFor_of_concerns (h2 k hd e he)).1]
        have z2 : a.log.countP (Event.isAlignFor k) = 0 :=
          List.countP_eq_zero.2 fun e he => by simp [(isMsaFor_of_concerns (h2 k hd e he)).2]
        omega
      · have z1 : (consensusPipeline cb seq snd j seqs r).2.countP (Event.isMsaFor k) = 0 :=
          List.countP_eq_zero.2 fun e he => by simp [(isMsaFor_of_concerns (e1 e he k hkj)).1]
        have z2 : (consensusPipeline cb seq snd j seqs r).2.countP (Event.isAlignFor k) = 0 :=
          List.countP_eq_zero.2 fun e he => by simp [(isMsaFor_of_concerns (e1 e he k hkj)).2]
        have := h3 k
        omega
  | reset j r hd hr => exact ⟨h1, h2, h3⟩

/-- All invariants of a reachable state that need no assumption on the
collaborators. -/
theorem reaches_invariants {c : TeguaConfig} {cb : Collaborators} {n : Nat} {a b : State}
    (h : Reaches c cb a b) (h0 : Sized n a ∧ CollectorsOk c a ∧ LogOk a) :
    Sized n b ∧ CollectorsOk c b ∧ LogOk b :=
  reaches_preserves (fun st => Sized n st ∧ CollectorsOk c st ∧ LogOk st)
    (fun _ _ hP hm => ⟨micro_sized hP.1 hm, micro_collectorsOk hP.2.1 hm,
      micro_logOk hP.2.1 hP.2.2 hm⟩) h h0

theorem initState_invariants (c : TeguaConfig) (svs : List StructuralVariantRecord) :
    Sized svs.length (initState svs) ∧ CollectorsOk c (initState svs) ∧ LogOk (initState svs) :=
  ⟨sized_initState svs, collectorsOk_initState c svs, logOk_initState svs⟩

/-! ## The run does not fault on a well-indexed evidence index -/

theorem getElem?_of_lt {α : Type} {l : List α} {k : Nat} (h : k < l.length) :
    ∃ a, l[k]? = some a := ⟨l[k], List.getElem?_eq_getElem h⟩

theorem processSlice_total {c : TeguaConfig} {cb : Collaborators} {n : Nat} (refIndex : Nat)
    (seq : Option Sequence) (rec : BamRecord) (sl : SeqSlice) {st : State} (hst : Sized n st)
    (h0 : 0 ≤ sl.svid) (h1 : sl.svid < (n : Int)) :
    ∃ st1, processSlice c cb refIndex seq rec sl st = some st1 := by
  obtain ⟨hn1, hn2, hn3⟩ := hst
  have hk : sl.svid.toNat < n := by omega
  obtain ⟨d, hd⟩ := getElem?_of_lt (by omega : sl.svid.toNat < st.svcons.length)
  obtain ⟨seqs, hs⟩ := getElem?_of_lt (by omega : sl.svid.toNat < st.seqStore.length)
  obtain ⟨r, hr⟩ := getElem?_of_lt (by omega : sl.svid.toNat < st.svs.length)
  rw [← Option.isSome_iff_exists]
  unfold processSlice
  simp only [toIndex, if_pos h0, hd, hs, hr]
  cases d with
  | true => rfl
  | false =>
    simp only
    by_cases hcap : seqs.length < c.maxReadPerSV
    · rw [if_pos hcap]
      by_cases hacc : accepted (sliceWindow rec sl) = true
      · rw [if_pos hacc]
        obtain ⟨-, -, -, w, hw, -⟩ := window_in_range rec sl hacc
        rw [hw]
        simp only
        split
        · split
          · rfl
          · rfl
        · rfl
      · rw [if_neg hacc]
        rfl
    · rw [if_neg hcap]
      rfl

theorem sweepCandidate_total {cb : Collaborators} {n : Nat} (refIndex refIndex2 : Nat)
    (seq : Option Sequence) {k : Nat} {st : State} (hst : Sized n st) (hk : k < n) :
    ∃ st1, sweepCandidate cb refIndex refIndex2 seq k st = some st1 := by
  obtain ⟨hn1, hn2, hn3⟩ := hst
  unfold sweepCandidate
  rw [List.getElem?_eq_getElem (by omega : k < st.svcons.length)]
  cases st.svcons[k] with
  | true => exact ⟨_, rfl⟩
  | false =>
    simp only
    rw [List.getElem?_eq_getElem (by omega : k < st.svs.length)]
    simp only
    split
    · exact ⟨_, rfl⟩
    · rw [List.getElem?_eq_getElem (by omega : k < st.seqStore.length)]
      exact ⟨_, rfl⟩

theorem terminalCandidate_total {n : Nat} {k : Nat} {st : State} (hst : Sized n st)
    (hk : k < n) : ∃ st1, terminalCandidate k st = some st1 := by
  obtain ⟨hn1, hn2, hn3⟩ := hst
  unfold terminalCandidate
  rw [List.getElem?_eq_getElem (by omega : k < st.svcons.length)]
  cases st.svcons[k] with
  | true => exact ⟨_, rfl⟩
  | false =>
    simp only
    rw [List.getElem?_eq_getElem (by omega : k < st.svs.length)]
    exact ⟨_, rfl⟩

theorem applyStep_total {c : TeguaConfig} {cb : Collaborators} {n : Nat} {s : Step} {st : State}
    (hst : Sized n st) (hw : s.wellIndexed n = true) (hl : s.loopOk n = true) :
    ∃ st1, applyStep c cb s st = some st1 := by
  cases s with
  | slice refIndex seq rec sl =>
    simp only [Step.wellIndexed, decide_eq_true_eq] at hw
    exact processSlice_total refIndex seq rec sl hst hw.1 hw.2
  | openPair i j => exact ⟨_, rfl⟩
  | sweep refIndex refIndex2 seq k =>
    simp only [Step.loopOk, decide_eq_true_eq] at hl
    exact sweepCandidate_total refIndex refIndex2 seq hst hl
  | terminal k =>
    simp only [Step.loopOk, decide_eq_true_eq] at hl
    exact terminalCandidate_total hst hl

theorem run_total {c : TeguaConfig} {cb : Collaborators} {n : Nat} {p : List Step} {st : State}
    (hst : Sized n st) (hp : ∀ s ∈ p, s.wellIndexed n = true ∧ s.loopOk n = true) :
    ∃ st1, run c cb p st = some st1 := by
  induction p generalizing st with
  | nil => exact ⟨st, rfl⟩
  | cons s p ih =>
    obtain ⟨st1, h1⟩ := @applyStep_total c cb n s st hst
      (hp s (List.mem_cons_self _ _)).1 (hp s (List.mem_cons_self _ _)).2
    have hs1 : Sized n st1 := reaches_preserves (Sized n) (fun _ _ hP hm => micro_sized hP hm)
      (applyStep_reaches h1) hst
    obtain ⟨st2, h2⟩ := ih hs1 (fun s' hs' => hp s' (List.mem_cons_of_mem _ hs'))
    exact ⟨st2, by simp only [run, h1, h2]⟩

/-! ## Shape of the schedule -/

theorem forwardSteps_isSlice (inp : Input) (refIndex : Nat) (seq : Option Sequence)
    (files : List (List BamRecord)) : ∀ s ∈ forwardSteps inp refIndex seq files, s.isSlice = true := by
  intro s hs
  simp only [forwardSteps, List.mem_flatMap] at hs
  obtain ⟨recs, -, rec, -, hs⟩ := hs
  unfold recordSteps at hs
  split at hs
  · split at hs
    · cases hs
    · simp only [List.mem_map] at hs
      obtain ⟨sl, -, rfl⟩ := hs
      rfl
  · cases hs

theorem sweepSteps_loopOk (n refIndex : Nat) (seq : Option Sequence) :
    ∀ s ∈ sweepSteps n refIndex seq, s.loopOk n = true ∧ s.wellIndexed n = true ∧
      s.isSlice = false ∧ s.isTerminal = false := by
  intro s hs
  simp only [sweepSteps, List.mem_flatMap, pairSteps, List.mem_cons, List.mem_map,
    List.mem_range] at hs
  obtain ⟨j, -, rfl | ⟨k, hk, rfl⟩⟩ := hs
  · exact ⟨rfl, rfl, rfl, rfl⟩
  · exact ⟨by simpa [Step.loopOk] using hk, rfl, rfl, rfl⟩

theorem contigLoop_loopOk (cb : Collaborators) (inp : Input) (n : Nat) (start : Nat)
    (ctgs : List Contig) :
    ∀ s ∈ contigLoop cb inp n start ctgs, s.loopOk n = true ∧ s.isTerminal = false := by
  induction ctgs generalizing start with
  | nil => intro s hs; cases hs
  | cons ctg rest ih =>
    intro s hs
    simp only [contigLoop, List.mem_append, contigSteps] at hs
    rcases hs with hs | hs
    · split at hs
      · cases hs
      · rcases List.mem_append.1 hs with hs | hs
        · have := forwardSteps_isSlice _ _ _ _ s hs
          cases s <;> simp_all [Step.isSlice, Step.loopOk, Step.isTerminal]
        · exact ⟨(sweepSteps_loopOk _ _ _ s hs).1, (sweepSteps_loopOk _ _ _ s hs).2.2.2⟩
    · exact ih _ s hs

theorem schedule_loopOk (cb : Collaborators) (inp : Input) (n : Nat) :
    ∀ s ∈ schedule cb inp n, s.loopOk n = true := by
  intro s hs
  simp only [schedule, List.mem_append, terminalSteps, List.mem_map, List.mem_range] at hs
  rcases hs with hs | ⟨k, hk, rfl⟩
  · exact (contigLoop_loopOk cb inp n 0 inp.contigs s hs).1
  · simpa [Step.loopOk] using hk

/-- With every evidence tuple naming a row of the table, `assemble` returns,
and so does every prefix of its run. -/
theorem run_prefix_total (c : TeguaConfig) {cb : Collaborators} {inp : Input}
    {svs : List StructuralVariantRecord}
    (hwf : ∀ s ∈ schedule cb inp svs.length, s.wellIndexed svs.length = true)
    {p : List Step} (hp : p <+: schedule cb inp svs.length) :
    ∃ st, run c cb p (initState svs) = some st :=
  run_total (sized_initState svs) fun s hs =>
    ⟨hwf s (hp.subset hs), schedule_loopOk cb inp svs.length s (hp.subset hs)⟩

set_option maxRecDepth 200000 in
theorem stepsA2_prefix : stepsA2 <+: schedule demoCollab scenarioA 1 := by
  decide

set_option maxRecDepth 200000 in
theorem run_stepsA2 : run ⟨5⟩ demoCollab stepsA2 (initState [candidateA]) = some stateA2 := by
  decide

/-- C6: at every point of a run of `assemble` (the state after any prefix of
its schedule) every candidate has a collector, and that collector holds at
most `c.maxReadPerSV` sequences and no sequence twice; with
`c.maxReadPerSV = 0` it is empty. -/
theorem collector_capped_and_duplicate_free (c : TeguaConfig) (cb : Collaborators) (inp : Input)
    (svs : List StructuralVariantRecord) (p : List Step) (st : State)
    (_hp : p <+: schedule cb inp svs.length) (hrun : run c cb p (initState svs) = some st) :
    st.seqStore.length = svs.length ∧
    ∀ (k : Nat) (seqs : List Sequence), st.seqStore[k]? = some seqs →
      seqs.length ≤ c.maxReadPerSV ∧ seqs.Nodup ∧ (c.maxReadPerSV = 0 → seqs = []) := by
  obtain ⟨hs, hc, -⟩ := reaches_invariants (run_reaches hrun) (initState_invariants c svs)
  refine ⟨hs.2.1, fun k seqs hk => ⟨(hc k seqs hk).1, (hc k seqs hk).2, fun h0 => ?_⟩⟩
  have := (hc k seqs hk).1
  exact List.length_eq_zero.1 (by omega)

set_option maxRecDepth 200000 in
theorem collector_capped_and_duplicate_free_witness :
    stateA2.seqStore.length = [candidateA].length ∧
    ∀ (k : Nat) (seqs : List Sequence), stateA2.seqStore[k]? = some seqs →
      seqs.length ≤ (⟨5⟩ : TeguaConfig).maxReadPerSV ∧ seqs.Nodup ∧
        ((⟨5⟩ : TeguaConfig).maxReadPerSV = 0 → seqs = []) :=
  collector_capped_and_duplicate_free ⟨5⟩ demoCollab scenarioA [candidateA] stepsA2 stateA2
    stepsA2_prefix run_stepsA2

theorem isValidated_mono {cb : Collaborators} {log : List Event} {k : Nat}
    {r : StructuralVariantRecord} (h : IsValidated cb log k r) (evs : List Event) :
    IsValidated cb (log ++ evs) k r := by
  obtain ⟨h1, h2, p, s, a, hm, he⟩ := h
  exact ⟨h1, h2, p, s, a, List.mem_append_left _ hm, he⟩

theorem isValidated_not_failed {cb : Collaborators} {log : List Event} {k : Nat}
    {r : StructuralVariantRecord} (h : IsValidated cb log k r) : ¬ IsFailed r :=
  fun hf => h.1 hf.1

/-- What the finalize body leaves in the record. -/
theorem consensusPipeline_record (cb : Collaborators) (hal : AlignerSound cb)
    (seq snd : Option Sequence) (k : Nat) (seqs : List Sequence) (r : StructuralVariantRecord)
    (log : List Event) :
    IsValidated cb (log ++ (consensusPipeline cb seq snd k seqs r).2) k
        (consensusPipeline cb seq snd k seqs r).1 ∨
      IsFailed (consensusPipeline cb seq snd k seqs r).1 := by
  by_cases h : seqs.length < 2
  · rw [consensusPipeline_short cb seq snd k seqs r h]
    exact Or.inr (isFailed_resetRecord r)
  · rw [consensusPipeline_long cb seq snd k seqs r (by omega)]
    cases hok : (cb.alignConsensus seq snd (consensusRecord cb seqs r)).1 with
    | false => exact Or.inr (isFailed_resetRecord _)
    | true =>
      left
      simp only [if_true]
      refine ⟨(hal _ _ _ hok).1, (hal _ _ _ hok).2, seq, snd, consensusRecord cb seqs r, ?_, ?_⟩
      · simp
      · exact Prod.ext hok rfl

theorem settled_initState (cb : Collaborators) (svs : List StructuralVariantRecord) :
    Settled cb (initState svs) := by
  intro k r hk
  simp only [initState] at hk
  have hlt := lt_length_of_getElem? hk
  rw [List.getElem?_eq_getElem hlt, List.getElem_replicate] at hk
  cases hk

theorem micro_settled {c : TeguaConfig} {cb : Collaborators} (hal : AlignerSound cb)
    {a b : State} (h : Settled cb a) (hm : Micro c cb a b) : Settled cb b := by
  cases hm with
  | openPair => exact h
  | fetch i j =>
    intro k r hk hr
    rcases h k r hk hr with hv | hf
    · exact Or.inl (isValidated_mono hv _)
    · exact Or.inr hf
  | insert j seqs refIndex r0 w0 hd hs hcap hr0 hl1 hl2 => exact h
  | finalize j seqs r0 seq snd hd hs hr0 =>
    intro k r hk hr
    simp only [Delly.finalize] at hk hr ⊢
    by_cases hkj : j = k
    · subst hkj
      rw [List.getElem?_set_self (lt_length_of_getElem? hr0)] at hr
      cases hr
      exact consensusPipeline_record cb hal seq snd j seqs r0 a.log
    · rw [List.getElem?_set_ne hkj] at hk hr
      rcases h k r hk hr with hv | hf
      · exact Or.inl (isValidated_mono hv _)
      · exact Or.inr hf
  | reset j r0 hd hr0 =>
    intro k r hk hr
    have hkj : j ≠ k := by
      rintro rfl
      rw [hd] at hk
      cases hk
    simp only [List.getElem?_set_ne hkj] at hr
    exact h k r hk hr

theorem reaches_settled {c : TeguaConfig} {cb : Collaborators} (hal : AlignerSound cb)
    {a b : State} (h : Reaches c cb a b) (h0 : Settled cb a) : Settled cb b :=
  reaches_preserves (Settled cb) (fun _ _ hP hm => micro_settled hal hP hm) h h0

/-! ## The terminal sweep -/

theorem terminalCandidate_swept {m : Nat} {st st1 : State} (h0 : SweptBelow m st)
    (h : terminalCandidate m st = some st1) : SweptBelow (m + 1) st1 := by
  obtain ⟨-, hcase⟩ := terminalCandidate_cases h
  intro k r hk hr hd
  rcases hcase with ⟨rfl, hdone⟩ | ⟨r0, hd0, hr0, rfl⟩
  · by_cases hkm : k = m
    · subst hkm
      rw [hdone] at hd
      cases hd
    · exact h0 k r (by omega) hr hd
  · by_cases hkm : m = k
    · subst hkm
      simp only [List.getElem?_set_self (lt_length_of_getElem? hr0)] at hr
      cases hr
      exact isFailed_resetRecord r0
    · simp only [List.getElem?_set_ne hkm] at hr
      exact h0 k r (by omega) hr hd

theorem run_terminalSteps_swept {c : TeguaConfig} {cb : Collaborators} (m : Nat) {st st1 : State}
    (h : run c cb (terminalSteps m) st = some st1) : SweptBelow m st1 := by
  induction m generalizing st1 with
  | zero =>
    intro k r hk
    omega
  | succ m ih =>
    simp only [terminalSteps, List.range_succ, List.map_append, List.map_cons, List.map_nil] at h
    obtain ⟨st2, h2, h3⟩ := run_append_some h
    have hm := ih (by simpa [terminalSteps] using h2)
    simp only [run, applyStep] at h3
    cases h4 : terminalCandidate m st2 with
    | none => simp [h4] at h3
    | some st3 =>
      simp only [h4] at h3
      cases h3
      exact terminalCandidate_swept hm h4

/-! ## The two embeddings of the window arithmetic -/

theorem wrap32_of_fits {x : Int} (h : fitsInt32 x = true) : wrap32 x = x := by
  simp only [fitsInt32, decide_eq_true_eq] at h
  unfold wrap32
  omega

/-- Without overflow the `int32_t` window is the window of the integer
embedding, and so are the acceptance test and the length handed to
`substr`. -/
theorem window32_agrees {readlen sstart inslen : Int} {reverse : Bool}
    (h : windowFits readlen sstart inslen reverse = true) :
    clampedWindow32 readlen sstart inslen reverse
      = clampWindow readlen (windowBounds readlen sstart inslen reverse) ∧
    accepted32 (clampWindow readlen (windowBounds readlen sstart inslen reverse))
      = accepted (clampWindow readlen (windowBounds readlen sstart inslen reverse)) ∧
    wrap32 ((clampWindow readlen (windowBounds readlen sstart inslen reverse)).2
        - (clampWindow readlen (windowBounds readlen sstart inslen reverse)).1)
      = (clampWindow readlen (windowBounds readlen sstart inslen reverse)).2
        - (clampWindow readlen (windowBounds readlen sstart inslen reverse)).1 := by
  simp only [windowFits, Bool.and_eq_true, Bool.or_eq_true, Bool.not_eq_true'] at h
  obtain ⟨⟨⟨⟨⟨⟨⟨-, -⟩, -⟩, f1⟩, f2⟩, f3⟩, frev⟩, fd⟩ := h
  have hd := wrap32_of_fits fd
  refine ⟨?_, ?_, hd⟩
  · unfold clampedWindow32
    congr 1
    cases reverse with
    | false =>
      simp only [windowBounds32, windowBounds, Bool.false_eq_true, if_false]
      rw [wrap32_of_fits f2, wrap32_of_fits f3, wrap32_of_fits f1]
    | true =>
      rcases frev with frev | frev
      · cases frev
      · obtain ⟨⟨⟨r1, r2⟩, r3⟩, r4⟩ := frev
        simp only [windowBounds32, windowBounds, if_true]
        rw [wrap32_of_fits f2, wrap32_of_fits r1, wrap32_of_fits r2, wrap32_of_fits r3,
          wrap32_of_fits r4]
  · simp only [accepted32, accepted, hd]

theorem sliceWindow32_agrees {rec : BamRecord} {sl : SeqSlice} (h : sliceFits rec sl = true) :
    sliceWindow32 rec sl = sliceWindow rec sl ∧
    accepted32 (sliceWindow rec sl) = accepted (sliceWindow rec sl) ∧
    wrap32 ((sliceWindow rec sl).2 - (sliceWindow rec sl).1)
      = (sliceWindow rec sl).2 - (sliceWindow rec sl).1 := by
  unfold sliceFits at h
  have hlen : toInt32 rec.sequence.length = (rec.sequence.length : Int) := by
    show wrap32 (rec.sequence.length : Int) = _
    apply wrap32_of_fits
    simp only [windowFits, Bool.and_eq_true] at h
    exact h.1.1.1.1.1.1.1
  obtain ⟨h1, h2, h3⟩ := window32_agrees h
  exact ⟨by simp only [sliceWindow32, sliceWindow, hlen, h1], h2, h3⟩

/-- Without overflow an evidence tuple is processed in `int32_t` as in the
integer embedding. -/
theorem processSlice32_eq (c : TeguaConfig) (cb : Collaborators) (refIndex : Nat)
    (seq : Option Sequence) (rec : BamRecord) (sl : SeqSlice) (st : State)
    (h : sliceFits rec sl = true) :
    processSlice32 c cb refIndex seq rec sl st = processSlice c cb refIndex seq rec sl st := by
  obtain ⟨h1, h2, h3⟩ := sliceWindow32_agrees h
  unfold processSlice32 processSlice
  simp only [h1, h2, h3]

theorem applyStep32_eq (c : TeguaConfig) (cb : Collaborators) (s : Step) (st : State)
    (h : s.noOverflow = true) : applyStep32 c cb s st = applyStep c cb s st := by
  cases s with
  | slice refIndex seq rec sl =>
    have hfit : sliceFits rec sl = true := h
    show processSlice32 c cb refIndex seq rec sl st = processSlice c cb refIndex seq rec sl st
    exact processSlice32_eq c cb refIndex seq rec sl st hfit
  | openPair i j => rfl
  | sweep i j sq m => rfl
  | terminal m => rfl

theorem run32_eq_run (c : TeguaConfig) (cb : Collaborators) (p : List Step)
    (hp : ∀ s ∈ p, s.noOverflow = true) (st : State) : run32 c cb p st = run c cb p st := by
  induction p generalizing st with
  | nil => rfl
  | cons s p ih =>
    simp only [run32, run, applyStep32_eq c cb s st (hp s (List.mem_cons_self _ _))]
    cases applyStep c cb s st with
    | none => rfl
    | some st1 => exact ih (fun s' hs' => hp s' (List.mem_cons_of_mem _ hs')) st1

/-- On a schedule without overflow, every prefix runs in `int32_t` as in the
integer embedding. -/
theorem run32_prefix_eq (c : TeguaConfig) (cb : Collaborators) {sched p : List Step}
    (hno : ∀ s ∈ sched, s.noOverflow = true) (hp : p <+: sched) (st : State) :
    run32 c cb p st = run c cb p st :=
  run32_eq_run c cb p (fun s hs => hno s (hp.subset hs)) st

/-- On an evidence index without `int32_t` overflow, `assemble32` is
`assemble`. -/
theorem assemble32_eq (c : TeguaConfig) (cb : Collaborators) (inp : Input)
    (svs : List StructuralVariantRecord)
    (hno : ∀ s ∈ schedule cb inp svs.length, s.noOverflow = true) :
    assemble32 c cb inp svs = assemble c cb inp svs :=
  run32_eq_run c cb _ hno _

set_option maxRecDepth 200000 in
/-- Where the arithmetic overflows the two embeddings differ: for a read of
1001 bases and `localOffset = 2147483647`, `insertedLength = 0`, the
`int32_t` window is `(2147482647, -2147482649)`, it passes the test of line
98 by wrap-around and `substr` throws, while the integer embedding rejects
the window. -/
theorem overflowing_tuple_example :
    sliceWindow32 (demoRead 'A' 1) ⟨0, 2147483647, 0, 0⟩ = (2147482647, -2147482649) ∧
    accepted32 (sliceWindow32 (demoRead 'A' 1) ⟨0, 2147483647, 0, 0⟩) = true ∧
    accepted (sliceWindow (demoRead 'A' 1) ⟨0, 2147483647, 0, 0⟩) = false ∧
    sliceFits (demoRead 'A' 1) ⟨0, 2147483647, 0, 0⟩ = false ∧
    processSlice32 ⟨5⟩ demoCollab 0 (some ['A']) (demoRead 'A' 1) ⟨0, 2147483647, 0, 0⟩
      (initState [candidateA]) = none ∧
    processSlice ⟨5⟩ demoCollab 0 (some ['A']) (demoRead 'A' 1) ⟨0, 2147483647, 0, 0⟩
      (initState [candidateA]) = some (initState [candidateA]) := by
  refine ⟨by decide, by decide, by decide, by decide, by decide, by decide⟩

theorem run32_append (c : TeguaConfig) (cb : Collaborators) (p q : List Step) (st : State) :
    run32 c cb (p ++ q) st = (run32 c cb p st).bind (run32 c cb q) := by
  induction p generalizing st with
  | nil => rfl
  | cons s p ih =>
    simp only [List.cons_append, run32]
    cases applyStep32 c cb s st with
    | none => rfl
    | some st1 => exact ih st1

theorem run32_append_some {c : TeguaConfig} {cb : Collaborators} {p q : List Step}
    {st st2 : State} (h : run32 c cb (p ++ q) st = some st2) :
    ∃ st1, run32 c cb p st = some st1 ∧ run32 c cb q st1 = some st2 := by
  rw [run32_append] at h
  cases h1 : run32 c cb p st with
  | none => simp [h1] at h
  | some st1 => exact ⟨st1, rfl, by simpa [h1] using h⟩

/-- The outcomes of one evidence tuple in `int32_t` arithmetic: nothing, an
insertion into the collector of an unfinalised candidate, or that insertion
followed by the finalize body. -/
theorem processSlice32_cases {c : TeguaConfig} {cb : Collaborators} {refIndex : Nat}
    {seq : Option Sequence} {rec : BamRecord} {sl : SeqSlice} {st st1 : State}
    (h : processSlice32 c cb refIndex seq rec sl st = some st1) :
    st1 = st ∨
      ∃ k seqs r w, st.svcons[k]? = some false ∧ st.seqStore[k]? = some seqs ∧
        st.svs[k]? = some r ∧
        (st1 = { st with seqStore := st.seqStore.set k (stdSetInsert w seqs) } ∨
          st1 = finalize cb seq none k (stdSetInsert w seqs) r
            { st with seqStore := st.seqStore.set k (stdSetInsert w seqs) }) := by
  unfold processSlice32 at h
  cases hk : toIndex sl.svid with
  | none => simp [hk] at h
  | some k =>
    simp only [hk] at h
    cases hd : st.svcons[k]? with
    | none => simp [hd] at h
    | some d =>
      cases d with
      | true =>
        simp only [hd] at h
        exact Or.inl (Option.some.inj h).symm
      | false =>
        simp only [hd] at h
        cases hs : st.seqStore[k]? with
        | none => simp [hs] at h
        | some seqs =>
          simp only [hs] at h
          split at h
          · split at h
            · split at h
              · rename_i w0 r hw hr
                refine Or.inr ⟨k, seqs, r, orientWindow cb refIndex r w0, hd, hs, hr, ?_⟩
                split at h
                · split at h
                  · exact Or.inr (Option.some.inj h).symm
                  · exact Or.inl (Option.some.inj h).symm
                · exact Or.inl (Option.some.inj h).symm
              · cases h
            · exact Or.inl (Option.some.inj h).symm
          · exact Or.inl (Option.some.inj h).symm

/-- Also in `int32_t` arithmetic every step keeps the vector sizes and leaves
every finalised candidate validated or failed. -/
theorem applyStep32_settled {c : TeguaConfig} {cb : Collaborators} (hal : AlignerSound cb)
    {n : Nat} {s : Step} {st st1 : State} (hsz : Sized n st) (hst : Settled cb st)
    (h : applyStep32 c cb s st = some st1) : Sized n st1 ∧ Settled cb st1 := by
  have hother : applyStep c cb s st = some st1 → Sized n st1 ∧ Settled cb st1 := fun h' =>
    ⟨reaches_preserves (Sized n) (fun _ _ hP hm => micro_sized hP hm) (applyStep_reaches h') hsz,
      reaches_settled hal (applyStep_reaches h') hst⟩
  cases s with
  | slice refIndex seq rec sl =>
    rcases processSlice32_cases h with rfl | ⟨k, seqs, r, w, hd, hs, hr, hcase⟩
    · exact ⟨hsz, hst⟩
    · have hk : k < st.seqStore.length := lt_length_of_getElem? hs
      have hszm : Sized n { st with seqStore := st.seqStore.set k (stdSetInsert w seqs) } := by
        simpa [Sized] using hsz
      have hstm : Settled cb { st with seqStore := st.seqStore.set k (stdSetInsert w seqs) } :=
        hst
      rcases hcase with rfl | rfl
      · exact ⟨hszm, hstm⟩
      · have hm : Micro c cb { st with seqStore := st.seqStore.set k (stdSetInsert w seqs) }
            (finalize cb seq none k (stdSetInsert w seqs) r
              { st with seqStore := st.seqStore.set k (stdSetInsert w seqs) }) :=
          Micro.finalize _ k _ r seq none hd (by simp [hk]) hr
        exact ⟨micro_sized hszm hm, micro_settled hal hstm hm⟩
  | openPair i j => exact hother h
  | sweep i j sq m => exact hother h
  | terminal m => exact hother h

theorem run32_settled {c : TeguaConfig} {cb : Collaborators} (hal : AlignerSound cb)
    {n : Nat} {p : List Step} {st st1 : State} (hsz : Sized n st) (hst : Settled cb st)
    (h : run32 c cb p st = some st1) : Sized n st1 ∧ Settled cb st1 := by
  induction p generalizing st with
  | nil =>
    simp only [run32] at h
    cases h
    exact ⟨hsz, hst⟩
  | cons s p ih =>
    simp only [run32] at h
    cases hs : applyStep32 c cb s st with
    | none => simp [hs] at h
    | some st2 =>
      simp only [hs] at h
      obtain ⟨h1, h2⟩ := applyStep32_settled hal hsz hst hs
      exact ih h1 h2 h

theorem terminalSteps_noOverflow (n : Nat) : ∀ s ∈ terminalSteps n, s.noOverflow = true := by
  intro s hs
  simp only [terminalSteps, List.mem_map] at hs
  obtain ⟨m, -, rfl⟩ := hs
  rfl

theorem demoCollab_alignerSound : AlignerSound demoCollab := by
  intro p s a h
  simp only [demoCollab] at h ⊢
  split at h
  · cases h
  · rename_i hne
    rw [if_neg hne]
    exact ⟨hne, by simp⟩

/-- C1: if `alignConsensus` reports success only with a non-empty consensus
and positive support, then whenever `assemble` returns, in `int32_t`
arithmetic (`assemble32`) or in the integer embedding (`assemble`), every
candidate record is in exactly one of the two terminal states: validated
(non-empty consensus, positive support, the record, its quality included, as
the successful `alignConsensus` call left it) or failed (empty consensus,
support 0, quality 0); a candidate without a successful `alignConsensus` call
in the log is failed. And `assemble` does return, the same state in both
embeddings, when every evidence tuple names a row of the table and no
operation of lines 85-98 overflows `int32_t`. -/
theorem assemble_terminal_states (c : TeguaConfig) (cb : Collaborators) (inp : Input)
    (svs : List StructuralVariantRecord) (hal : AlignerSound cb) :
    ((∀ s ∈ schedule cb inp svs.length, s.wellIndexed svs.length = true) →
      (∀ s ∈ schedule cb inp svs.length, s.noOverflow = true) →
      ∃ st, assemble32 c cb inp svs = some st ∧ assemble c cb inp svs = some st) ∧
    ∀ st, (assemble c cb inp svs = some st ∨ assemble32 c cb inp svs = some st) →
      st.svs.length = svs.length ∧
      ∀ (k : Nat) (r : StructuralVariantRecord), st.svs[k]? = some r →
        (IsValidated cb st.log k r ∨ IsFailed r) ∧
        ¬ (IsValidated cb st.log k r ∧ IsFailed r) ∧
        ((∀ p s a, Event.alignCall k p s a true ∉ st.log) → IsFailed r) := by
  refine ⟨fun hwf hno => ?_, ?_⟩
  · obtain ⟨st, hst⟩ := run_prefix_total c hwf (List.prefix_refl _)
    exact ⟨st, (assemble32_eq c cb inp svs hno).trans hst, hst⟩
  intro st hst
  have key : Sized svs.length st ∧ Settled cb st ∧ SweptBelow svs.length st := by
    rcases hst with hst | hst
    · obtain ⟨st1, -, h2⟩ := run_append_some (p := contigLoop cb inp svs.length 0 inp.contigs) hst
      exact ⟨(reaches_invariants (run_reaches hst) (initState_invariants c svs)).1,
        reaches_settled hal (run_reaches hst) (settled_initState cb svs),
        run_terminalSteps_swept svs.length h2⟩
    · obtain ⟨h1, h2⟩ := run32_settled hal (sized_initState svs) (settled_initState cb svs) hst
      obtain ⟨st1, -, h3⟩ :=
        run32_append_some (p := contigLoop cb inp svs.length 0 inp.contigs) hst
      rw [run32_eq_run c cb _ (terminalSteps_noOverflow svs.length)] at h3
      exact ⟨h1, h2, run_terminalSteps_swept svs.length h3⟩
  obtain ⟨hsized, hsettled, hswept⟩ := key
  refine ⟨hsized.1, ?_⟩
  intro k r hr
  have hk : k < svs.length := by
    have := lt_length_of_getElem? hr
    omega
  obtain ⟨d, hd⟩ := getElem?_of_lt (by omega : k < st.svcons.length)
  have hmain : IsValidated cb st.log k r ∨ IsFailed r := by
    cases d with
    | true => exact hsettled k r hd hr
    | false => exact Or.inr (hswept k r hk hr hd)
  refine ⟨hmain, fun hh => isValidated_not_failed hh.1 hh.2, fun hno => ?_⟩
  rcases hmain with hv | hf
  · obtain ⟨-, -, p, s, a, hm, -⟩ := hv
    exact absurd hm (hno p s a)
  · exact hf

theorem scenarioA_wellIndexed :
    ∀ s ∈ schedule demoCollab scenarioA [candidateA].length,
      s.wellIndexed [candidateA].length = true := by
  decide

set_option maxRecDepth 200000 in
theorem scenarioA_noOverflow :
    ∀ s ∈ schedule demoCollab scenarioA [candidateA].length, s.noOverflow = true := by
  decide

set_option maxRecDepth 200000 in
theorem assemble_terminal_states_witness :
    AlignerSound demoCollab ∧
    (∃ st, assemble32 ⟨5⟩ demoCollab scenarioA [candidateA] = some st ∧
      assemble ⟨5⟩ demoCollab scenarioA [candidateA] = some st) ∧
    assemble ⟨5⟩ demoCollab scenarioA [candidateA] = some stateA3 ∧
    assemble32 ⟨5⟩ demoCollab scenarioA [candidateA] = some stateA3 ∧
    stateA3.svs.length = [candidateA].length ∧
    stateA3.svs[0]? = some { candidateAConsensus with srSupport := 2, srAlignQuality := 1 } ∧
    (IsValidated demoCollab stateA3.log 0
        { candidateAConsensus with srSupport := 2, srAlignQuality := 1 } ∨
      IsFailed { candidateAConsensus with srSupport := 2, srAlignQuality := 1 }) ∧
    ¬ IsFailed { candidateAConsensus with srSupport := 2, srAlignQuality := 1 } :=
  ⟨demoCollab_alignerSound,
    (assemble_terminal_states ⟨5⟩ demoCollab scenarioA [candidateA]
      demoCollab_alignerSound).1 scenarioA_wellIndexed scenarioA_noOverflow,
    by decide, by decide,
    ((assemble_terminal_states ⟨5⟩ demoCollab scenarioA [candidateA]
      demoCollab_alignerSound).2 stateA3 (Or.inr (by decide))).1, by decide,
    (((assemble_terminal_states ⟨5⟩ demoCollab scenarioA [candidateA]
      demoCollab_alignerSound).2 stateA3 (Or.inr (by decide))).2 0 _ (by decide)).1, by decide⟩

/-- C2: over any run of `assemble`, at every point the log holds at most one
call of `msa` and at most one call of `alignConsensus` per candidate; and
from any point at which `svcons[k]` is true, at every later point `svcons[k]`
is still true and the record and the collector of `k` are unchanged (the
later steps being slice steps, deferred-sweep steps and terminal-sweep
steps). -/
theorem pipeline_once_and_frozen (c : TeguaConfig) (cb : Collaborators) (inp : Input)
    (svs : List StructuralVariantRecord) (p q : List Step) (st st1 : State)
    (_hpq : p ++ q <+: schedule cb inp svs.length)
    (hp : run c cb p (initState svs) = some st) (hq : run c cb q st = some st1) (k : Nat) :
    st1.log.countP (Event.isMsaFor k) ≤ 1 ∧ st1.log.countP (Event.isAlignFor k) ≤ 1 ∧
    (st.svcons[k]? = some true →
      st1.svcons[k]? = some true ∧ st1.svs[k]? = st.svs[k]? ∧
        st1.seqStore[k]? = st.seqStore[k]?) := by
  have hreach : Reaches c cb (initState svs) st1 :=
    Relation.ReflTransGen.trans (run_reaches hp) (run_reaches hq)
  obtain ⟨-, -, -, -, h3⟩ := reaches_invariants hreach (initState_invariants c svs)
  exact ⟨(h3 k).1, (h3 k).2, fun hk => reaches_frozen (run_reaches hq) k hk⟩

/-- C5: with a length-preserving `reverseComplement`, whenever the
acceptance test of line 98 passes, `0 ≤ sPos < ePos ≤ readLength`, `substr`
is in range and returns exactly `ePos - sPos` characters, and the string
inserted at line 103 has more than 1000 and at most 11000 characters; hence
at every point of a run every string in every collector has such a length. -/
theorem collected_window_length (c : TeguaConfig) (cb : Collaborators) (inp : Input)
    (svs : List StructuralVariantRecord)
    (hrc : ∀ s, (cb.reverseComplement s).length = s.length) :
    (∀ (rec : BamRecord) (sl : SeqSlice), accepted (sliceWindow rec sl) = true →
      0 ≤ (sliceWindow rec sl).1 ∧ (sliceWindow rec sl).1 < (sliceWindow rec sl).2 ∧
      (sliceWindow rec sl).2 ≤ rec.sequence.length ∧
      ∃ w, substr rec.sequence (sliceWindow rec sl).1.toNat
          ((sliceWindow rec sl).2 - (sliceWindow rec sl).1).toNat = some w ∧
        (w.length : Int) = (sliceWindow rec sl).2 - (sliceWindow rec sl).1 ∧
        ∀ (refIndex : Nat) (r : StructuralVariantRecord),
          1000 < (orientWindow cb refIndex r w).length ∧
          (orientWindow cb refIndex r w).length ≤ 11000) ∧
    (∀ (p : List Step) (st : State), p <+: schedule cb inp svs.length →
      run c cb p (initState svs) = some st →
      ∀ (k : Nat) (seqs : List Sequence), st.seqStore[k]? = some seqs →
        ∀ s ∈ seqs, 1000 < s.length ∧ s.length ≤ 11000) := by
  constructor
  · intro rec sl hacc
    obtain ⟨h1, h2, h3, w, hw, hlen, hl1, hl2⟩ := window_in_range rec sl hacc
    refine ⟨h1, h2, h3, w, hw, hlen, fun refIndex r => ?_⟩
    unfold orientWindow
    split
    · rw [hrc]; exact ⟨hl1, hl2⟩
    · exact ⟨hl1, hl2⟩
  · intro p st _ hrun
    exact reaches_preserves LengthsOk (fun _ _ hP hm => micro_lengthsOk hrc hP hm)
      (run_reaches hrun)
      (lengthsOk_initState svs)

set_option maxRecDepth 200000 in
theorem collected_window_length_witness :
    (∀ s, (demoCollab.reverseComplement s).length = s.length) ∧
    accepted (sliceWindow (demoRead 'A' 1) ⟨0, 500, 20, 0⟩) = true ∧
    stateA2.seqStore[0]? = some [demoWindow 'A', demoWindow 'C'] ∧
    ∀ s ∈ [demoWindow 'A', demoWindow 'C'], 1000 < s.length ∧ s.length ≤ 11000 :=
  ⟨fun s => List.length_reverse s, by decide, by decide,
    (collected_window_length ⟨5⟩ demoCollab scenarioA [candidateA]
      (fun s => List.length_reverse s)).2 stepsA2 stateA2 stepsA2_prefix run_stepsA2 0 _
      (by decide)⟩

set_option maxRecDepth 200000 in
theorem scheduleA_eq : schedule demoCollab scenarioA 1 = (stepsA2 ++ [stepA3]) ++ stepsARest := by
  decide

set_option maxRecDepth 200000 in
theorem run_stepA3 : run ⟨5⟩ demoCollab [stepA3] stateA2 = some stateA3 := by
  decide

set_option maxRecDepth 200000 in
theorem run_stepsARest : run ⟨5⟩ demoCollab stepsARest stateA3 = some stateA3 := by
  decide

theorem scheduleA_prefix :
    (stepsA2 ++ [stepA3]) ++ stepsARest <+: schedule demoCollab scenarioA [candidateA].length := by
  rw [show [candidateA].length = 1 from rfl, scheduleA_eq]

theorem stepsA3_prefix :
    stepsA2 ++ [stepA3] <+: schedule demoCollab scenarioA [candidateA].length := by
  rw [show [candidateA].length = 1 from rfl, scheduleA_eq]
  exact List.prefix_append _ _

theorem run_stepsA3 :
    run ⟨5⟩ demoCollab (stepsA2 ++ [stepA3]) (initState [candidateA]) = some stateA3 := by
  rw [run_append, run_stepsA2, Option.some_bind]
  exact run_stepA3

set_option maxRecDepth 200000 in
theorem pipeline_once_and_frozen_witness :
    stateA3.svcons[0]? = some true ∧
    stateA3.log.countP (Event.isMsaFor 0) ≤ 1 ∧ stateA3.log.countP (Event.isAlignFor 0) ≤ 1 ∧
    (stateA3.svcons[0]? = some true →
      stateA3.svcons[0]? = some true ∧ stateA3.svs[0]? = stateA3.svs[0]? ∧
        stateA3.seqStore[0]? = stateA3.seqStore[0]?) :=
  ⟨by decide,
    pipeline_once_and_frozen ⟨5⟩ demoCollab scenarioA [candidateA] (stepsA2 ++ [stepA3]) stepsARest
      stateA3 stateA3 scheduleA_prefix run_stepsA3 run_stepsARest 0⟩

/-! ## The two call sites of `msa` -/

theorem processSlice_finalises {c : TeguaConfig} {cb : Collaborators} {refIndex : Nat}
    {seq : Option Sequence} {rec : BamRecord} {sl : SeqSlice} {st st1 : State} {k : Nat}
    (h : processSlice c cb refIndex seq rec sl st = some st1)
    (hd : st.svcons[k]? = some false) (hd1 : st1.svcons[k]? = some true) :
    ∃ seqs0 r w0, toIndex sl.svid = some k ∧ st.seqStore[k]? = some seqs0 ∧
      st.svs[k]? = some r ∧ seqs0.length < c.maxReadPerSV ∧
      accepted (sliceWindow rec sl) = true ∧
      substr rec.sequence (sliceWindow rec sl).1.toNat
        ((sliceWindow rec sl).2 - (sliceWindow rec sl).1).toNat = some w0 ∧
      cb.translocation r.svt = false ∧ r.chr = refIndex ∧
      ((stdSetInsert (orientWindow cb refIndex r w0) seqs0).length = c.maxReadPerSV ∨
        toInt32 (stdSetInsert (orientWindow cb refIndex r w0) seqs0).length = r.srSupport) ∧
      st1 = finalize cb seq none k (stdSetInsert (orientWindow cb refIndex r w0) seqs0) r
        { st with seqStore :=
            st.seqStore.set k (stdSetInsert (orientWindow cb refIndex r w0) seqs0) } := by
  obtain ⟨k0, hk0, -, hcase⟩ := processSlice_cases h
  rcases hcase with rfl | ⟨seqs, r, w0, hd0, hs, hcap, hr, hacc, hw, hcase⟩
  · rw [hd] at hd1
    cases hd1
  · rcases hcase with ⟨rfl, -⟩ | ⟨rfl, htr, hchr, hcnt⟩
    · simp only [hd] at hd1
      cases hd1
    · have hkk : k0 = k := by
        by_contra hne
        simp only [finalize, List.getElem?_set_ne hne, hd] at hd1
        cases hd1
      subst hkk
      exact ⟨seqs, r, w0, hk0, hs, hr, hcap, hacc, hw, htr, hchr, hcnt, rfl⟩

theorem sweepCandidate_finalises {cb : Collaborators} {refIndex refIndex2 : Nat}
    {seq : Option Sequence} {j : Nat} {st st1 : State} {k : Nat}
    (h : sweepCandidate cb refIndex refIndex2 seq j st = some st1)
    (hd : st.svcons[k]? = some false) (hd1 : st1.svcons[k]? = some true) :
    ∃ seqs r, j = k ∧ st.seqStore[k]? = some seqs ∧ st.svs[k]? = some r ∧
      r.chr = refIndex ∧ r.chr2 = refIndex2 ∧
      (st1 = finalize cb seq st.sndSeq k seqs r st ∧
          ¬ (seqs.length > 1 ∧ refIndex ≠ refIndex2 ∧ st.sndSeq = none)
        ∨
        st1 = finalize cb seq (cb.fetchSeq refIndex2) k seqs r
            { st with sndSeq := cb.fetchSeq refIndex2
                      log := st.log ++ [Event.fetchSnd refIndex refIndex2] } ∧
          seqs.length > 1 ∧ refIndex ≠ refIndex2 ∧ st.sndSeq = none) := by
  obtain ⟨-, hcase⟩ := sweepCandidate_cases h
  rcases hcase with ⟨rfl, -⟩ | ⟨seqs, r, hd0, hs, hr, hc1, hc2, hcase⟩
  · rw [hd] at hd1
    cases hd1
  · have hkk : j = k := by
      by_contra hne
      rcases hcase with ⟨rfl, -⟩ | ⟨rfl, -⟩ <;>
        · simp only [finalize, List.getElem?_set_ne hne, hd] at hd1
          cases hd1
    subst hkk
    exact ⟨seqs, r, rfl, hs, hr, hc1, hc2, hcase⟩

/-- C4: at every point of a run every logged call of `msa` was made on a
collector of at least 2 distinct sequences. At the forward-pass site and at
the deferred-sweep site alike, when a step finalises candidate `k` its
collector `seqs` at that moment decides: with fewer than 2 sequences the log
is unchanged (neither `msa` nor `alignConsensus` is called) and the record is
reset to consensus `""`, support 0, quality 0; with 2 or more the step logs
`msa` on exactly `seqs`, followed by `alignConsensus`. -/
theorem msa_needs_two_sequences (c : TeguaConfig) (cb : Collaborators) (inp : Input)
    (svs : List StructuralVariantRecord) :
    (∀ (p : List Step) (st : State), p <+: schedule cb inp svs.length →
      run c cb p (initState svs) = some st →
      ∀ (k : Nat) (seqs : List Sequence), Event.msaCall k seqs ∈ st.log →
        2 ≤ seqs.length ∧ seqs.Nodup) ∧
    (∀ (refIndex : Nat) (seq : Option Sequence) (rec : BamRecord) (sl : SeqSlice)
        (st st1 : State) (k : Nat),
      processSlice c cb refIndex seq rec sl st = some st1 →
      st.svcons[k]? = some false → st1.svcons[k]? = some true →
      ∃ seqs0 r w0, st.seqStore[k]? = some seqs0 ∧ st.svs[k]? = some r ∧
        substr rec.sequence (sliceWindow rec sl).1.toNat
          ((sliceWindow rec sl).2 - (sliceWindow rec sl).1).toNat = some w0 ∧
        (((stdSetInsert (orientWindow cb refIndex r w0) seqs0).length < 2 →
            st1.log = st.log ∧ st1.svs[k]? = some (resetRecord r)) ∧
          (2 ≤ (stdSetInsert (orientWindow cb refIndex r w0) seqs0).length →
            ∃ arg ok, st1.log = st.log ++
              [Event.msaCall k (stdSetInsert (orientWindow cb refIndex r w0) seqs0),
               Event.alignCall k seq none arg ok]))) ∧
    (∀ (refIndex refIndex2 : Nat) (seq : Option Sequence) (j : Nat) (st st1 : State) (k : Nat),
      sweepCandidate cb refIndex refIndex2 seq j st = some st1 →
      st.svcons[k]? = some false → st1.svcons[k]? = some true →
      ∃ seqs r, st.seqStore[k]? = some seqs ∧ st.svs[k]? = some r ∧
        ((seqs.length < 2 → st1.log = st.log ∧ st1.svs[k]? = some (resetRecord r)) ∧
          (2 ≤ seqs.length →
            ∃ fetched snd arg ok, (∀ e ∈ fetched, e.concerns k = false) ∧
              st1.log = st.log ++ fetched ++
                [Event.msaCall k seqs, Event.alignCall k seq snd arg ok]))) := by
  refine ⟨?_, ?_, ?_⟩
  · intro p st _ hrun k seqs hm
    exact (reaches_invariants (run_reaches hrun) (initState_invariants c svs)).2.2.1 k seqs hm
  · intro refIndex seq rec sl st st1 k h hd hd1
    obtain ⟨seqs0, r, w0, -, hs, hr, -, -, hw, -, -, -, rfl⟩ := processSlice_finalises h hd hd1
    refine ⟨seqs0, r, w0, hs, hr, hw, ?_, ?_⟩
    · intro hlt
      simp only [finalize, consensusPipeline_short cb seq none k _ r hlt, List.append_nil,
        List.getElem?_set_self (lt_length_of_getElem? hr), and_self]
    · intro hge
      exact ⟨consensusRecord cb (stdSetInsert (orientWindow cb refIndex r w0) seqs0) r,
        (cb.alignConsensus seq none
          (consensusRecord cb (stdSetInsert (orientWindow cb refIndex r w0) seqs0) r)).1,
        by simp only [finalize, consensusPipeline_long cb seq none k _ r hge]⟩
  · intro refIndex refIndex2 seq j st st1 k h hd hd1
    obtain ⟨seqs, r, -, hs, hr, -, -, hcase⟩ := sweepCandidate_finalises h hd hd1
    refine ⟨seqs, r, hs, hr, ?_, ?_⟩
    · intro hlt
      rcases hcase with ⟨rfl, -⟩ | ⟨-, hgt, -⟩
      · simp only [finalize, consensusPipeline_short cb seq _ k _ r hlt, List.append_nil,
          List.getElem?_set_self (lt_length_of_getElem? hr), and_self]
      · omega
    · intro hge
      rcases hcase with ⟨rfl, -⟩ | ⟨rfl, -⟩
      · exact ⟨[], st.sndSeq, consensusRecord cb seqs r,
          (cb.alignConsensus seq st.sndSeq (consensusRecord cb seqs r)).1, by simp,
          by simp only [finalize, consensusPipeline_long cb seq _ k _ r hge, List.append_nil]⟩
      · refine ⟨[Event.fetchSnd refIndex refIndex2], cb.fetchSeq refIndex2,
          consensusRecord cb seqs r,
          (cb.alignConsensus seq (cb.fetchSeq refIndex2) (consensusRecord cb seqs r)).1, ?_, ?_⟩
        · intro e he
          simp only [List.mem_singleton] at he
          subst he
          rfl
        · simp only [finalize, consensusPipeline_long cb seq _ k _ r hge]

set_option maxRecDepth 200000 in
theorem msa_needs_two_sequences_witness :
    Event.msaCall 0 [demoWindow 'A', demoWindow 'C', demoWindow 'G'] ∈ stateA3.log ∧
    2 ≤ [demoWindow 'A', demoWindow 'C', demoWindow 'G'].length ∧
    [demoWindow 'A', demoWindow 'C', demoWindow 'G'].Nodup :=
  ⟨by decide,
    (msa_needs_two_sequences ⟨5⟩ demoCollab scenarioA [candidateA]).1 (stepsA2 ++ [stepA3]) stateA3
      stepsA3_prefix run_stepsA3 0 _ (by decide)⟩

/-! ## Evidence tuples outside the table -/

/-- C3 (counterexample): processing a tuple whose `svid` is the sentinel `-1`
does not leave the state unchanged: the model faults at the read of
`svcons[svid]`, and so does the whole run on an index that holds such a
tuple. -/
theorem sentinel_tuple_not_ignored :
    processSlice ⟨5⟩ demoCollab 0 (some ['A']) (demoRead 'A' 1) ⟨-1, 500, 20, 0⟩
        (initState [candidateA]) ≠ some (initState [candidateA]) ∧
    processSlice ⟨5⟩ demoCollab 0 (some ['A']) (demoRead 'A' 1) SeqSlice.default
        (initState [candidateA]) = none ∧
    assemble ⟨5⟩ demoCollab
        { contigs := [{ regionsEmpty := false, files := [[demoRead 'A' 1]] }]
          srStore := fun _ => some [SeqSlice.default] } [candidateA] = none := by
  refine ⟨?_, ?_, ?_⟩ <;> decide

/-- C3 (amended): `assemble` has no test for the sentinel. A tuple whose
`svid` is negative (the sentinel `-1` included) or not below the size of the
completion tracker faults at the read of `svcons[svid]`, for every state. A
tuple is ignored, the whole state unchanged, when its `svid` is a row of the
table and the candidate is finalised, or its collector has reached
`maxReadPerSV`, or the window is rejected by the test of line 98. -/
theorem tuple_faults_or_is_ignored (c : TeguaConfig) (cb : Collaborators) (refIndex : Nat)
    (seq : Option Sequence) (rec : BamRecord) (sl : SeqSlice) (st : State) :
    (sl.svid < 0 ∨ (st.svcons.length : Int) ≤ sl.svid →
      processSlice c cb refIndex seq rec sl st = none) ∧
    (∀ k : Nat, sl.svid = (k : Int) →
      (st.svcons[k]? = some true ∨
        (st.svcons[k]? = some false ∧ ∃ seqs, st.seqStore[k]? = some seqs ∧
          (c.maxReadPerSV ≤ seqs.length ∨ accepted (sliceWindow rec sl) = false))) →
      processSlice c cb refIndex seq rec sl st = some st) := by
  constructor
  · intro h
    unfold processSlice toIndex
    by_cases h0 : 0 ≤ sl.svid
    · rw [if_pos h0]
      have hlen : st.svcons.length ≤ sl.svid.toNat := by omega
      simp only [List.getElem?_eq_none hlen]
    · rw [if_neg h0]
  · intro k hk h
    have hidx : toIndex sl.svid = some k := by
      unfold toIndex
      rw [if_pos (by omega), hk, Int.toNat_ofNat]
    unfold processSlice
    simp only [hidx]
    rcases h with hd | ⟨hd, seqs, hs, hcase⟩
    · simp only [hd]
    · simp only [hd, hs]
      rcases hcase with hfull | hrej
      · rw [if_neg (by omega)]
      · split
        · simp only [hrej, Bool.false_eq_true, if_false]
        · rfl

set_option maxRecDepth 200000 in
theorem tuple_faults_or_is_ignored_witness :
    processSlice ⟨5⟩ demoCollab 0 (some ['A']) (demoRead 'G' 1) SeqSlice.default stateA3 = none ∧
    processSlice ⟨5⟩ demoCollab 0 (some ['A']) (demoRead 'G' 1) ⟨0, 500, 20, 0⟩ stateA3
      = some stateA3 :=
  ⟨(tuple_faults_or_is_ignored ⟨5⟩ demoCollab 0 (some ['A']) (demoRead 'G' 1) SeqSlice.default
      stateA3).1 (Or.inl (by decide)),
    (tuple_faults_or_is_ignored ⟨5⟩ demoCollab 0 (some ['A']) (demoRead 'G' 1) ⟨0, 500, 20, 0⟩
      stateA3).2 0 rfl (Or.inl (by decide))⟩

/-! ## The forward pass -/

theorem spared_refl (k : Nat) (st : State) : Spared k st st :=
  ⟨rfl, rfl, fun seqs h => ⟨seqs, h, List.Subset.refl _⟩, [], by simp, by simp⟩

theorem spared_trans {k : Nat} {a b d : State} (h1 : Spared k a b) (h2 : Spared k b d) :
    Spared k a d := by
  obtain ⟨a1, a2, a3, e1, a4, a5⟩ := h1
  obtain ⟨b1, b2, b3, e2, b4, b5⟩ := h2
  refine ⟨b1.trans a1, b2.trans a2, ?_, e1 ++ e2, by rw [b4, a4, List.append_assoc], ?_⟩
  · intro seqs hs
    obtain ⟨s1, hs1, hsub1⟩ := a3 seqs hs
    obtain ⟨s2, hs2, hsub2⟩ := b3 s1 hs1
    exact ⟨s2, hs2, hsub1.trans hsub2⟩
  · intro e he
    rcases List.mem_append.1 he with he | he
    · exact a5 e he
    · exact b5 e he

theorem processSlice_spares_translocation {c : TeguaConfig} {cb : Collaborators} {refIndex : Nat}
    {seq : Option Sequence} {rec : BamRecord} {sl : SeqSlice} {st st1 : State} {k : Nat}
    {r : StructuralVariantRecord}
    (h : processSlice c cb refIndex seq rec sl st = some st1)
    (hr : st.svs[k]? = some r) (htr : cb.translocation r.svt = true) : Spared k st st1 := by
  obtain ⟨k0, -, -, hcase⟩ := processSlice_cases h
  rcases hcase with rfl | ⟨seqs, r0, w0, hd0, hs, hcap, hr0, hacc, hw, hcase⟩
  · exact spared_refl k _
  · rcases hcase with ⟨rfl, -⟩ | ⟨rfl, htr0, -, -⟩
    · refine ⟨rfl, rfl, ?_, [], by simp, by simp⟩
      intro s hsk
      by_cases hkk : k0 = k
      · subst hkk
        rw [hs] at hsk
        cases hsk
        exact ⟨_, List.getElem?_set_self (lt_length_of_getElem? hs),
          fun x hx => mem_stdSetInsert.2 (Or.inr hx)⟩
      · exact ⟨s, by simpa only [List.getElem?_set_ne hkk] using hsk, List.Subset.refl _⟩
    · have hkk : k0 ≠ k := by
        rintro rfl
        rw [hr] at hr0
        cases hr0
        rw [htr] at htr0
        cases htr0
      refine ⟨?_, ?_, ?_, _, rfl, ?_⟩
      · simp only [finalize, List.getElem?_set_ne hkk]
      · simp only [finalize, List.getElem?_set_ne hkk]
      · intro s hsk
        exact ⟨s, by simpa only [finalize, List.getElem?_set_ne hkk] using hsk,
          List.Subset.refl _⟩
      · intro e he
        exact (consensusPipeline_events cb seq none k0 _ r0).1 e he k (Ne.symm hkk)

theorem run_slices_spare_translocation {c : TeguaConfig} {cb : Collaborators} {p : List Step}
    (hp : ∀ s ∈ p, s.isSlice = true) {st st1 : State} {k : Nat} {r : StructuralVariantRecord}
    (h : run c cb p st = some st1)
    (hr : st.svs[k]? = some r) (htr : cb.translocation r.svt = true) : Spared k st st1 := by
  induction p generalizing st with
  | nil =>
    simp only [run] at h
    cases h
    exact spared_refl k _
  | cons s p ih =>
    simp only [run] at h
    cases hs : applyStep c cb s st with
    | none => simp [hs] at h
    | some st2 =>
      simp only [hs] at h
      have hsl := hp s (List.mem_cons_self _ _)
      cases s with
      | slice refIndex seq rec sl =>
        have h1 := processSlice_spares_translocation hs hr htr
        have hr2 : st2.svs[k]? = some r := h1.2.1.trans hr
        exact spared_trans h1 (ih (fun s' hs' => hp s' (List.mem_cons_of_mem _ hs')) h hr2)
      | openPair i j => cases hsl
      | sweep i j sq m => cases hsl
      | terminal m => cases hsl

/-- C7: whatever the state, the contig, the samples and the reads, the
forward per-read pass leaves a candidate whose type code satisfies
`_translocation(svt)` with its completion flag and its record unchanged, its
collector not cleared (it can only gain sequences), and logs no call of `msa`
or `alignConsensus` for it; every step of the forward pass is a slice step. -/
theorem forward_pass_spares_translocations (c : TeguaConfig) (cb : Collaborators) (inp : Input)
    (refIndex : Nat) (seq : Option Sequence) (files : List (List BamRecord)) (st st1 : State)
    (k : Nat) (r : StructuralVariantRecord)
    (hrun : run c cb (forwardSteps inp refIndex seq files) st = some st1)
    (hr : st.svs[k]? = some r) (htr : cb.translocation r.svt = true) :
    st1.svcons[k]? = st.svcons[k]? ∧ st1.svs[k]? = some r ∧
    (∀ seqs : List Sequence, st.seqStore[k]? = some seqs →
      ∃ seqs1, st1.seqStore[k]? = some seqs1 ∧ seqs ⊆ seqs1) ∧
    ∃ evs, st1.log = st.log ++ evs ∧
      ∀ e ∈ evs, e.isMsaFor k = false ∧ e.isAlignFor k = false := by
  obtain ⟨h1, h2, h3, evs, h4, h5⟩ :=
    run_slices_spare_translocation (forwardSteps_isSlice inp refIndex seq files) hrun hr htr
  exact ⟨h1, h2.trans hr, h3, evs, h4, fun e he => isMsaFor_of_concerns (h5 e he)⟩

set_option maxRecDepth 200000 in
theorem run_forwardE0 :
    run ⟨5⟩ demoCollab (forwardSteps scenarioE 0 (some ['A']) [[demoRead 'A' 2]])
      (initState [candidateE]) = some stateE1 := by
  decide

set_option maxRecDepth 200000 in
theorem run_forwardE1 :
    run ⟨5⟩ demoCollab (forwardSteps scenarioE 1 (some ['B']) [[demoRead 'C' 2]])
      stateE1 = some stateE2 := by
  decide

set_option maxRecDepth 200000 in
theorem forward_pass_spares_translocations_witness :
    demoCollab.translocation candidateE.svt = true ∧
    (run ⟨5⟩ demoCollab (contigLoop demoCollab scenarioE 1 0 (scenarioE.contigs.take 1))
        (initState [candidateE]) = some stateE1 ∧
      demoCollab.fetchSeq 1 = some ['B'] ∧
      run ⟨5⟩ demoCollab (forwardSteps scenarioE 1 (some ['B']) [[demoRead 'C' 2]])
        stateE1 = some stateE2) ∧
    (candidateE.chr = 1 ∧ stateE2.seqStore[0]? = some [demoWindow 'A', demoWindow 'C'] ∧
      toInt32 [demoWindow 'A', demoWindow 'C'].length = candidateE.srSupport) ∧
    (demoCollab.translocation candidateEPlain.svt = false ∧
      (run ⟨5⟩ demoCollab (forwardSteps scenarioE 1 (some ['B']) [[demoRead 'C' 2]])
        { stateE1 with svs := [candidateEPlain] }).map State.svcons = some [true]) ∧
    (stateE2.svcons[0]? = stateE1.svcons[0]? ∧
      stateE2.svs[0]? = some candidateE ∧
      (∀ seqs : List Sequence, stateE1.seqStore[0]? = some seqs →
        ∃ seqs1, stateE2.seqStore[0]? = some seqs1 ∧ seqs ⊆ seqs1) ∧
      ∃ evs, stateE2.log = stateE1.log ++ evs ∧
        ∀ e ∈ evs, e.isMsaFor 0 = false ∧ e.isAlignFor 0 = false) ∧
    (stateE1.svcons[0]? = (initState [candidateE]).svcons[0]? ∧
      stateE1.svs[0]? = some candidateE ∧
      (∀ seqs : List Sequence, (initState [candidateE]).seqStore[0]? = some seqs →
        ∃ seqs1, stateE1.seqStore[0]? = some seqs1 ∧ seqs ⊆ seqs1) ∧
      ∃ evs, stateE1.log = (initState [candidateE]).log ++ evs ∧
        ∀ e ∈ evs, e.isMsaFor 0 = false ∧ e.isAlignFor 0 = false) :=
  ⟨by decide, ⟨by decide, by decide, run_forwardE1⟩, ⟨by decide, by decide, by decide⟩,
    ⟨by decide, by decide⟩,
    forward_pass_spares_translocations ⟨5⟩ demoCollab scenarioE 1 (some ['B'])
      [[demoRead 'C' 2]] stateE1 stateE2 0 candidateE run_forwardE1 (by decide) (by decide),
    forward_pass_spares_translocations ⟨5⟩ demoCollab scenarioE 0 (some ['A'])
      [[demoRead 'A' 2]] (initState [candidateE]) stateE1 0 candidateE run_forwardE0
      (by decide) (by decide)⟩

theorem toInt32_of_lt {n : Nat} (h : n < 2 ^ 31) : toInt32 n = (n : Int) := by
  unfold toInt32
  omega

/-- C8: for a not-yet-finalised, non-translocation candidate `k` anchored on
the current contig whose collector is below the cap, a tuple with an accepted
window is processed without fault; with `seqs1` the collector after the
insertion, if `seqs1.length` equals `c.maxReadPerSV` or (as `int32_t`) the
record's `srSupport`, the same step finalises the candidate (flag true,
collector cleared, record and log as the finalize body leaves them: failure
reset without a call when `seqs1` has fewer than 2 sequences), and otherwise
the flag stays false, the record and the log are unchanged and the collector
is `seqs1`. Below `2^31` the cast of the size is the size. -/
theorem forward_trigger (c : TeguaConfig) (cb : Collaborators) (refIndex : Nat)
    (seq : Option Sequence) (rec : BamRecord) (sl : SeqSlice) (st : State) (k : Nat)
    (seqs : List Sequence) (r : StructuralVariantRecord)
    (hk : sl.svid = (k : Int)) (hd : st.svcons[k]? = some false)
    (hs : st.seqStore[k]? = some seqs) (hcap : seqs.length < c.maxReadPerSV)
    (hr : st.svs[k]? = some r) (hnt : cb.translocation r.svt = false)
    (hchr : r.chr = refIndex) (hacc : accepted (sliceWindow rec sl) = true) :
    ∃ w0 seqs1 st1,
      substr rec.sequence (sliceWindow rec sl).1.toNat
        ((sliceWindow rec sl).2 - (sliceWindow rec sl).1).toNat = some w0 ∧
      seqs1 = stdSetInsert (orientWindow cb refIndex r w0) seqs ∧
      processSlice c cb refIndex seq rec sl st = some st1 ∧
      (c.maxReadPerSV < 2 ^ 31 → toInt32 seqs1.length = (seqs1.length : Int)) ∧
      ((seqs1.length = c.maxReadPerSV ∨ toInt32 seqs1.length = r.srSupport) →
        st1.svcons[k]? = some true ∧ st1.seqStore[k]? = some [] ∧
        st1.svs[k]? = some (consensusPipeline cb seq none k seqs1 r).1 ∧
        st1.log = st.log ++ (consensusPipeline cb seq none k seqs1 r).2 ∧
        (seqs1.length < 2 → st1.svs[k]? = some (resetRecord r) ∧ st1.log = st.log)) ∧
      (¬ (seqs1.length = c.maxReadPerSV ∨ toInt32 seqs1.length = r.srSupport) →
        st1.svcons[k]? = some false ∧ st1.svs[k]? = some r ∧
        st1.seqStore[k]? = some seqs1 ∧ st1.log = st.log) := by
  obtain ⟨-, -, -, w0, hw, -⟩ := window_in_range rec sl hacc
  have hidx : toIndex sl.svid = some k := by
    unfold toIndex
    rw [if_pos (by omega), hk, Int.toNat_ofNat]
  have hks : k < st.seqStore.length := lt_length_of_getElem? hs
  have hkr : k < st.svs.length := lt_length_of_getElem? hr
  have hkd : k < st.svcons.length := lt_length_of_getElem? hd
  have hcast : c.maxReadPerSV < 2 ^ 31 →
      toInt32 (stdSetInsert (orientWindow cb refIndex r w0) seqs).length
        = ((stdSetInsert (orientWindow cb refIndex r w0) seqs).length : Int) := by
    intro hmax
    have := stdSetInsert_length_le (orientWindow cb refIndex r w0) seqs
    exact toInt32_of_lt (by omega)
  have htrig : ((!cb.translocation r.svt) = true ∧ r.chr = (refIndex : Int)) := by
    simp [hnt, hchr]
  by_cases hcnt : (stdSetInsert (orientWindow cb refIndex r w0) seqs).length = c.maxReadPerSV ∨
      toInt32 (stdSetInsert (orientWindow cb refIndex r w0) seqs).length = r.srSupport
  · refine ⟨w0, _, finalize cb seq none k (stdSetInsert (orientWindow cb refIndex r w0) seqs) r
        { st with seqStore :=
            st.seqStore.set k (stdSetInsert (orientWindow cb refIndex r w0) seqs) },
      hw, rfl, ?_, hcast, ?_, fun hn => absurd hcnt hn⟩
    · unfold processSlice
      simp only [hidx, hd, hs, hr, hw, if_pos hcap, if_pos hacc, if_pos htrig, if_pos hcnt]
    · intro _
      refine ⟨?_, ?_, ?_, ?_, ?_⟩
      · simp only [finalize, List.getElem?_set_self hkd]
      · simp only [finalize, List.set_set, List.getElem?_set_self hks]
      · simp only [finalize, List.getElem?_set_self hkr]
      · simp only [finalize]
      · intro hlt
        simp only [finalize, List.getElem?_set_self hkr,
          consensusPipeline_short cb seq none k _ r hlt, List.append_nil, and_self]
  · refine ⟨w0, _,
      { st with seqStore :=
          st.seqStore.set k (stdSetInsert (orientWindow cb refIndex r w0) seqs) },
      hw, rfl, ?_, hcast, fun hy => absurd hy hcnt, ?_⟩
    · unfold processSlice
      simp only [hidx, hd, hs, hr, hw, if_pos hcap, if_pos hacc, if_pos htrig, if_neg hcnt]
    · intro _
      exact ⟨hd, hr, List.getElem?_set_self hks, rfl⟩

set_option maxRecDepth 200000 in
theorem forward_trigger_witness :
    run ⟨5⟩ demoCollab stepsA2 (initState [candidateA]) = some stateA2 ∧
    stateA2.svcons[0]? = some false ∧
    stateA2.seqStore[0]? = some [demoWindow 'A', demoWindow 'C'] ∧
    run ⟨5⟩ demoCollab [stepA3] stateA2 = some stateA3 ∧
    stateA3.svcons[0]? = some true ∧ stateA3.seqStore[0]? = some [] ∧
    ∃ w0 seqs1 st1,
      substr (demoRead 'G' 1).sequence
        (sliceWindow (demoRead 'G' 1) ⟨0, 500, 20, 0⟩).1.toNat
        ((sliceWindow (demoRead 'G' 1) ⟨0, 500, 20, 0⟩).2
          - (sliceWindow (demoRead 'G' 1) ⟨0, 500, 20, 0⟩).1).toNat = some w0 ∧
      seqs1 = stdSetInsert (orientWindow demoCollab 0 candidateA w0)
        [demoWindow 'A', demoWindow 'C'] ∧
      processSlice ⟨5⟩ demoCollab 0 (some ['A']) (demoRead 'G' 1) ⟨0, 500, 20, 0⟩ stateA2
        = some st1 ∧
      ((⟨5⟩ : TeguaConfig).maxReadPerSV < 2 ^ 31 → toInt32 seqs1.length = (seqs1.length : Int)) ∧
      ((seqs1.length = (⟨5⟩ : TeguaConfig).maxReadPerSV ∨
          toInt32 seqs1.length = candidateA.srSupport) →
        st1.svcons[0]? = some true ∧ st1.seqStore[0]? = some [] ∧
        st1.svs[0]? = some (consensusPipeline demoCollab (some ['A']) none 0 seqs1 candidateA).1 ∧
        st1.log = stateA2.log
          ++ (consensusPipeline demoCollab (some ['A']) none 0 seqs1 candidateA).2 ∧
        (seqs1.length < 2 →
          st1.svs[0]? = some (resetRecord candidateA) ∧ st1.log = stateA2.log)) ∧
      (¬ (seqs1.length = (⟨5⟩ : TeguaConfig).maxReadPerSV ∨
          toInt32 seqs1.length = candidateA.srSupport) →
        st1.svcons[0]? = some false ∧ st1.svs[0]? = some candidateA ∧
        st1.seqStore[0]? = some seqs1 ∧ st1.log = stateA2.log) :=
  ⟨run_stepsA2, by decide, by decide, run_stepA3, by decide, by decide,
    forward_trigger ⟨5⟩ demoCollab 0 (some ['A']) (demoRead 'G' 1) ⟨0, 500, 20, 0⟩ stateA2 0
      [demoWindow 'A', demoWindow 'C'] candidateA rfl (by decide) (by decide) (by decide)
      (by decide) (by decide) (by decide) (by decide)⟩

/-! ## Decomposing the schedule -/

theorem contigLoop_append (cb : Collaborators) (inp : Input) (n start : Nat)
    (l1 l2 : List Contig) :
    contigLoop cb inp n start (l1 ++ l2) =
      contigLoop cb inp n start l1 ++ contigLoop cb inp n (start + l1.length) l2 := by
  induction l1 generalizing start with
  | nil => simp [contigLoop]
  | cons ctg rest ih =>
    have hidx : start + 1 + rest.length = start + (ctg :: rest).length := by
      simp only [List.length_cons]
      omega
    show contigSteps cb inp n start ctg ++ contigLoop cb inp n (start + 1) (rest ++ l2) = _
    rw [ih (start + 1), hidx]
    simp only [contigLoop, List.append_assoc]

theorem contigLoop_split (cb : Collaborators) (inp : Input) (n : Nat) {ctgs : List Contig}
    {B : Nat} {ctg : Contig} (h : ctgs[B]? = some ctg) :
    contigLoop cb inp n 0 ctgs =
      contigLoop cb inp n 0 (ctgs.take B) ++
        (contigSteps cb inp n B ctg ++ contigLoop cb inp n (B + 1) (ctgs.drop (B + 1))) := by
  have hlt : B < ctgs.length := lt_length_of_getElem? h
  have hsplit : ctgs = ctgs.take B ++ ctg :: ctgs.drop (B + 1) := by
    have hget : ctgs[B] = ctg := by
      rw [List.getElem?_eq_getElem hlt] at h
      exact Option.some.inj h
    rw [← hget, ← List.drop_eq_getElem_cons hlt, List.take_append_drop]
  conv_lhs => rw [hsplit]
  rw [contigLoop_append, List.length_take, Nat.min_eq_left (Nat.le_of_lt hlt), Nat.zero_add]
  rfl

theorem range_split {A B : Nat} (h : A ≤ B) :
    ∃ tl, List.range (B + 1) = List.range A ++ A :: tl ∧ ∀ j ∈ tl, A < j ∧ j ≤ B := by
  refine ⟨(List.range (B - A)).map (fun i => A + (i + 1)), ?_, ?_⟩
  · have h1 : B + 1 = A + ((B - A) + 1) := by omega
    rw [h1, List.range_add, List.range_succ_eq_map]
    simp [Function.comp_def]
  · intro j hj
    simp only [List.mem_map, List.mem_range] at hj
    obtain ⟨i, hi, rfl⟩ := hj
    omega

/-- The pairs swept on contig `B`, split at the pair `(B, A)`. -/
theorem sweepSteps_split (n : Nat) {A B : Nat} (seq : Option Sequence) (h : A ≤ B) :
    ∃ tl : List Nat, sweepSteps n B seq =
        (List.range A).flatMap (pairSteps n B seq) ++
          (pairSteps n B seq A ++ tl.flatMap (pairSteps n B seq)) ∧
      ∀ j ∈ tl, A < j ∧ j ≤ B := by
  obtain ⟨tl, htl, hmem⟩ := range_split h
  refine ⟨tl, ?_, hmem⟩
  simp only [sweepSteps, htl, List.flatMap_append, List.flatMap_cons]

/-- The candidates swept for one pair, split at candidate `k`. -/
theorem pairSteps_split {n k : Nat} (i j : Nat) (seq : Option Sequence) (h : k < n) :
    ∃ tl : List Nat, pairSteps n i seq j =
        (Step.openPair i j :: (List.range k).map (Step.sweep i j seq)) ++
          (Step.sweep i j seq k :: tl.map (Step.sweep i j seq)) ∧
      ∀ m ∈ tl, k < m ∧ m < n := by
  obtain ⟨tl, htl, hmem⟩ := range_split (Nat.le_sub_one_of_lt h)
  rw [Nat.sub_add_cancel (by omega : 1 ≤ n)] at htl
  refine ⟨tl, ?_, fun m hm => ⟨(hmem m hm).1, by have := (hmem m hm).2; omega⟩⟩
  simp only [pairSteps, htl, List.map_append, List.map_cons, List.cons_append]

theorem forwardSteps_pair (inp : Input) (refIndex : Nat) (seq : Option Sequence)
    (files : List (List BamRecord)) :
    ∀ s ∈ forwardSteps inp refIndex seq files, s.pair = none ∧ s.isTerminal = false := by
  intro s hs
  have := forwardSteps_isSlice inp refIndex seq files s hs
  cases s <;> simp_all [Step.isSlice, Step.pair, Step.isTerminal]

theorem pairSteps_pair (n i j : Nat) (seq : Option Sequence) :
    ∀ s ∈ pairSteps n i seq j, s.pair = some (i, j) ∧ s.isTerminal = false ∧
      s.isSlice = false := by
  intro s hs
  simp only [pairSteps, List.mem_cons, List.mem_map] at hs
  rcases hs with rfl | ⟨m, -, rfl⟩
  · exact ⟨rfl, rfl, rfl⟩
  · exact ⟨rfl, rfl, rfl⟩

theorem contigSteps_pair (cb : Collaborators) (inp : Input) (n B : Nat) (ctg : Contig) :
    ∀ s ∈ contigSteps cb inp n B ctg, s.isTerminal = false ∧
      ∀ i j, s.pair = some (i, j) → i = B ∧ j ≤ B := by
  intro s hs
  unfold contigSteps at hs
  split at hs
  · cases hs
  · rcases List.mem_append.1 hs with hs | hs
    · obtain ⟨h1, h2⟩ := forwardSteps_pair _ _ _ _ s hs
      exact ⟨h2, fun i j hp => by rw [h1] at hp; cases hp⟩
    · simp only [sweepSteps, List.mem_flatMap, List.mem_range] at hs
      obtain ⟨j0, hj0, hs⟩ := hs
      obtain ⟨h1, h2, -⟩ := pairSteps_pair _ _ _ _ s hs
      refine ⟨h2, fun i j hp => ?_⟩
      rw [h1] at hp
      cases hp
      exact ⟨rfl, by omega⟩

theorem contigLoop_pair (cb : Collaborators) (inp : Input) (n start : Nat)
    (ctgs : List Contig) :
    ∀ s ∈ contigLoop cb inp n start ctgs, s.isTerminal = false ∧
      ∀ i j, s.pair = some (i, j) → start ≤ i ∧ i < start + ctgs.length ∧ j ≤ i := by
  induction ctgs generalizing start with
  | nil => intro s hs; cases hs
  | cons ctg rest ih =>
    intro s hs
    simp only [contigLoop, List.mem_append] at hs
    rcases hs with hs | hs
    · obtain ⟨h1, h2⟩ := contigSteps_pair cb inp n start ctg s hs
      refine ⟨h1, fun i j hp => ?_⟩
      obtain ⟨rfl, hj⟩ := h2 i j hp
      simp only [List.length_cons]
      omega
    · obtain ⟨h1, h2⟩ := ih (start + 1) s hs
      refine ⟨h1, fun i j hp => ?_⟩
      have := h2 i j hp
      simp only [List.length_cons]
      omega

/-! ## Induction along a run -/

theorem run_snoc {c : TeguaConfig} {cb : Collaborators} {p : List Step} {s : Step}
    {st st2 : State} (h : run c cb (p ++ [s]) st = some st2) :
    ∃ st1, run c cb p st = some st1 ∧ applyStep c cb s st1 = some st2 := by
  obtain ⟨st1, h1, h2⟩ := run_append_some h
  refine ⟨st1, h1, ?_⟩
  simp only [run] at h2
  cases h3 : applyStep c cb s st1 with
  | none => simp [h3] at h2
  | some st3 =>
    simp only [h3] at h2
    rw [h2]

/-- Induction over the prefixes of a run: `Q` holds after every prefix whose
steps are all `good`, when each good step preserves it. -/
theorem run_prefix_induction {c : TeguaConfig} {cb : Collaborators} (sched : List Step)
    (init : State) (Q : State → Prop) (good : Step → Prop) (h0 : Q init)
    (hstep : ∀ p s st st1, p ++ [s] <+: sched → good s → run c cb p init = some st → Q st →
      applyStep c cb s st = some st1 → Q st1) :
    ∀ p st, p <+: sched → (∀ s ∈ p, good s) → run c cb p init = some st → Q st := by
  intro p
  induction p using List.reverseRecOn with
  | nil =>
    intro st _ _ h
    simp only [run] at h
    cases h
    exact h0
  | append_singleton p s ih =>
    intro st hp hg h
    obtain ⟨st1, h1, h2⟩ := run_snoc h
    have hp1 : p <+: sched := (List.prefix_append p [s]).trans hp
    exact hstep p s st1 st hp (hg s (by simp)) h1
      (ih st1 hp1 (fun s' hs' => hg s' (List.mem_append_left _ hs')) h1) h2

theorem finalises_of_pair_ne {i j k : Nat} {s : Step}
    (h : s.pair ≠ some (i, j)) : s.finalises i j k = false := by
  cases s with
  | sweep a b sq m =>
    simp only [Step.pair, ne_eq, Option.some.injEq, Prod.mk.injEq, not_and] at h
    simp only [Step.finalises, Bool.and_eq_false_imp, Bool.and_eq_true, beq_iff_eq,
      beq_eq_false_iff_ne]
    intro hab
    exact absurd hab.2 (h hab.1)
  | _ => rfl

/-- A step other than the terminal sweep and the deferred-sweep visit of `k`
for its own pair leaves `k` pending, as long as the forward trigger cannot
fire for it. -/
theorem applyStep_keeps_pending {c : TeguaConfig} {cb : Collaborators} {k i j : Nat}
    {r : StructuralVariantRecord} (hchr : r.chr = i) (hchr2 : r.chr2 = j)
    {s : Step} {st st1 : State} (hq : QuietSlice c cb k r st)
    (hterm : s.isTerminal = false) (hfin : s.finalises i j k = false)
    (hpend : Pending k r st) (h : applyStep c cb s st = some st1) : Pending k r st1 := by
  obtain ⟨hd, hr⟩ := hpend
  cases s with
  | slice refIndex seq rec sl =>
    obtain ⟨k0, -, -, hcase⟩ := processSlice_cases h
    rcases hcase with rfl | ⟨seqs, r0, w0, hd0, hs, hcap, hr0, hacc, hw, hcase⟩
    · exact ⟨hd, hr⟩
    · rcases hcase with ⟨rfl, -⟩ | ⟨rfl, htr0, -, hcnt⟩
      · exact ⟨hd, hr⟩
      · have hkk : k0 ≠ k := by
          rintro rfl
          rw [hr] at hr0
          cases hr0
          rcases hq with hq | hq
          · rw [hq] at htr0
            cases htr0
          · obtain ⟨q1, q2⟩ := hq seqs _ hs
            rcases hcnt with hcnt | hcnt
            · exact q1 hcnt
            · exact q2 hcnt
        exact ⟨by simpa only [finalize, List.getElem?_set_ne hkk] using hd,
          by simpa only [finalize, List.getElem?_set_ne hkk] using hr⟩
  | openPair a b =>
    simp only [applyStep] at h
    cases h
    exact ⟨hd, hr⟩
  | sweep a b sq m =>
    obtain ⟨-, hcase⟩ := sweepCandidate_cases h
    rcases hcase with ⟨rfl, -⟩ | ⟨seqs, r0, hd0, hs, hr0, hc1, hc2, hcase⟩
    · exact ⟨hd, hr⟩
    · have hkk : m ≠ k := by
        rintro rfl
        rw [hr] at hr0
        cases hr0
        have ha : a = i := by
          have : (a : Int) = (i : Int) := hc1.symm.trans hchr
          exact_mod_cast this
        have hb : b = j := by
          have : (b : Int) = (j : Int) := hc2.symm.trans hchr2
          exact_mod_cast this
        subst ha hb
        simp [Step.finalises] at hfin
      rcases hcase with ⟨rfl, -⟩ | ⟨rfl, -⟩
      · exact ⟨by simpa only [finalize, List.getElem?_set_ne hkk] using hd,
          by simpa only [finalize, List.getElem?_set_ne hkk] using hr⟩
      · exact ⟨by simpa only [finalize, List.getElem?_set_ne hkk] using hd,
          by simpa only [finalize, List.getElem?_set_ne hkk] using hr⟩
  | terminal m => cases hterm

/-- Once `k` is finalised, later changes log nothing for it. -/
theorem micro_log_frozen {c : TeguaConfig} {cb : Collaborators} {a b : State}
    (hm : Micro c cb a b) (k : Nat) (hk : a.svcons[k]? = some true) :
    ∃ evs, b.log = a.log ++ evs ∧ ∀ e ∈ evs, e.concerns k = false := by
  cases hm with
  | openPair => exact ⟨[], by simp, by simp⟩
  | fetch i j =>
    refine ⟨[Event.fetchSnd i j], rfl, ?_⟩
    intro e he
    simp only [List.mem_singleton] at he
    subst he
    rfl
  | insert j seqs refIndex r w0 hd hs hcap hr hl1 hl2 => exact ⟨[], by simp, by simp⟩
  | finalize j seqs r seq snd hd hs hr =>
    have hne : k ≠ j := by
      rintro rfl
      rw [hk] at hd
      cases hd
    exact ⟨_, rfl, fun e he => (consensusPipeline_events cb seq snd j seqs r).1 e he k hne⟩
  | reset j r hd hr => exact ⟨[], by simp, by simp⟩

theorem reaches_log_frozen {c : TeguaConfig} {cb : Collaborators} {a b : State}
    (h : Reaches c cb a b) (k : Nat) (hk : a.svcons[k]? = some true) :
    ∃ evs, b.log = a.log ++ evs ∧ ∀ e ∈ evs, e.concerns k = false := by
  induction h with
  | refl => exact ⟨[], by simp, by simp⟩
  | tail hab hm ih =>
    obtain ⟨e1, h1, h2⟩ := ih
    obtain ⟨e2, h3, h4⟩ := micro_log_frozen hm k (reaches_frozen hab k hk).1
    refine ⟨e1 ++ e2, by rw [h3, h1, List.append_assoc], ?_⟩
    intro e he
    rcases List.mem_append.1 he with he | he
    · exact h2 e he
    · exact h4 e he

/-- The place of the pair `(B, A)` in the contig loop: everything before its
sweep and everything after it belongs to other pairs. -/
theorem contigLoop_locate_pair (cb : Collaborators) (inp : Input) (n : Nat) {A B : Nat}
    {ctg : Contig} (hctg : inp.contigs[B]? = some ctg) (hne : ctg.regionsEmpty = false)
    (hAB : A ≤ B) :
    ∃ P2, contigLoop cb inp n 0 inp.contigs =
        (contigLoop cb inp n 0 (inp.contigs.take B) ++
          (forwardSteps inp B (cb.fetchSeq B) ctg.files ++
            (List.range A).flatMap (pairSteps n B (cb.fetchSeq B)))) ++
          (pairSteps n B (cb.fetchSeq B) A ++ P2) ∧
      (∀ s ∈ contigLoop cb inp n 0 (inp.contigs.take B) ++
          (forwardSteps inp B (cb.fetchSeq B) ctg.files ++
            (List.range A).flatMap (pairSteps n B (cb.fetchSeq B))),
        s.isTerminal = false ∧ s.pair ≠ some (B, A)) ∧
      (∀ s ∈ P2, s.isTerminal = false ∧ s.pair ≠ some (B, A)) := by
  obtain ⟨tl, hsw, htl⟩ := sweepSteps_split n (cb.fetchSeq B) hAB
  refine ⟨tl.flatMap (pairSteps n B (cb.fetchSeq B)) ++
      contigLoop cb inp n (B + 1) (inp.contigs.drop (B + 1)), ?_, ?_, ?_⟩
  · rw [contigLoop_split cb inp n hctg]
    simp only [contigSteps, hne, Bool.false_eq_true, if_false, hsw, List.append_assoc]
  · intro s hs
    rcases List.mem_append.1 hs with hs | hs
    · obtain ⟨h1, h2⟩ := contigLoop_pair cb inp n 0 _ s hs
      refine ⟨h1, fun hp => ?_⟩
      have := h2 B A hp
      simp only [List.length_take] at this
      omega
    · rcases List.mem_append.1 hs with hs | hs
      · obtain ⟨h1, h2⟩ := forwardSteps_pair _ _ _ _ s hs
        exact ⟨h2, by rw [h1]; simp⟩
      · simp only [List.mem_flatMap, List.mem_range] at hs
        obtain ⟨j0, hj0, hs⟩ := hs
        obtain ⟨h1, h2, -⟩ := pairSteps_pair _ _ _ _ s hs
        refine ⟨h2, ?_⟩
        rw [h1]
        simp only [ne_eq, Option.some.injEq, Prod.mk.injEq, true_and]
        omega
  · intro s hs
    rcases List.mem_append.1 hs with hs | hs
    · simp only [List.mem_flatMap] at hs
      obtain ⟨j0, hj0, hs⟩ := hs
      obtain ⟨h1, h2, -⟩ := pairSteps_pair _ _ _ _ s hs
      refine ⟨h2, ?_⟩
      rw [h1]
      simp only [ne_eq, Option.some.injEq, Prod.mk.injEq, true_and]
      have := (htl j0 hj0).1
      omega
    · obtain ⟨h1, h2⟩ := contigLoop_pair cb inp n (B + 1) _ s hs
      refine ⟨h1, fun hp => ?_⟩
      have := h2 B A hp
      omega

/-- The place of the visit of candidate `k` for the pair `(B, A)` in the
contig loop. -/
theorem contigLoop_locate_visit (cb : Collaborators) (inp : Input) {n k : Nat} {A B : Nat}
    {ctg : Contig} (hctg : inp.contigs[B]? = some ctg) (hne : ctg.regionsEmpty = false)
    (hAB : A ≤ B) (hk : k < n) :
    (∃ rest, contigLoop cb inp n 0 inp.contigs =
        (stepsBefore cb inp n A B k ctg ++ [Step.sweep B A (cb.fetchSeq B) k]) ++ rest) ∧
    (∀ s ∈ stepsBefore cb inp n A B k ctg,
      s.isTerminal = false ∧ s.finalises B A k = false) := by
  obtain ⟨P2, hloop, hP1, -⟩ := contigLoop_locate_pair cb inp n hctg hne hAB
  obtain ⟨tl, hpair, -⟩ := pairSteps_split B A (cb.fetchSeq B) hk
  constructor
  · refine ⟨tl.map (Step.sweep B A (cb.fetchSeq B)) ++ P2, ?_⟩
    rw [hloop, hpair]
    simp only [stepsBefore, List.append_assoc, List.cons_append, List.nil_append]
  · intro s hs
    rcases List.mem_append.1 hs with hs | hs
    · exact ⟨(hP1 s hs).1, finalises_of_pair_ne (hP1 s hs).2⟩
    · simp only [List.mem_cons, List.mem_map, List.mem_range] at hs
      rcases hs with rfl | ⟨m, hm, rfl⟩
      · exact ⟨rfl, rfl⟩
      · refine ⟨rfl, ?_⟩
        simp only [Step.finalises, beq_self_eq_true, Bool.true_and, beq_eq_false_iff_ne]
        omega

theorem quietSlice_of_small {c : TeguaConfig} {cb : Collaborators} {k : Nat}
    {r : StructuralVariantRecord} {st : State} (hmax : c.maxReadPerSV = 5)
    (hsup : r.srSupport = 3)
    (hone : ∀ seqs : List Sequence, st.seqStore[k]? = some seqs → seqs.length ≤ 1) :
    QuietSlice c cb k r st := by
  right
  intro seqs w hs
  have h1 := hone seqs hs
  have h2 := stdSetInsert_length_le w seqs
  have h3 : (stdSetInsert w seqs).length < 2 ^ 31 := by omega
  rw [toInt32_of_lt h3, hmax, hsup]
  omega

/-- C9 (amended): with `maxReadPerSV = 5`, every evidence tuple naming a row
of the table and no operation of lines 85-98 overflowing `int32_t`, for an
intra-contig, non-translocation candidate `k` with `srSupport = 3` anchored
on a processed contig `B` whose collector holds at most one sequence at every
point of the run (in `int32_t` arithmetic): the forward pass of `B` ends with
`svcons[k]` still false; the step that finalises `k` is the deferred-sweep
visit of `k` for the pair `(B, B)`, which sets consensus `""`, support 0,
quality 0 and the flag without any collaborator call; so the flag is already
true when the terminal sweep begins, the terminal sweep leaves the record as
it is, and the final log has no `msa` or `alignConsensus` call for `k`. -/
theorem leftover_finalised_by_own_pair_sweep (c : TeguaConfig) (cb : Collaborators)
    (inp : Input) (svs : List StructuralVariantRecord) (k B : Nat)
    (r : StructuralVariantRecord) (ctg : Contig)
    (hmax : c.maxReadPerSV = 5)
    (hwf : ∀ s ∈ schedule cb inp svs.length, s.wellIndexed svs.length = true)
    (hno : ∀ s ∈ schedule cb inp svs.length, s.noOverflow = true)
    (hr : svs[k]? = some r) (_hnt : cb.translocation r.svt = false)
    (hsup : r.srSupport = 3) (hchr : r.chr = B) (hchr2 : r.chr2 = B)
    (hctg : inp.contigs[B]? = some ctg) (hne : ctg.regionsEmpty = false)
    (hone32 : ∀ (p : List Step) (st : State), p <+: schedule cb inp svs.length →
      run32 c cb p (initState svs) = some st →
      ∀ seqs : List Sequence, st.seqStore[k]? = some seqs → seqs.length ≤ 1) :
    ∃ stF st1 st2 stT stEnd,
      run32 c cb (contigLoop cb inp svs.length 0 (inp.contigs.take B) ++
          forwardSteps inp B (cb.fetchSeq B) ctg.files) (initState svs) = some stF ∧
      stF.svcons[k]? = some false ∧
      run32 c cb (stepsBefore cb inp svs.length B B k ctg) (initState svs) = some st1 ∧
      st1.svcons[k]? = some false ∧
      applyStep32 c cb (Step.sweep B B (cb.fetchSeq B) k) st1 = some st2 ∧
      st2.svcons[k]? = some true ∧ st2.svs[k]? = some (resetRecord r) ∧ st2.log = st1.log ∧
      run32 c cb (contigLoop cb inp svs.length 0 inp.contigs) (initState svs) = some stT ∧
      stT.svcons[k]? = some true ∧ stT.svs[k]? = some (resetRecord r) ∧
      assemble32 c cb inp svs = some stEnd ∧
      stEnd.svs[k]? = some (resetRecord r) ∧ IsFailed (resetRecord r) ∧
      ∀ e ∈ stEnd.log, e.isMsaFor k = false ∧ e.isAlignFor k = false := by
  -- without overflow every prefix of the schedule runs as in the integer embedding
  have h32 : ∀ (p : List Step), p <+: schedule cb inp svs.length → ∀ st : State,
      run32 c cb p st = run c cb p st := fun p hp st => run32_prefix_eq c cb hno hp st
  have hone : ∀ (p : List Step) (st : State), p <+: schedule cb inp svs.length →
      run c cb p (initState svs) = some st →
      ∀ seqs : List Sequence, st.seqStore[k]? = some seqs → seqs.length ≤ 1 :=
    fun p st hp hrun => hone32 p st hp ((h32 p hp _).trans hrun)
  have hk : k < svs.length := lt_length_of_getElem? hr
  obtain ⟨⟨rest, hloop⟩, hgood⟩ := contigLoop_locate_visit cb inp hctg hne (Nat.le_refl B) hk
  -- the run and its intermediate states
  obtain ⟨stEnd, hEnd⟩ := run_prefix_total c hwf (List.prefix_refl _)
  obtain ⟨stT, hT, hterm⟩ := run_append_some
    (p := contigLoop cb inp svs.length 0 inp.contigs) hEnd
  have hT' := hT
  rw [hloop] at hT'
  obtain ⟨st2, h2, hrest⟩ := run_append_some hT'
  obtain ⟨st1, h1, hstep⟩ := run_snoc h2
  have hpre : stepsBefore cb inp svs.length B B k ctg <+: schedule cb inp svs.length := by
    unfold schedule
    rw [hloop, List.append_assoc, List.append_assoc]
    exact List.prefix_append _ _
  -- pending up to the visit
  have hpend : ∀ p st, p <+: schedule cb inp svs.length →
      (∀ s ∈ p, s.isTerminal = false ∧ s.finalises B B k = false) →
      run c cb p (initState svs) = some st → Pending k r st := by
    refine run_prefix_induction (schedule cb inp svs.length) (initState svs) (Pending k r)
      (fun s => s.isTerminal = false ∧ s.finalises B B k = false) ?_ ?_
    · refine ⟨?_, hr⟩
      simp only [initState]
      rw [List.getElem?_eq_getElem (by simpa using hk), List.getElem_replicate]
    · intro p s st st1 hp hg hrun hQ happ
      have hp1 : p <+: schedule cb inp svs.length := (List.prefix_append p [s]).trans hp
      exact applyStep_keeps_pending hchr hchr2
        (quietSlice_of_small hmax hsup (hone p st hp1 hrun)) hg.1 hg.2 hQ happ
  have hp1 := hpend _ st1 hpre hgood h1
  -- the forward pass of contig B
  have hF : ∃ stF, run32 c cb (contigLoop cb inp svs.length 0 (inp.contigs.take B) ++
      forwardSteps inp B (cb.fetchSeq B) ctg.files) (initState svs) = some stF ∧
      stF.svcons[k]? = some false := by
    have hsplit : stepsBefore cb inp svs.length B B k ctg =
        (contigLoop cb inp svs.length 0 (inp.contigs.take B) ++
          forwardSteps inp B (cb.fetchSeq B) ctg.files) ++
        ((List.range B).flatMap (pairSteps svs.length B (cb.fetchSeq B)) ++
          (Step.openPair B B :: (List.range k).map (Step.sweep B B (cb.fetchSeq B)))) := by
      simp only [stepsBefore, List.append_assoc]
    have h1' := h1
    rw [hsplit] at h1'
    obtain ⟨stF, hF1, -⟩ := run_append_some h1'
    have hpF : contigLoop cb inp svs.length 0 (inp.contigs.take B) ++
        forwardSteps inp B (cb.fetchSeq B) ctg.files <+: schedule cb inp svs.length := by
      refine List.IsPrefix.trans ?_ hpre
      rw [hsplit]
      exact List.prefix_append _ _
    refine ⟨stF, (h32 _ hpF _).trans hF1, (hpend _ stF hpF ?_ hF1).1⟩
    · intro s hs
      exact hgood s (by rw [hsplit]; exact List.mem_append_left _ hs)
  obtain ⟨stF, hF1, hF2⟩ := hF
  -- the visit itself
  have hstep0 : applyStep32 c cb (Step.sweep B B (cb.fetchSeq B) k) st1 = some st2 := hstep
  have hvisit : st2.svcons[k]? = some true ∧ st2.svs[k]? = some (resetRecord r) ∧
      st2.log = st1.log := by
    simp only [applyStep] at hstep
    obtain ⟨-, hcase⟩ := sweepCandidate_cases hstep
    rcases hcase with ⟨-, hd | ⟨r0, hr0, hmis⟩⟩ | ⟨seqs, r0, hd0, hs, hr0, -, -, hcase⟩
    · rw [hp1.1] at hd
      cases hd
    · rw [hp1.2] at hr0
      cases hr0
      rcases hmis with hmis | hmis
      · exact absurd hchr hmis
      · exact absurd hchr2 hmis
    · rw [hp1.2] at hr0
      cases hr0
      have hlen := hone _ st1 hpre h1 seqs hs
      rcases hcase with ⟨rfl, -⟩ | ⟨-, hgt, -⟩
      · simp only [finalize, consensusPipeline_short cb _ _ k seqs r (by omega),
          List.append_nil, List.getElem?_set_self (lt_length_of_getElem? hp1.1),
          List.getElem?_set_self (lt_length_of_getElem? hp1.2), and_self]
      · omega
  -- frozen afterwards
  have hfT := reaches_frozen (run_reaches hrest) k hvisit.1
  have hfE := reaches_frozen (run_reaches hterm) k hfT.1
  obtain ⟨evs1, hl1, he1⟩ := reaches_log_frozen (run_reaches hrest) k hvisit.1
  obtain ⟨evs2, hl2, he2⟩ := reaches_log_frozen (run_reaches hterm) k hfT.1
  have hlog1 := (reaches_invariants (run_reaches h1) (initState_invariants c svs)).2.2.2.1 k hp1.1
  have hpT : contigLoop cb inp svs.length 0 inp.contigs <+: schedule cb inp svs.length :=
    List.prefix_append _ _
  refine ⟨stF, st1, st2, stT, stEnd, hF1, hF2, (h32 _ hpre _).trans h1, hp1.1, hstep0,
    hvisit.1, hvisit.2.1, hvisit.2.2, (h32 _ hpT _).trans hT, hfT.1,
    hfT.2.1.trans hvisit.2.1, (assemble32_eq c cb inp svs hno).trans hEnd,
    hfE.2.1.trans (hfT.2.1.trans hvisit.2.1), isFailed_resetRecord r, ?_⟩
  intro e he
  rw [hl2, hl1, hvisit.2.2] at he
  apply isMsaFor_of_concerns
  rcases List.mem_append.1 he with he | he
  · rcases List.mem_append.1 he with he | he
    · exact hlog1 e he
    · exact he1 e he
  · exact he2 e he

set_option maxRecDepth 200000 in
theorem scenarioC_one_sequence :
    ∀ p ∈ (schedule demoCollab scenarioC 1).inits,
      ∀ st ∈ run ⟨5⟩ demoCollab p (initState [candidateA]),
        ∀ seqs ∈ st.seqStore[0]?, seqs.length ≤ 1 := by
  decide

set_option maxRecDepth 200000 in
theorem scenarioC_noOverflow :
    ∀ s ∈ schedule demoCollab scenarioC 1, s.noOverflow = true := by
  decide

set_option maxRecDepth 200000 in
theorem scenarioC_one_sequence32 :
    ∀ p ∈ (schedule demoCollab scenarioC 1).inits,
      ∀ st ∈ run32 ⟨5⟩ demoCollab p (initState [candidateA]),
        ∀ seqs ∈ st.seqStore[0]?, seqs.length ≤ 1 := by
  decide

/-- C9 (counterexample): in scenario C (`maxReadPerSV = 5`, an intra-contig
deletion-type candidate with `srSupport = 3` on the processed contig 0, five
reads with the identical window, so that its collector never holds more than
one sequence) the completion flag is already true when the terminal sweep
begins: the deferred sweep of the pair `(0, 0)` has finalised the candidate.
No operation overflows in this run, and it is the same in `int32_t`
arithmetic. -/
theorem leftover_flag_set_before_terminal_sweep :
    (∀ p ∈ (schedule demoCollab scenarioC 1).inits,
      ∀ st ∈ run ⟨5⟩ demoCollab p (initState [candidateA]),
        ∀ seqs ∈ st.seqStore[0]?, seqs.length ≤ 1) ∧
    run ⟨5⟩ demoCollab (contigLoop demoCollab scenarioC 1 0 scenarioC.contigs)
      (initState [candidateA]) = some stateC ∧
    stateC.svcons[0]? = some true ∧ stateC.svcons[0]? ≠ some false ∧
    (∀ s ∈ schedule demoCollab scenarioC 1, s.noOverflow = true) ∧
    (∀ p ∈ (schedule demoCollab scenarioC 1).inits,
      ∀ st ∈ run32 ⟨5⟩ demoCollab p (initState [candidateA]),
        ∀ seqs ∈ st.seqStore[0]?, seqs.length ≤ 1) ∧
    run32 ⟨5⟩ demoCollab (contigLoop demoCollab scenarioC 1 0 scenarioC.contigs)
      (initState [candidateA]) = some stateC := by
  refine ⟨scenarioC_one_sequence, ?_, ?_, ?_, scenarioC_noOverflow, scenarioC_one_sequence32, ?_⟩
  · set_option maxRecDepth 200000 in decide
  · decide
  · decide
  · set_option maxRecDepth 200000 in decide

set_option maxRecDepth 200000 in
theorem leftover_finalised_by_own_pair_sweep_witness :
    ∃ stF st1 st2 stT stEnd,
      run32 ⟨5⟩ demoCollab (contigLoop demoCollab scenarioC [candidateA].length 0
          (scenarioC.contigs.take 0) ++
          forwardSteps scenarioC 0 (demoCollab.fetchSeq 0)
            [[demoRead 'A' 1, demoRead 'A' 1, demoRead 'A' 1, demoRead 'A' 1, demoRead 'A' 1]])
        (initState [candidateA]) = some stF ∧
      stF.svcons[0]? = some false ∧
      run32 ⟨5⟩ demoCollab (stepsBefore demoCollab scenarioC [candidateA].length 0 0 0
          ⟨false, [[demoRead 'A' 1, demoRead 'A' 1, demoRead 'A' 1, demoRead 'A' 1,
            demoRead 'A' 1]]⟩) (initState [candidateA]) = some st1 ∧
      st1.svcons[0]? = some false ∧
      applyStep32 ⟨5⟩ demoCollab (Step.sweep 0 0 (demoCollab.fetchSeq 0) 0) st1 = some st2 ∧
      st2.svcons[0]? = some true ∧ st2.svs[0]? = some (resetRecord candidateA) ∧
      st2.log = st1.log ∧
      run32 ⟨5⟩ demoCollab (contigLoop demoCollab scenarioC [candidateA].length 0 scenarioC.contigs)
        (initState [candidateA]) = some stT ∧
      stT.svcons[0]? = some true ∧ stT.svs[0]? = some (resetRecord candidateA) ∧
      assemble32 ⟨5⟩ demoCollab scenarioC [candidateA] = some stEnd ∧
      stEnd.svs[0]? = some (resetRecord candidateA) ∧ IsFailed (resetRecord candidateA) ∧
      ∀ e ∈ stEnd.log, e.isMsaFor 0 = false ∧ e.isAlignFor 0 = false :=
  leftover_finalised_by_own_pair_sweep ⟨5⟩ demoCollab scenarioC [candidateA] 0 0 candidateA
    ⟨false, [[demoRead 'A' 1, demoRead 'A' 1, demoRead 'A' 1, demoRead 'A' 1, demoRead 'A' 1]]⟩
    rfl (by decide) scenarioC_noOverflow rfl (by decide) rfl rfl rfl rfl rfl
    (fun p st hp hrun seqs hs =>
      scenarioC_one_sequence32 p ((List.mem_inits _ _).2 hp) st hrun seqs hs)

/-! ## The lazy fetch of the secondary reference -/

theorem eq_fetchSnd_of_isFetchFor {i j : Nat} {e : Event} (h : e.isFetchFor i j = true) :
    e = Event.fetchSnd i j := by
  cases e with
  | fetchSnd a b =>
    simp only [Event.isFetchFor, Bool.and_eq_true, beq_iff_eq] at h
    rw [h.1, h.2]
  | msaCall a b => cases h
  | alignCall a b d e f => cases h

theorem countP_pipeline_fetch (cb : Collaborators) (seq snd : Option Sequence) (k : Nat)
    (seqs : List Sequence) (r : StructuralVariantRecord) (i j : Nat) :
    (consensusPipeline cb seq snd k seqs r).2.countP (Event.isFetchFor i j) = 0 :=
  List.countP_eq_zero.2 fun e he => by
    simp [(consensusPipeline_events cb seq snd k seqs r).2.1 e he i j]

/-- A step of another pair, of the forward pass or of the terminal sweep logs
no fetch for the pair `(i, j)`. -/
theorem applyStep_fetchCount {c : TeguaConfig} {cb : Collaborators} {i j : Nat} {s : Step}
    {st st1 : State} (hp : s.pair ≠ some (i, j)) (h : applyStep c cb s st = some st1) :
    fetchCount i j st1 = fetchCount i j st := by
  unfold fetchCount
  cases s with
  | slice refIndex seq rec sl =>
    obtain ⟨k0, -, -, hcase⟩ := processSlice_cases h
    rcases hcase with rfl | ⟨seqs, r0, w0, -, -, -, -, -, -, hcase⟩
    · rfl
    · rcases hcase with ⟨rfl, -⟩ | ⟨rfl, -⟩
      · rfl
      · simp only [finalize, List.countP_append, countP_pipeline_fetch, Nat.add_zero]
  | openPair a b =>
    simp only [applyStep] at h
    cases h
    rfl
  | sweep a b sq m =>
    obtain ⟨-, hcase⟩ := sweepCandidate_cases h
    rcases hcase with ⟨rfl, -⟩ | ⟨seqs, r0, -, -, -, -, -, hcase⟩
    · rfl
    · rcases hcase with ⟨rfl, -⟩ | ⟨rfl, -⟩
      · simp only [finalize, List.countP_append, countP_pipeline_fetch, Nat.add_zero]
      · have hne : (Event.fetchSnd a b).isFetchFor i j = false := by
          simp only [Step.pair, ne_eq, Option.some.injEq, Prod.mk.injEq, not_and] at hp
          simp only [Event.isFetchFor, Bool.and_eq_false_imp, beq_iff_eq, beq_eq_false_iff_ne]
          exact hp
        simp only [finalize, List.countP_append, countP_pipeline_fetch, Nat.add_zero,
          List.countP_cons, List.countP_nil, hne, Bool.false_eq_true, if_false]
  | terminal m =>
    obtain ⟨-, hcase⟩ := terminalCandidate_cases h
    rcases hcase with ⟨rfl, -⟩ | ⟨r0, -, -, rfl⟩
    · rfl
    · rfl

theorem run_fetchCount {c : TeguaConfig} {cb : Collaborators} {i j : Nat} {p : List Step}
    (hp : ∀ s ∈ p, s.pair ≠ some (i, j)) {st st1 : State} (h : run c cb p st = some st1) :
    fetchCount i j st1 = fetchCount i j st := by
  induction p generalizing st with
  | nil =>
    simp only [run] at h
    cases h
    rfl
  | cons s p ih =>
    simp only [run] at h
    cases hs : applyStep c cb s st with
    | none => simp [hs] at h
    | some st2 =>
      simp only [hs] at h
      rw [ih (fun s' hs' => hp s' (List.mem_cons_of_mem _ hs')) h,
        applyStep_fetchCount (hp s (List.mem_cons_self _ _)) hs]

/-- A visit of the sweep of the pair `(i, j)` keeps the fetch invariant, when
the reference provider returns `a` for contig `j`. -/
theorem sweepCandidate_pairInv {cb : Collaborators} {i j : Nat} {a : Sequence}
    (hfetch : cb.fetchSeq j = some a) {seq : Option Sequence} {m : Nat} {st st1 : State}
    (hinv : PairInv i j a st) (h : sweepCandidate cb i j seq m st = some st1) :
    PairInv i j a st1 := by
  obtain ⟨-, hcase⟩ := sweepCandidate_cases h
  rcases hcase with ⟨rfl, -⟩ | ⟨seqs, r0, -, -, -, -, -, hcase⟩
  · exact hinv
  · rcases hcase with ⟨rfl, -⟩ | ⟨rfl, -, -, hnone⟩
    · simpa only [PairInv, fetchCount, finalize, List.countP_append, countP_pipeline_fetch,
        Nat.add_zero] using hinv
    · right
      rcases hinv with ⟨-, h0⟩ | ⟨hsome, -⟩
      · refine ⟨by simp only [finalize]; exact hfetch, ?_⟩
        unfold fetchCount at h0 ⊢
        simp only [finalize, List.countP_append, countP_pipeline_fetch, Nat.add_zero, h0,
          List.countP_cons, List.countP_nil, Event.isFetchFor, beq_self_eq_true, Bool.and_self,
          if_true]
      · rw [hnone] at hsome
        cases hsome

theorem run_sweeps_pairInv {c : TeguaConfig} {cb : Collaborators} {i j : Nat} {a : Sequence}
    (hfetch : cb.fetchSeq j = some a) (seq : Option Sequence) (ms : List Nat) {st st1 : State}
    (hinv : PairInv i j a st) (h : run c cb (ms.map (Step.sweep i j seq)) st = some st1) :
    PairInv i j a st1 := by
  induction ms generalizing st with
  | nil =>
    simp only [List.map_nil, run] at h
    cases h
    exact hinv
  | cons m ms ih =>
    simp only [List.map_cons, run, applyStep] at h
    cases hs : sweepCandidate cb i j seq m st with
    | none => simp [hs] at h
    | some st2 =>
      simp only [hs] at h
      exact ih (sweepCandidate_pairInv hfetch hinv hs) h

theorem run_openPair_sweeps_pairInv {c : TeguaConfig} {cb : Collaborators} {i j : Nat}
    {a : Sequence} (hfetch : cb.fetchSeq j = some a) (seq : Option Sequence) (ms : List Nat)
    {st st1 : State} (h0 : fetchCount i j st = 0)
    (h : run c cb (Step.openPair i j :: ms.map (Step.sweep i j seq)) st = some st1) :
    PairInv i j a st1 := by
  simp only [run, applyStep] at h
  exact @run_sweeps_pairInv c cb i j a hfetch seq ms { st with sndSeq := none } st1
    (Or.inl ⟨rfl, h0⟩) h

theorem terminalSteps_pair (n i j : Nat) : ∀ s ∈ terminalSteps n, s.pair ≠ some (i, j) := by
  intro s hs
  simp only [terminalSteps, List.mem_map] at hs
  obtain ⟨m, -, rfl⟩ := hs
  simp [Step.pair]

/-- C10 (amended): for a translocation-type candidate `k` with primary anchor
on contig `B` and secondary anchor on contig `A < B`, both contigs having a
non-empty region filter, and provided the reference provider returns a
sequence `a` for contig `A`, every evidence tuple names a row of the table
and no operation of lines 85-98 overflows `int32_t`: the flag of `k` is false at the end of the
iteration of every contig before `B` (contig `A` included); the step that
finalises `k` is the deferred-sweep visit of `k` for the pair `(B, A)`; if
the collector then holds at least 2 sequences, that step calls `msa` and then
`alignConsensus` with the sequence fetched for `B` as primary and `some a`
as secondary reference, the fetch of which for this pair is in the log; and
the whole run logs at most one fetch for the pair `(B, A)`. -/
theorem translocation_finalised_by_cross_pair_sweep (c : TeguaConfig) (cb : Collaborators)
    (inp : Input) (svs : List StructuralVariantRecord) (k A B : Nat)
    (r : StructuralVariantRecord) (ctg : Contig) (a : Sequence)
    (hwf : ∀ s ∈ schedule cb inp svs.length, s.wellIndexed svs.length = true)
    (hno : ∀ s ∈ schedule cb inp svs.length, s.noOverflow = true)
    (hr : svs[k]? = some r) (htr : cb.translocation r.svt = true)
    (hchr : r.chr = B) (hchr2 : r.chr2 = A) (hAB : A < B)
    (hctg : inp.contigs[B]? = some ctg) (hne : ctg.regionsEmpty = false)
    (ctgA : Contig) (_hctgA : inp.contigs[A]? = some ctgA) (_hneA : ctgA.regionsEmpty = false)
    (hfetch : cb.fetchSeq A = some a) :
    (∀ j, j < B → ∃ st,
      run32 c cb (contigLoop cb inp svs.length 0 (inp.contigs.take (j + 1))) (initState svs)
        = some st ∧ st.svcons[k]? = some false) ∧
    (∃ st1 st2,
      run32 c cb (stepsBefore cb inp svs.length A B k ctg) (initState svs) = some st1 ∧
      st1.svcons[k]? = some false ∧
      applyStep32 c cb (Step.sweep B A (cb.fetchSeq B) k) st1 = some st2 ∧
      st2.svcons[k]? = some true ∧
      ∀ seqs : List Sequence, st1.seqStore[k]? = some seqs → 2 ≤ seqs.length →
        Event.fetchSnd B A ∈ st2.log ∧
        ∃ fetched, (fetched = [] ∨ fetched = [Event.fetchSnd B A]) ∧
          st2.log = st1.log ++ fetched ++
            [Event.msaCall k seqs,
             Event.alignCall k (cb.fetchSeq B) (some a) (consensusRecord cb seqs r)
               (cb.alignConsensus (cb.fetchSeq B) (some a) (consensusRecord cb seqs r)).1]) ∧
    (∃ stEnd, assemble32 c cb inp svs = some stEnd ∧
      stEnd.log.countP (Event.isFetchFor B A) ≤ 1) := by
  -- without overflow every prefix of the schedule runs as in the integer embedding
  have h32 : ∀ (p : List Step), p <+: schedule cb inp svs.length → ∀ st : State,
      run32 c cb p st = run c cb p st := fun p hp st => run32_prefix_eq c cb hno hp st
  have hk : k < svs.length := lt_length_of_getElem? hr
  have hB : B < inp.contigs.length := lt_length_of_getElem? hctg
  obtain ⟨P2, hloop, hP1, hP2⟩ :=
    contigLoop_locate_pair cb inp svs.length hctg hne (Nat.le_of_lt hAB)
  obtain ⟨⟨rest, hloopv⟩, hgood⟩ :=
    contigLoop_locate_visit cb inp hctg hne (Nat.le_of_lt hAB) hk
  obtain ⟨stEnd, hEnd⟩ := run_prefix_total c hwf (List.prefix_refl _)
  obtain ⟨stT, hT, hterm⟩ := run_append_some
    (p := contigLoop cb inp svs.length 0 inp.contigs) hEnd
  have hpre : stepsBefore cb inp svs.length A B k ctg <+: schedule cb inp svs.length := by
    unfold schedule
    rw [hloopv, List.append_assoc, List.append_assoc]
    exact List.prefix_append _ _
  have hpend : ∀ p st, p <+: schedule cb inp svs.length →
      (∀ s ∈ p, s.isTerminal = false ∧ s.finalises B A k = false) →
      run c cb p (initState svs) = some st → Pending k r st := by
    refine run_prefix_induction (schedule cb inp svs.length) (initState svs) (Pending k r)
      (fun s => s.isTerminal = false ∧ s.finalises B A k = false) ?_ ?_
    · refine ⟨?_, hr⟩
      simp only [initState]
      rw [List.getElem?_eq_getElem (by simpa using hk), List.getElem_replicate]
    · intro p s st st1 _ hg _ hQ happ
      exact applyStep_keeps_pending hchr hchr2 (Or.inl htr) hg.1 hg.2 hQ happ
  refine ⟨?_, ?_, ?_⟩
  · -- the contigs before B
    intro j hj
    have hpj : contigLoop cb inp svs.length 0 (inp.contigs.take (j + 1))
        <+: schedule cb inp svs.length := by
      have hsplit : contigLoop cb inp svs.length 0 inp.contigs =
          contigLoop cb inp svs.length 0 (inp.contigs.take (j + 1)) ++
            contigLoop cb inp svs.length (0 + (inp.contigs.take (j + 1)).length)
              (inp.contigs.drop (j + 1)) := by
        rw [← contigLoop_append, List.take_append_drop]
      unfold schedule
      rw [hsplit, List.append_assoc]
      exact List.prefix_append _ _
    obtain ⟨st, hst⟩ := run_prefix_total c hwf hpj
    refine ⟨st, (h32 _ hpj _).trans hst, (hpend _ st hpj ?_ hst).1⟩
    intro s hs
    obtain ⟨h1, h2⟩ := contigLoop_pair cb inp svs.length 0 _ s hs
    refine ⟨h1, finalises_of_pair_ne fun hp => ?_⟩
    have := h2 B A hp
    simp only [List.length_take] at this
    omega
  · -- the visit
    have hT' := hT
    rw [hloopv] at hT'
    obtain ⟨st2, h2, -⟩ := run_append_some hT'
    obtain ⟨st1, h1, hstep⟩ := run_snoc h2
    have hp1 := hpend _ st1 hpre hgood h1
    have hinv : PairInv B A a st1 := by
      have h1' := h1
      unfold stepsBefore at h1'
      obtain ⟨st0, h0, hO⟩ := run_append_some h1'
      have hc0 : fetchCount B A st0 = 0 := by
        rw [run_fetchCount (fun s hs => (hP1 s hs).2) h0]
        rfl
      exact run_openPair_sweeps_pairInv hfetch _ _ hc0 hO
    have hstep0 : applyStep32 c cb (Step.sweep B A (cb.fetchSeq B) k) st1 = some st2 := hstep
    refine ⟨st1, st2, (h32 _ hpre _).trans h1, hp1.1, hstep0, ?_⟩
    simp only [applyStep] at hstep
    obtain ⟨-, hcase⟩ := sweepCandidate_cases hstep
    rcases hcase with ⟨-, hd | ⟨r0, hr0, hmis⟩⟩ | ⟨seqs, r0, hd0, hs, hr0, -, -, hcase⟩
    · rw [hp1.1] at hd
      cases hd
    · rw [hp1.2] at hr0
      cases hr0
      rcases hmis with hmis | hmis
      · exact absurd hchr hmis
      · exact absurd hchr2 hmis
    · rw [hp1.2] at hr0
      cases hr0
      have hkd := lt_length_of_getElem? hp1.1
      rcases hcase with ⟨rfl, hnof⟩ | ⟨rfl, -, -, hnone⟩
      · refine ⟨by simp only [finalize, List.getElem?_set_self hkd], ?_⟩
        intro seqs' hs' hlen
        rw [hs] at hs'
        cases hs'
        have hsome : st1.sndSeq = some a ∧ fetchCount B A st1 = 1 := by
          rcases hinv with ⟨hn, -⟩ | hsome
          · exact absurd ⟨by omega, by omega, hn⟩ hnof
          · exact hsome
        have hmem : Event.fetchSnd B A ∈ st1.log := by
          have hpos : 0 < st1.log.countP (Event.isFetchFor B A) := by
            have := hsome.2
            unfold fetchCount at this
            omega
          obtain ⟨e, he, hf⟩ := List.countP_pos_iff.1 hpos
          rw [eq_fetchSnd_of_isFetchFor hf] at he
          exact he
        refine ⟨?_, [], Or.inl rfl, ?_⟩
        · simp only [finalize]
          exact List.mem_append_left _ hmem
        · simp only [finalize, consensusPipeline_long cb _ _ k seqs r hlen, hsome.1,
            List.append_nil]
      · refine ⟨by simp only [finalize, List.getElem?_set_self hkd], ?_⟩
        intro seqs' hs' hlen
        rw [hs] at hs'
        cases hs'
        refine ⟨?_, [Event.fetchSnd B A], Or.inr rfl, ?_⟩
        · simp only [finalize]
          exact List.mem_append_left _ (List.mem_append_right _ (List.mem_singleton.2 rfl))
        · simp only [finalize, consensusPipeline_long cb _ _ k seqs r hlen, hfetch]
  · -- the number of fetches
    refine ⟨stEnd, (assemble32_eq c cb inp svs hno).trans hEnd, ?_⟩
    have hT' := hT
    rw [hloop] at hT'
    obtain ⟨st0, h0, hrest⟩ := run_append_some hT'
    obtain ⟨stP, hP, hrest2⟩ := run_append_some hrest
    have hc0 : fetchCount B A st0 = 0 := by
      rw [run_fetchCount (fun s hs => (hP1 s hs).2) h0]
      rfl
    have hinvP : PairInv B A a stP := run_openPair_sweeps_pairInv hfetch _ _ hc0 hP
    have hcT : fetchCount B A stT = fetchCount B A stP :=
      run_fetchCount (fun s hs => (hP2 s hs).2) hrest2
    have hcE : fetchCount B A stEnd = fetchCount B A stT :=
      run_fetchCount (terminalSteps_pair svs.length B A) hterm
    have : fetchCount B A stEnd ≤ 1 := by
      rw [hcE, hcT]
      rcases hinvP with ⟨-, h⟩ | ⟨-, h⟩ <;> omega
    exact this

set_option maxRecDepth 200000 in
theorem translocation_finalised_by_cross_pair_sweep_witness :
    (∀ j, j < 1 → ∃ st,
      run32 ⟨5⟩ demoCollab (contigLoop demoCollab scenarioE [candidateE].length 0
          (scenarioE.contigs.take (j + 1))) (initState [candidateE])
        = some st ∧ st.svcons[0]? = some false) ∧
    (∃ st1 st2,
      run32 ⟨5⟩ demoCollab (stepsBefore demoCollab scenarioE [candidateE].length 0 1 0
          ⟨false, [[demoRead 'C' 2]]⟩) (initState [candidateE]) = some st1 ∧
      st1.svcons[0]? = some false ∧
      applyStep32 ⟨5⟩ demoCollab (Step.sweep 1 0 (demoCollab.fetchSeq 1) 0) st1 = some st2 ∧
      st2.svcons[0]? = some true ∧
      ∀ seqs : List Sequence, st1.seqStore[0]? = some seqs → 2 ≤ seqs.length →
        Event.fetchSnd 1 0 ∈ st2.log ∧
        ∃ fetched, (fetched = [] ∨ fetched = [Event.fetchSnd 1 0]) ∧
          st2.log = st1.log ++ fetched ++
            [Event.msaCall 0 seqs,
             Event.alignCall 0 (demoCollab.fetchSeq 1) (some ['A'])
               (consensusRecord demoCollab seqs candidateE)
               (demoCollab.alignConsensus (demoCollab.fetchSeq 1) (some ['A'])
                 (consensusRecord demoCollab seqs candidateE)).1]) ∧
    (∃ stEnd, assemble32 ⟨5⟩ demoCollab scenarioE [candidateE] = some stEnd ∧
      stEnd.log.countP (Event.isFetchFor 1 0) ≤ 1) :=
  translocation_finalised_by_cross_pair_sweep ⟨5⟩ demoCollab scenarioE [candidateE] 0 0 1
    candidateE ⟨false, [[demoRead 'C' 2]]⟩ ['A'] (by decide) (by decide) rfl (by decide)
    rfl rfl
    (by decide) rfl rfl ⟨false, [[demoRead 'A' 2]]⟩ rfl rfl (by decide)

set_option maxRecDepth 200000 in
/-- C10 (counterexample): two translocation-type candidates with primary
anchor on contig 1 and secondary anchor on contig 0, both contigs with a
non-empty region filter, each candidate with 2 distinct sequences; the
reference provider returns `NULL` for contig 0. Then `alignConsensus` is
called with a `NULL` secondary reference, and the fetch for the pair `(1, 0)`
is made twice. No operation overflows in this run, and it is the same in
`int32_t` arithmetic. -/
theorem secondary_reference_null_and_fetched_twice :
    demoCollabNoRef.translocation candidateE.svt = true ∧
    assemble ⟨5⟩ demoCollabNoRef scenarioE2 [candidateE, candidateE] = some stateE2NoRef ∧
    Event.alignCall 0 (some ['B']) none candidateEConsensus true ∈ stateE2NoRef.log ∧
    stateE2NoRef.log.countP (Event.isFetchFor 1 0) = 2 ∧
    ¬ stateE2NoRef.log.countP (Event.isFetchFor 1 0) ≤ 1 ∧
    (∀ s ∈ schedule demoCollabNoRef scenarioE2 2, s.noOverflow = true) ∧
    assemble32 ⟨5⟩ demoCollabNoRef scenarioE2 [candidateE, candidateE] = some stateE2NoRef := by
  refine ⟨by decide, by decide, by decide, by decide, by decide, by decide, by decide⟩

/-! ## The clamps of lines 95-96 -/

/-- C11 (counterexample): for a read of 100 bases and the tuple
`localOffset = 5000`, `insertedLength = 20`, the clamped window start of a
forward-strand record is 4000, above the read length, and the clamped window
end of a reverse-strand record is -3900, below 0; no operation overflows, the
`int32_t` bounds are the same, and both windows are rejected by the test of
line 98. For a read length of 1500 and `localOffset = 2147483647`,
`insertedLength = 0`, the `int32_t` bounds after clamping are
`(2147482647, -2147482649)`, both outside the read, and the window passes the
test of line 98 because the subtraction `ePos - sPos` wraps to 2000. -/
theorem clamped_bounds_outside_read :
    sliceWindow readShort ⟨0, 5000, 20, 0⟩ = (4000, 100) ∧
    ¬ ((sliceWindow readShort ⟨0, 5000, 20, 0⟩).1 ≤ (readShort.sequence.length : Int)) ∧
    sliceWindow readShortReverse ⟨0, 5000, 20, 0⟩ = (0, -3900) ∧
    ¬ (0 ≤ (sliceWindow readShortReverse ⟨0, 5000, 20, 0⟩).2) ∧
    accepted (sliceWindow readShort ⟨0, 5000, 20, 0⟩) = false ∧
    accepted (sliceWindow readShortReverse ⟨0, 5000, 20, 0⟩) = false ∧
    (sliceFits readShort ⟨0, 5000, 20, 0⟩ = true ∧
      sliceWindow32 readShort ⟨0, 5000, 20, 0⟩ = (4000, 100) ∧
      accepted32 (sliceWindow32 readShort ⟨0, 5000, 20, 0⟩) = false) ∧
    (sliceFits readShortReverse ⟨0, 5000, 20, 0⟩ = true ∧
      sliceWindow32 readShortReverse ⟨0, 5000, 20, 0⟩ = (0, -3900) ∧
      accepted32 (sliceWindow32 readShortReverse ⟨0, 5000, 20, 0⟩) = false) ∧
    (clampedWindow32 1500 2147483647 0 false = (2147482647, -2147482649) ∧
      ¬ ((clampedWindow32 1500 2147483647 0 false).1 ≤ 1500) ∧
      ¬ (0 ≤ (clampedWindow32 1500 2147483647 0 false).2) ∧
      accepted32 (clampedWindow32 1500 2147483647 0 false) = true ∧
      wrap32 ((clampedWindow32 1500 2147483647 0 false).2
        - (clampedWindow32 1500 2147483647 0 false).1) = 2000 ∧
      fitsInt32 ((clampedWindow32 1500 2147483647 0 false).2
        - (clampedWindow32 1500 2147483647 0 false).1) = false) := by
  refine ⟨by decide, by decide, by decide, by decide, by decide, by decide,
    ⟨by decide, by decide, by decide⟩, ⟨by decide, by decide, by decide⟩,
    ⟨by decide, by decide, by decide, by decide, by decide, by decide⟩⟩

/-- C11 (amended): for every read length, localOffset, insertedLength and
strand, in `int32_t` arithmetic (wrapped or not), after the clamping step
`0 ≤ windowStart` and `windowEnd ≤ readLength`. The clamps do not bound
`windowStart` above nor `windowEnd` below; `windowStart ≤ readLength` and
`0 ≤ windowEnd` hold whenever `windowStart ≤ windowEnd` after clamping, and
hence whenever the window passes the acceptance test of line 98 and the
subtraction `windowEnd - windowStart` of that test does not overflow
`int32_t`. When no operation of lines 85-98 overflows, that subtraction does
not overflow and the bounds are those of the integer embedding. -/
theorem clamped_bounds (readlen sstart inslen : Int) (reverse : Bool) :
    0 ≤ (clampedWindow32 readlen sstart inslen reverse).1 ∧
    (clampedWindow32 readlen sstart inslen reverse).2 ≤ readlen ∧
    ((clampedWindow32 readlen sstart inslen reverse).1 ≤
        (clampedWindow32 readlen sstart inslen reverse).2 →
      (clampedWindow32 readlen sstart inslen reverse).1 ≤ readlen ∧
      0 ≤ (clampedWindow32 readlen sstart inslen reverse).2) ∧
    (fitsInt32 ((clampedWindow32 readlen sstart inslen reverse).2
        - (clampedWindow32 readlen sstart inslen reverse).1) = true →
      accepted32 (clampedWindow32 readlen sstart inslen reverse) = true →
      0 ≤ (clampedWindow32 readlen sstart inslen reverse).1 ∧
      (clampedWindow32 readlen sstart inslen reverse).1 ≤ readlen ∧
      0 ≤ (clampedWindow32 readlen sstart inslen reverse).2 ∧
      (clampedWindow32 readlen sstart inslen reverse).2 ≤ readlen) ∧
    (windowFits readlen sstart inslen reverse = true →
      clampedWindow32 readlen sstart inslen reverse
        = clampWindow readlen (windowBounds readlen sstart inslen reverse) ∧
      fitsInt32 ((clampedWindow32 readlen sstart inslen reverse).2
        - (clampedWindow32 readlen sstart inslen reverse).1) = true ∧
      accepted32 (clampedWindow32 readlen sstart inslen reverse)
        = accepted (clampWindow readlen (windowBounds readlen sstart inslen reverse))) := by
  have h1 : 0 ≤ (clampedWindow32 readlen sstart inslen reverse).1 := by
    simp only [clampedWindow32, clampWindow]
    split <;> omega
  have h2 : (clampedWindow32 readlen sstart inslen reverse).2 ≤ readlen := by
    simp only [clampedWindow32, clampWindow]
    split <;> omega
  refine ⟨h1, h2, fun h => ⟨by omega, by omega⟩, fun hfit hacc => ?_, fun hfits => ?_⟩
  · rw [accepted32, wrap32_of_fits hfit] at hacc
    simp only [window, Bool.and_eq_true, decide_eq_true_eq] at hacc
    exact ⟨h1, by omega, by omega, h2⟩
  · obtain ⟨e1, e2, -⟩ := window32_agrees hfits
    refine ⟨e1, ?_, by rw [e1, e2]⟩
    rw [e1]
    simp only [windowFits, Bool.and_eq_true] at hfits
    exact hfits.2

theorem clamped_bounds_witness :
    windowFits 2000 800 50 true = true ∧
    accepted32 (clampedWindow32 2000 800 50 true) = true ∧
    clampedWindow32 2000 800 50 true = (150, 2000) ∧
    0 ≤ (clampedWindow32 2000 800 50 true).1 ∧
    (clampedWindow32 2000 800 50 true).1 ≤ 2000 ∧
    0 ≤ (clampedWindow32 2000 800 50 true).2 ∧
    (clampedWindow32 2000 800 50 true).2 ≤ 2000 :=
  ⟨by decide, by decide, by decide,
    (clamped_bounds 2000 800 50 true).2.2.2.1
      ((clamped_bounds 2000 800 50 true).2.2.2.2 (by decide)).2.1 (by decide)⟩

/-! ## The mirrored window of reverse-strand records (lines 91-94) -/

/-- C12: for every readLength, localOffset and insertedLength, the window
bounds of a reverse-strand record with `(localOffset, insertedLength)` equal
those of a forward-strand record of the same length with
`(readLength - (localOffset + insertedLength), insertedLength)`, before
clamping, after clamping, and hence in the acceptance test; the same holds
for the windows of two records of equal length, one reverse and one forward.
Scenario D: `readLength = 2000`, `localOffset = 800`, `insertedLength = 50`
on the reverse strand gives `(150, 2200)`, clamped to `(150, 2000)`, as does
a forward-strand read with `localOffset = 1150`. -/
theorem mirror_equivalence (readlen sstart inslen : Int) :
    windowBounds readlen sstart inslen true
      = windowBounds readlen (readlen - (sstart + inslen)) inslen false ∧
    clampWindow readlen (windowBounds readlen sstart inslen true)
      = clampWindow readlen (windowBounds readlen (readlen - (sstart + inslen)) inslen false) ∧
    accepted (clampWindow readlen (windowBounds readlen sstart inslen true))
      = accepted (clampWindow readlen
          (windowBounds readlen (readlen - (sstart + inslen)) inslen false)) ∧
    (∀ (rev fwd : BamRecord) (svid svid1 qual qual1 : Int),
      isReverse rev = true → isReverse fwd = false →
      (rev.sequence.length : Int) = readlen → (fwd.sequence.length : Int) = readlen →
      sliceWindow rev ⟨svid, sstart, inslen, qual⟩
        = sliceWindow fwd ⟨svid1, readlen - (sstart + inslen), inslen, qual1⟩) ∧
    windowBounds 2000 800 50 true = (150, 2200) ∧
    clampWindow 2000 (windowBounds 2000 800 50 true) = (150, 2000) ∧
    windowBounds 2000 1150 50 false = (150, 2200) ∧
    clampWindow 2000 (windowBounds 2000 1150 50 false) = (150, 2000) := by
  have hraw : windowBounds readlen sstart inslen true
      = windowBounds readlen (readlen - (sstart + inslen)) inslen false := by
    simp only [windowBounds, window, Bool.false_eq_true, if_true, if_false]
    exact Prod.ext rfl (by show readlen - sstart + 1000 = _; omega)
  refine ⟨hraw, by rw [hraw], by rw [hraw], ?_, by decide, by decide, by decide, by decide⟩
  intro rev fwd svid svid1 qual qual1 hrev hfwd hl1 hl2
  simp only [sliceWindow, hrev, hfwd, hl1, hl2, hraw]

theorem readDReverse_length : (readDReverse.sequence.length : Int) = 2000 := by
  show ((List.replicate 2000 'A').length : Int) = 2000
  rw [List.length_replicate]
  rfl

theorem readDForward_length : (readDForward.sequence.length : Int) = 2000 := by
  show ((List.replicate 2000 'A').length : Int) = 2000
  rw [List.length_replicate]
  rfl

theorem sliceWindow_readDReverse : sliceWindow readDReverse ⟨0, 800, 50, 0⟩ = (150, 2000) := by
  have h : isReverse readDReverse = true := by decide
  simp only [sliceWindow, readDReverse_length, h]
  decide

theorem sliceWindow_readDForward : sliceWindow readDForward ⟨0, 1150, 50, 0⟩ = (150, 2000) := by
  have h : isReverse readDForward = false := by decide
  simp only [sliceWindow, readDForward_length, h]
  decide

theorem mirror_equivalence_witness :
    isReverse readDReverse = true ∧ isReverse readDForward = false ∧
    sliceWindow readDReverse ⟨0, 800, 50, 0⟩ = (150, 2000) ∧
    sliceWindow readDForward ⟨0, 1150, 50, 0⟩ = (150, 2000) ∧
    sliceWindow readDReverse ⟨0, 800, 50, 0⟩
      = sliceWindow readDForward ⟨0, 2000 - (800 + 50), 50, 0⟩ ∧
    accepted (150, 2000) = true :=
  ⟨by decide, by decide, sliceWindow_readDReverse, sliceWindow_readDForward,
    (mirror_equivalence 2000 800 50).2.2.2.1 readDReverse readDForward 0 0 0 0
      (by decide) (by decide) readDReverse_length readDForward_length,
    by decide⟩

end Delly
